import Mathlib

/-!
Verification of the brain document database core: shallow embedding of
src/brain/logic.py and src/brain/connection.py over an abstract relational
state, with the Field codec modelled from the specification (brain/interface.py
is not part of the sources).
-/

set_option linter.unusedVariables false

namespace Brain

/-- A path name element: a string map key, an integer list index, or a
wildcard (Python `None`). -/
inductive NElem where
  | s (k : String)
  | i (n : Int)
  | w
deriving DecidableEq, Repr

/-- Scalar type tags plus the two container sentinel tags; one physical
per-field table per (name, tag) pair. -/
inductive TypeTag where
  | tnull
  | ttext
  | tint
  | treal
  | tblob
  | temap
  | telist
deriving DecidableEq, Repr

/-- A Python value: `none` is both the null scalar and the hole placeholder
used by `_saveTo`; `dict`/`list` cover documents and the empty-container
sentinels (`dict []` is Python `{}`). -/
inductive Py where
  | none
  | str (s : String)
  | int (n : Int)
  | real (q : Int)
  | blob (b : List Nat)
  | dict (es : List (String × Py))
  | list (es : List Py)

/-- The type tag of a value (engine `getColumnType`, driven by the Python
type of the value). -/
def Py.tag : Py → TypeTag
  | .none => .tnull
  | .str _ => .ttext
  | .int _ => .tint
  | .real _ => .treal
  | .blob _ => .tblob
  | .dict _ => .temap
  | .list _ => .telist

/-- Python `None` test (`is None`). -/
def isNonePy : Py → Bool
  | .none => true
  | _ => false

/-- Python `== {}` on values (only the empty dict compares equal). -/
def isEmptyMapPy : Py → Bool
  | .dict [] => true
  | _ => false

/-- Python `== []` on values. -/
def isEmptyListPy : Py → Bool
  | .list [] => true
  | _ => false

/-- The container seeded for the next path segment: a dict for a string
key, a list otherwise (`isinstance(path[0], str)`). -/
def seedFor : NElem → Py
  | .s _ => Py.dict []
  | _ => Py.list []

/-- A storage field (`brain.interface.Field`): a path plus a Python value
(`py_value`); the type tag is the tag of the value. Modelled from the spec
(§3): brain/interface.py is absent from the sources, and a valueless field
carries Python `None`. -/
structure Fld where
  name : List NElem
  val : Py := .none

/-- `name_str_no_type` (spec §3): integer indices replaced by the wildcard
placeholder. -/
def noType (n : List NElem) : List NElem :=
  n.map fun e =>
    match e with
    | .i _ => .w
    | x => x

/-- Whether a name element occupies a numeric column (integer or wildcard). -/
def isNumE : NElem → Bool
  | .i _ => true
  | .w => true
  | .s _ => false

/-- The ordered numeric segments of a name; segment `j` corresponds to
column `cj` of the per-field table. -/
def numSegs (n : List NElem) : List NElem := n.filter isNumE

def condMatchesAux : List NElem → List Int → Bool
  | [], _ => true
  | .i k :: rest, vs =>
    match vs with
    | [] => false
    | v :: vs' => v == k && condMatchesAux rest vs'
  | _ :: rest, vs => condMatchesAux rest vs.tail

/-- Modelled from the spec (§4.2): `columns_condition` constrains, for each
integer index fixed in the name, the corresponding numeric column of the
row. -/
def condMatches (n : List NElem) (idx : List Int) : Bool :=
  condMatchesAux (numSegs n) idx

/-- Modelled from the spec (§4.2 `renumberList`): the prefix numeric columns
(all but the last) must match the integer indices fixed in the name. -/
def renumberCond (n : List NElem) (idx : List Int) : Bool :=
  condMatchesAux (numSegs n).dropLast idx

/-- Position of the last numeric column of a name (`getLastListColumn`). -/
def lastNumPos (n : List NElem) : Nat := (numSegs n).length - 1

/-- Value of the last numeric column of a name, when it is a concrete
integer (`getLastListColumn`). -/
def lastNumVal (n : List NElem) : Option Int :=
  match (numSegs n).getLast? with
  | some (.i k) => some k
  | _ => Option.none

/-- The concrete integer indices of a determined name, in column order
(`columns_values`). -/
def intIndices (n : List NElem) : List Int :=
  n.filterMap fun e =>
    match e with
    | .i k => some k
    | _ => Option.none

/-- Substitute the selected numeric columns into the numeric positions of a
name (`getDeterminedName`). -/
def determinedName : List NElem → List Int → List NElem
  | [], _ => []
  | .s k :: rest, idx => .s k :: determinedName rest idx
  | e :: rest, [] => e :: determinedName rest []
  | _ :: rest, v :: vs => .i v :: determinedName rest vs

/-- `fld.name[:len(m)] = m`: replace the first `m.length` elements of `f`
by `m`. -/
def substHead (m f : List NElem) : List NElem := m ++ f.drop m.length

/-- The strictly-longer-extension match of `getFieldsList`
(regexp `^name\.\.` over the `..`-joined encoding): under benign keys the
encoded empty name is never a proper prefix of another encoded name. -/
def strictChild (p f : List NElem) : Bool :=
  !p.isEmpty && decide (p.length < f.length) && (f.take p.length == p)

/-- The prefix-or-equal match of `getRawFieldsInfo`
(regexp `^name(\.\.|$)`). -/
def rawMatch (p f : List NElem) : Bool :=
  f == p || strictChild p f

def isIntE : NElem → Bool
  | .i _ => true
  | _ => false

def elemCompat (a b : NElem) : Bool :=
  a == b || (a == .w && isIntE b) || (b == .w && isIntE a)

/-- `Field.matches`: the mask is segment-wise compatible with an initial
part of the name. Modelled from the spec (§4.1), with extension on the name
side as required by `getFieldsInfo` and the read path. -/
def fldMatches (name mask : List NElem) : Bool :=
  decide (mask.length ≤ name.length) &&
    ((name.zip mask).all fun p => elemCompat p.1 p.2)

/-- `Field.pointsToListElement`: nonempty name ending in a concrete integer
index. -/
def pointsToListElement (n : List NElem) : Bool :=
  match n.getLast? with
  | some (.i _) => true
  | _ => false

def firstDistinctAux [BEq α] (seen : List α) : List α → List α
  | [] => []
  | x :: xs =>
    if seen.contains x then firstDistinctAux seen xs
    else x :: firstDistinctAux (x :: seen) xs

/-- First-occurrence deduplication (`SELECT DISTINCT` row order, Python dict
key order). -/
def firstDistinct [BEq α] (l : List α) : List α := firstDistinctAux [] l

/-- Python `repr` of a name list, used in error messages. -/
def reprName (n : List NElem) : String :=
  "[" ++ String.intercalate ", " (n.map fun e =>
    match e with
    | .s k => "\x27" ++ k ++ "\x27"
    | .i v => toString v
    | .w => "None") ++ "]"

/-- A row of a per-field table: `(id, value, c0, c1, ...)`. -/
structure Row where
  oid : Int
  val : Py
  idx : List Int

/-- A row of the specification table `id_table`:
`(id, field, type, refcount)`. -/
structure SRow where
  oid : Int
  fname : List NElem
  tag : TypeTag
  refcount : Int
deriving DecidableEq, Repr

/-- A per-field table key: `name_str` = wildcarded name plus type tag; the
encoding is injective on such pairs (spec §3). -/
structure TKey where
  fname : List NElem
  tag : TypeTag
deriving DecidableEq, Repr

/-- The database state: the specification table and the per-field tables,
in creation order. -/
structure DB where
  spec : List SRow
  tables : List (TKey × List Row)

def DB.table? (db : DB) (k : TKey) : Option (List Row) :=
  (db.tables.find? fun t => t.1 == k).map Prod.snd

def DB.tableExists (db : DB) (k : TKey) : Bool := (db.table? k).isSome

def setTable (db : DB) (k : TKey) (rows : List Row) : DB :=
  { db with tables := db.tables.map fun t => if t.1 == k then (k, rows) else t }

def dropTable (db : DB) (k : TKey) : DB :=
  { db with tables := db.tables.filter fun t => !(t.1 == k) }

/-- Failure kinds: engine faults on missing tables, Python-level runtime
errors, and the StructureError / LogicError taxonomy of §7. -/
inductive Err where
  | engine
  | pyErr
  | structureErr (msg : String)
  | logicErr (msg : String)
deriving DecidableEq, Repr

/-! ### Structure layer (`_StructureLayer`) -/

/-- `getValueTypes`: the types recorded in the specification table for this
object and name, in table order. -/
def getValueTypes (db : DB) (id : Int) (name : List NElem) : List TypeTag :=
  (db.spec.filter fun r => r.oid == id && r.fname == noType name).map (·.tag)

/-- `increaseRefcount`: insert a fresh `(id, field, type, 1)` row when the
type is new for this field, otherwise increment the existing counter. -/
def increaseRefcount (db : DB) (id : Int) (f : Fld) : DB :=
  if !((getValueTypes db id f.name).contains f.val.tag) then
    { db with spec := db.spec ++ [⟨id, noType f.name, f.val.tag, 1⟩] }
  else
    { db with spec := db.spec.map fun r =>
        if r.oid == id && r.fname == noType f.name && r.tag == f.val.tag then
          { r with refcount := r.refcount + 1 }
        else r }

/-- `decreaseRefcount`: read the counter (IndexError when absent), delete
the row when it equals the decrement, otherwise subtract. -/
def decreaseRefcount (db : DB) (id : Int) (f : Fld) (num : Int) : Except Err DB :=
  let l := (db.spec.filter fun r =>
    r.oid == id && r.fname == noType f.name && r.tag == f.val.tag).map (·.refcount)
  match l.head? with
  | Option.none => .error .pyErr
  | some r =>
    if r == num then
      pure { db with spec := db.spec.filter fun s =>
        !(s.oid == id && s.fname == noType f.name && s.tag == f.val.tag) }
    else
      pure { db with spec := db.spec.map fun s =>
        if s.oid == id && s.fname == noType f.name && s.tag == f.val.tag then
          { s with refcount := s.refcount - num }
        else s }

/-- `getFieldsList`: the distinct specification names of the object,
restricted to strict extensions of `f` when given (with the concrete prefix
substituted back), plus `f` itself unless excluded. -/
def getFieldsList (db : DB) (id : Int) (f : Option (List NElem))
    (excludeSelf : Bool) : List (List NElem) :=
  let matched := (db.spec.filter fun r => r.oid == id &&
      (match f with
       | Option.none => true
       | some p => strictChild (noType p) r.fname)).map (·.fname)
  let names := firstDistinct matched
  match f with
  | Option.none => names
  | some p =>
    let names := names.map fun nm => substHead p nm
    if excludeSelf then names else names ++ [p]

/-- `getRawFieldsInfo`: name strings of the object matching at least one
mask, in first-appearance order, each with its types in scan order. -/
def getRawFieldsInfo (db : DB) (id : Int) (masks : Option (List Fld)) :
    List (List NElem × List TypeTag) :=
  let rows := db.spec.filter fun r => r.oid == id &&
    (match masks with
     | Option.none => true
     | some ms => ms.any fun m => rawMatch (noType m.name) r.fname)
  let names := firstDistinct (rows.map (·.fname))
  names.map fun nm => (nm, (rows.filter fun r => r.fname == nm).map (·.tag))

/-- The value created when a type tag is assigned to a valueless field
(the `type_str` setter); it only ever selects the per-field table.
Modelled from the spec. -/
def defaultPy : TypeTag → Py
  | .tnull => .none
  | .ttext => .str ""
  | .tint => .int 0
  | .treal => .real 0
  | .tblob => .blob []
  | .temap => .dict []
  | .telist => .list []

/-- `getFieldsInfo`: partially defined typed fields matching the masks,
with the mask prefix substituted into each matching name. -/
def getFieldsInfo (db : DB) (id : Int) (masks : Option (List Fld)) : List Fld :=
  (getRawFieldsInfo db id masks).flatMap fun nt =>
    match masks with
    | Option.none => nt.2.map fun t => Fld.mk nt.1 (defaultPy t)
    | some ms => ms.flatMap fun m =>
        if fldMatches nt.1 m.name then
          nt.2.map fun t => Fld.mk (substHead m.name nt.1) (defaultPy t)
        else []

/-- `objectExists`: at least one specification row bears the id. -/
def objectExists (db : DB) (id : Int) : Bool :=
  db.spec.any fun r => r.oid == id

/-- `getFieldValue`: empty when the per-field table does not exist,
otherwise the rows of the object matching the wildcard pattern, with the
selected numeric columns substituted into the name. -/
def getFieldValue (db : DB) (id : Int) (f : Fld) : List Fld :=
  match db.table? ⟨noType f.name, f.val.tag⟩ with
  | Option.none => []
  | some rows =>
    (rows.filter fun r => r.oid == id && condMatches f.name r.idx).map
      fun r => Fld.mk (determinedName f.name r.idx) r.val

/-- `assureFieldTableExists`: create the (empty) per-field table if absent. -/
def assureFieldTableExists (db : DB) (f : Fld) : DB :=
  let k : TKey := ⟨noType f.name, f.val.tag⟩
  if db.tableExists k then db else { db with tables := db.tables ++ [(k, [])] }

/-- `renumberList`: for each type of the child field, shift the last numeric
column of the target by `shift` on rows of the object whose prefix columns
match and whose column value is at least the starting index. -/
def renumberList (db : DB) (id : Int) (target : List NElem)
    (fname : List NElem) (shift : Int) : Except Err DB :=
  let pos := lastNumPos target
  let start? := lastNumVal target
  let types := getValueTypes db id fname
  types.foldlM (fun db t =>
    match db.table? ⟨noType fname, t⟩ with
    | Option.none => .error .engine
    | some rows =>
      let rows := rows.map fun r =>
        match start?, r.idx.get? pos with
        | some v, some c =>
          if r.oid == id && renumberCond target r.idx && v ≤ c then
            { r with idx := r.idx.set pos (c + shift) }
          else r
        | _, _ => r
      pure (setTable db ⟨noType fname, t⟩ rows)) db

/-- One type of `deleteValues`: count the object rows matching the
condition, decrement the refcount by that number, delete the rows, and
drop the table when it becomes empty. -/
def deleteValuesType (db : DB) (id : Int) (name : List NElem)
    (cond : List Int → Bool) (t : TypeTag) : Except Err DB :=
  let k : TKey := ⟨noType name, t⟩
  match db.table? k with
  | Option.none => .error .engine
  | some rows =>
    let delNum := rows.countP fun r => r.oid == id && cond r.idx
    if delNum == 0 then pure db
    else do
      let db ← decreaseRefcount db id ⟨name, defaultPy t⟩ (delNum : Int)
      let rows' := rows.filter fun r => !(r.oid == id && cond r.idx)
      let db := setTable db k rows'
      if rows'.isEmpty then pure (dropTable db k) else pure db

/-- `deleteValues`: run the per-type deletion for each type of the field,
with the field mask as the default condition. -/
def deleteValues (db : DB) (id : Int) (name : List NElem)
    (cond? : Option (List Int → Bool)) : Except Err DB :=
  let cond := cond?.getD (condMatches name)
  let types := getValueTypes db id name
  types.foldlM (fun db t => deleteValuesType db id name cond t) db

/-- `addValueRecord`: insert `(id, value, indices)` into the per-field
table. -/
def addValueRecord (db : DB) (id : Int) (f : Fld) : Except Err DB :=
  let k : TKey := ⟨noType f.name, f.val.tag⟩
  match db.table? k with
  | Option.none => .error .engine
  | some rows => pure (setTable db k (rows ++ [⟨id, f.val, intIndices f.name⟩]))

/-- `getMaxListIndex`: the maximum value of the target's last numeric column
over the rows of the object in every table matching the mask, or `none` for
an empty list (Python accumulates from `-1`). -/
def getMaxListIndex (db : DB) (id : Int) (f : Fld) : Except Err (Option Int) := do
  let pos := lastNumPos f.name
  let flds := getFieldsInfo db id (some [f])
  let m ← flds.foldlM (fun (m : Int) fl =>
    match db.table? ⟨noType fl.name, fl.val.tag⟩ with
    | Option.none => .error Err.engine
    | some rows =>
      let vs := (rows.filter fun r => r.oid == id && renumberCond f.name r.idx).filterMap
        fun r => r.idx.get? pos
      match vs with
      | [] => pure m
      | v :: rest =>
        let mv := rest.foldl (fun a b => if a < b then b else a) v
        pure (if mv > m then mv else m)) (-1 : Int)
  pure (if m == -1 then Option.none else some m)

/-- `objectHasField`: true outright for the root name; otherwise a union of
per-type selects with the field's column condition must be non-empty. -/
def objectHasField (db : DB) (id : Int) (name : List NElem) : Except Err Bool :=
  if name.isEmpty then pure true
  else
    let types := getValueTypes db id name
    if types.isEmpty then pure false
    else do
      let counts ← types.mapM fun t =>
        match db.table? ⟨noType name, t⟩ with
        | Option.none => .error Err.engine
        | some rows => pure (rows.countP fun r => r.oid == id && condMatches name r.idx)
      pure (counts.any fun c => c > 0)

/-- `deleteSpecification`: remove every specification row of the object. -/
def deleteSpecification (db : DB) (id : Int) : DB :=
  { db with spec := db.spec.filter fun r => !(r.oid == id) }

/-- The specification table rebuilt from the `(id, name, type)` triples
scanned out of the per-field tables: ids and names in first-appearance
order, refcounts by counting. -/
def repairSpec (triples : List (Int × List NElem × TypeTag)) : List SRow :=
  let ids := firstDistinct (triples.map (·.1))
  ids.flatMap fun i =>
    let mine := triples.filter fun tr => tr.1 == i
    let names := firstDistinct (mine.map (·.2.1))
    names.flatMap fun nm =>
      let those := mine.filter fun tr => tr.2.1 == nm
      let tags := firstDistinct (those.map (·.2.2))
      tags.map fun tg =>
        SRow.mk i nm tg ((those.countP fun tr => tr.2.2 == tg : Nat) : Int)

/-- `repairSupportTables`: rebuild the specification table by scanning every
per-field table and counting rows per `(id, name, type)`, ids and names in
first-appearance order. -/
def repairSupportTables (db : DB) : DB :=
  let triples := db.tables.flatMap fun t => t.2.map fun r => (r.oid, t.1.fname, t.1.tag)
  { db with spec := repairSpec triples }

/-! ### Logic layer (`LogicLayer`) -/

/-- `_setFieldValue`: assure the table, bump the refcount, insert the row. -/
def setFieldValue (db : DB) (id : Int) (f : Fld) : Except Err DB :=
  let db := assureFieldTableExists db f
  let db := increaseRefcount db id f
  addValueRecord db id f

/-- `_renumber`: for every child field of the target (and the target
itself), delete the matching rows first when shifting down, then shift the
remaining indices. -/
def renumber (db : DB) (id : Int) (target : List NElem) (shift : Int) :
    Except Err DB :=
  let fields := getFieldsList db id (some target) false
  fields.foldlM (fun db nm => do
    let db ← if shift < 0 then
        deleteValues db id nm (some (condMatches target))
      else pure db
    renumberList db id target nm shift) db

/-- `_deleteField`: renumber when the field points to a list element,
otherwise delete the whole subtree by mask. -/
def deleteField (db : DB) (id : Int) (name : List NElem) : Except Err DB :=
  if !name.isEmpty && pointsToListElement name then
    renumber db id name (-1)
  else
    (getFieldsList db id (some name) false).foldlM
      (fun db nm => deleteValues db id nm Option.none) db

/-- The Python range of integers `[a, b)`. -/
def intRange (a b : Int) : List Int :=
  (List.range (b - a).toNat).map fun (j : Nat) => a + (j : Int)

/-- `_fillWithNones`: write explicit `null` fields at the indices between
the current maximum of the enclosing list and the last (integer) segment of
the path. -/
def fillWithNones (db : DB) (id : Int) (path : List NElem) : Except Err DB := do
  let max? ← getMaxListIndex db id ⟨path, .none⟩
  let start : Int :=
    match max? with
    | Option.none => 0
    | some m => m + 1
  match path.getLast? with
  | some (.i endv) =>
    (intRange start endv).foldlM (fun db j =>
      setFieldValue db id ⟨path.dropLast ++ [.i j], .none⟩) db
  | _ => .error .pyErr

/-- The rebuild loop of `_checkForConflicts` under `remove_conflicts`: for
each remaining segment, store the matching empty-container sentinel at the
current prefix (padding new list elements first) and extend the prefix. -/
def rebuildHierarchy (db : DB) (id : Int) (pre rest : List NElem) :
    Except Err DB :=
  match rest with
  | [] => pure db
  | nxt :: rest' => do
    let v : Py :=
      match nxt with
      | .s _ => .dict []
      | _ => .list []
    let db ← if pointsToListElement pre then fillWithNones db id pre else pure db
    let db ← setFieldValue db id ⟨pre, v⟩
    rebuildHierarchy db id (pre ++ [nxt]) rest'

/-- The per-type read of all values stored at a name, as performed by the
conflict walk (`getValueTypes` then `getFieldValue` for each type). -/
def getValuesAllTypes (db : DB) (id : Int) (name : List NElem) : List Py :=
  ((getValueTypes db id name).flatMap fun t =>
    getFieldValue db id ⟨name, defaultPy t⟩).map (·.val)

/-- `_checkForConflicts`: walk the prefixes of the path left to right; stop
silently at the first prefix holding no values; at a prefix whose values do
not include the sentinel matching the next segment, either fail with
StructureError or delete the subtree and rebuild the hierarchy. -/
def checkForConflicts (db : DB) (id : Int) (pre rest : List NElem)
    (rc : Bool) : Except Err DB :=
  match rest with
  | [] => pure db
  | nxt :: rest' =>
    let values := getValuesAllTypes db id pre
    if values.isEmpty then pure db
    else
      let nextIsStr : Bool :=
        match nxt with
        | .s _ => true
        | _ => false
      let okMap := nextIsStr && values.any isEmptyMapPy
      let okList := !nextIsStr && values.any isEmptyListPy
      if !okMap && !okList then
        if rc then do
          let db ← (getFieldsList db id (some pre) false).foldlM
            (fun db nm => deleteValues db id nm Option.none) db
          rebuildHierarchy db id pre (nxt :: rest')
        else
          .error (.structureErr ("Path " ++ reprName (pre ++ [nxt]) ++
            " conflicts with existing structure"))
      else checkForConflicts db id (pre ++ [nxt]) rest' rc

def fillAlongAux (db : DB) (id : Int) (path : List NElem) :
    Nat → Except Err DB
  | 0 => pure db
  | n + 1 => do
    let cur := path.take (n + 1)
    let db ← if pointsToListElement cur then fillWithNones db id cur else pure db
    fillAlongAux db id path n

/-- The fill loop of `_modifyFields`: pad the enclosing list of every
integer segment of the path, deepest first (the Python loop pops segments
off the end of a copy of the path). -/
def fillAlong (db : DB) (id : Int) (path : List NElem) : Except Err DB :=
  fillAlongAux db id path path.length

/-- `_modifyFields`: delete the existing subtree when the path already
holds something, otherwise check the prefixes for conflicts and pad
autocreated list elements; then store every payload field under the path. -/
def modifyFields (db : DB) (id : Int) (path : List NElem)
    (fields : List Fld) (rc : Bool) : Except Err DB := do
  let hasF ← objectHasField db id path
  let db ←
    if hasF then
      (getFieldsList db id (some path) false).foldlM
        (fun db nm => deleteValues db id nm (some (condMatches path))) db
    else do
      let db ← checkForConflicts db id [] path rc
      fillAlong db id path
  fields.foldlM (fun db f => setFieldValue db id ⟨path ++ f.name, f.val⟩) db

/-- `processCreateRequest`: store the payload at the root of a fresh id,
with conflict removal forced on. -/
def processCreateRequest (db : DB) (newId : Int) (fields : List Fld) :
    Except Err DB :=
  modifyFields db newId [] fields true

def processModifyRequest (db : DB) (id : Int) (path : List NElem)
    (fields : List Fld) (rc : Bool) : Except Err DB :=
  modifyFields db id path fields rc

/-- `_deleteObject`: delete every field of the object, then clear its
specification rows. -/
def deleteObject (db : DB) (id : Int) : Except Err DB := do
  let fields := getFieldsList db id Option.none false
  let db ← fields.foldlM (fun db nm => deleteField db id nm) db
  pure (deleteSpecification db id)

def processDeleteRequest (db : DB) (id : Int)
    (fields? : Option (List (List NElem))) : Except Err DB :=
  match fields? with
  | some fs => fs.foldlM (fun db f => deleteField db id f) db
  | Option.none => deleteObject db id

def stripHead (plen : Nat) (f : Fld) : Fld := ⟨f.name.drop plen, f.val⟩

/-- The materialization step of `processReadRequest`: the typed fields
matching the effective masks, each expanded to its concrete values. -/
def readMaterialize (db : DB) (id : Int) (fields : Option (List Fld)) :
    List Fld :=
  (getFieldsInfo db id fields).flatMap fun f => getFieldValue db id f

/-- The effective mask list of `processReadRequest`: the masks matching the
path when both are given, the path alone, or everything. -/
def readEffectiveMasks (path? : Option (List NElem))
    (masks? : Option (List (List NElem))) : Option (List Fld) :=
  let path :=
    match path? with
    | some p => if p.isEmpty then Option.none else some p
    | Option.none => Option.none
  match masks? with
  | some ms =>
    if ms.isEmpty then
      match path with
      | Option.none => Option.none
      | some p => some [⟨p, .none⟩]
    else
      some ((ms.filter fun m =>
        match path with
        | Option.none => true
        | some p => fldMatches m p).map fun m => Fld.mk m .none)
  | Option.none =>
    match path with
    | Option.none => Option.none
    | some p => some [⟨p, .none⟩]

/-- `processReadRequest`: materialize the matching fields, fail with
LogicError when none were read, and strip the path prefix from the result
names. -/
def processReadRequest (db : DB) (id : Int) (path? : Option (List NElem))
    (masks? : Option (List (List NElem))) : Except Err (List Fld) :=
  let results := readMaterialize db id (readEffectiveMasks path? masks?)
  if results.isEmpty then
    .error (.logicErr
      (match masks? with
       | some ms =>
         if ms.isEmpty then
           match path? with
           | some p =>
             if p.isEmpty then "Object " ++ toString id ++ " does not exist"
             else "Object " ++ toString id ++ " does not have field " ++ reprName p
           | Option.none => "Object " ++ toString id ++ " does not exist"
         else "Object " ++ toString id ++ " does not have fields matching given masks"
       | Option.none =>
         match path? with
         | some p =>
           if p.isEmpty then "Object " ++ toString id ++ " does not exist"
           else "Object " ++ toString id ++ " does not have field " ++ reprName p
         | Option.none => "Object " ++ toString id ++ " does not exist"))
  else
    pure (match path? with
      | Option.none => results
      | some p => results.map (stripHead p.length))

/-- `enumerate` inside `processInsertRequest`: give the groups consecutive
indices at the target column, starting at `start`. -/
def enumerateGroups (groups : List (List Fld)) (col : Nat) (start : Int) :
    List (List Fld) :=
  groups.mapIdx fun gi g => g.map fun f =>
    Fld.mk (f.name.set col (.i (start + (gi : Int)))) f.val

/-- The final write phase of `processInsertRequest`: flatten the groups and
store every field. -/
def storeGroups (db : DB) (id : Int) (groups : List (List Fld)) :
    Except Err DB :=
  (groups.foldl (fun acc g => acc ++ g) []).foldlM
    (fun db f => setFieldValue db id f) db

/-- `processInsertRequest`: autocreate the target list when the parent does
not hold the empty-list sentinel (StructureError when it holds something
else and conflicts are kept), pad up to a positive defined insertion index,
then number the groups from 0 / from `max + 1` / from the insertion point
after shifting. The parent read follows the spec (§4.3.2): the stored
values of the parent path are consulted (brain/interface.py, which fixes
the default type of a valueless field, is absent from the sources). -/
def insertAutocreate (db : DB) (id : Int) (parentName : List NElem)
    (rc : Bool) : Except Err DB :=
  let parent := getValuesAllTypes db id parentName
  let headIsEmptyList : Bool :=
    match parent.head? with
    | some v => isEmptyListPy v
    | Option.none => false
  if parent.isEmpty || !headIsEmptyList then
    if parent.isEmpty || rc then
      modifyFields db id parentName [⟨[], .list []⟩] rc
    else
      .error (.structureErr "Cannot insert to non-list")
  else pure db

def insertPad (db : DB) (id : Int) (path : List NElem) : Except Err DB :=
  match path.getLast? with
  | some (.i k) => if k > 0 then fillWithNones db id path else pure db
  | some .w => pure db
  | _ => .error .pyErr

def processInsertRequest (db : DB) (id : Int) (path : List NElem)
    (groups : List (List Fld)) (rc : Bool) : Except Err DB := do
  let db ← insertAutocreate db id path.dropLast rc
  let db ← insertPad db id path
  let targetCol := path.length - 1
  let max? ← getMaxListIndex db id ⟨path, .none⟩
  match max? with
  | Option.none => storeGroups db id (enumerateGroups groups targetCol 0)
  | some m =>
    match path.get? targetCol with
    | some .w => storeGroups db id (enumerateGroups groups targetCol (m + 1))
    | some (.i k) => do
      let db ← renumber db id path (groups.length : Int)
      storeGroups db id (enumerateGroups groups targetCol k)
    | _ => .error .pyErr

/-! ### Field codec (`brain/connection.py`) -/

mutual

/-- `_flattenHierarchy.flattenNode`: emit the empty-container sentinel for
the prefix, then recurse into the children (map keys in order, list items
by 0-based index); scalars emit themselves. -/
def flattenNode : Py → List NElem → List (List NElem × Py)
  | .dict es, pre => (pre, Py.dict []) :: flattenEntries es pre
  | .list es, pre => (pre, Py.list []) :: flattenItems es pre 0
  | v, pre => [(pre, v)]

def flattenEntries : List (String × Py) → List NElem → List (List NElem × Py)
  | [], _ => []
  | (k, d) :: rest, pre => flattenNode d (pre ++ [.s k]) ++ flattenEntries rest pre

def flattenItems : List Py → List NElem → Nat → List (List NElem × Py)
  | [], _, _ => []
  | d :: rest, pre, i =>
    flattenNode d (pre ++ [.i (i : Int)]) ++ flattenItems rest pre (i + 1)

end

/-- `_flattenHierarchy`: a document as a flat list of fields. -/
def flattenHierarchy (d : Py) : List Fld :=
  (flattenNode d []).map fun pv => Fld.mk pv.1 pv.2

/-- The value is not an empty-container sentinel
(Python `value != [] and value != {}`). -/
def notEmptySentinel : Py → Bool
  | .dict [] => false
  | .list [] => false
  | _ => true

/-- The ensure step of `_saveTo`: extend a short list with `None` holes, or
insert a missing dictionary key bound to `None`. Ill-typed pointer/object
combinations are Python type errors (`Option.none`); a dictionary never
receives a non-string key here because built containers are keyed by the
next path segment. -/
def ensureAt (obj : Py) (ptr : NElem) : Option Py :=
  match obj, ptr with
  | .list es, .i n =>
    if (es.length : Int) < n + 1 then
      some (.list (es ++ List.replicate (n + 1 - es.length).toNat .none))
    else some (.list es)
  | .dict es, .s k =>
    if es.any fun kv => kv.1 == k then some (.dict es)
    else some (.dict (es ++ [(k, .none)]))
  | .dict es, _ => Option.none
  | _, _ => Option.none

/-- `obj[ptr]` (negative list indices resolve from the end). -/
def getAt (obj : Py) (ptr : NElem) : Option Py :=
  match obj, ptr with
  | .list es, .i n =>
    let j := if n ≥ 0 then n else (es.length : Int) + n
    if 0 ≤ j ∧ j < (es.length : Int) then es.get? j.toNat else Option.none
  | .dict es, .s k => (es.find? fun kv => kv.1 == k).map Prod.snd
  | _, _ => Option.none

/-- `obj[ptr] = v`. -/
def setAt (obj : Py) (ptr : NElem) (v : Py) : Option Py :=
  match obj, ptr with
  | .list es, .i n =>
    let j := if n ≥ 0 then n else (es.length : Int) + n
    if 0 ≤ j ∧ j < (es.length : Int) then some (.list (es.set j.toNat v))
    else Option.none
  | .dict es, .s k =>
    if es.any fun kv => kv.1 == k then
      some (.dict (es.map fun kv => if kv.1 == k then (k, v) else kv))
    else Option.none
  | _, _ => Option.none

/-- `_saveTo`: ensure a slot at the pointer, then either store the value at
a leaf (empty-container sentinels never overwrite a non-`None` slot) or
seed a container matching the next segment and recurse. -/
def saveTo (obj : Py) (ptr : NElem) (path : List NElem) (value : Py) :
    Option Py :=
  match ensureAt obj ptr with
  | Option.none => Option.none
  | some obj =>
    match getAt obj ptr with
    | Option.none => Option.none
    | some c =>
      match path with
      | [] =>
        if notEmptySentinel value || isNonePy c then setAt obj ptr value
        else some obj
      | p0 :: prest =>
        match saveTo (if isNonePy c then seedFor p0 else c) p0 prest value with
        | Option.none => Option.none
        | some c' => setAt obj ptr c'

/-- `_fieldsToTree`: fold the fields into a fresh single-slot root and
return its first element; the empty field list yields the empty list. -/
def fieldsToTree (fields : List Fld) : Option Py :=
  if fields.isEmpty then some (Py.list [])
  else
    match fields.foldlM (fun o f => saveTo o (.i 0) f.name f.val) (Py.list []) with
    | some (.list (x :: _)) => some x
    | _ => Option.none

def nodupStr : List String → Bool
  | [] => true
  | x :: xs => !(xs.contains x) && nodupStr xs

/-- Apply a sequence of `_saveTo` calls with a fixed pointer into the same
object (the loop of `_fieldsToTree`). -/
def applySeq (o : Py) (ptr : NElem) (pairs : List (List NElem × Py)) :
    Option Py :=
  pairs.foldlM (fun o pv => saveTo o ptr pv.1 pv.2) o

/-- Place a finished document into a fresh slot of a container: append to a
list at its current length, or insert a new dictionary key. -/
def placeSlot (o : Py) (ptr : NElem) (d : Py) : Option Py :=
  match o, ptr with
  | .list es, .i n =>
    if n = (es.length : Int) then some (.list (es ++ [d])) else Option.none
  | .dict es, .s k =>
    if es.any fun kv => kv.1 == k then Option.none
    else some (.dict (es ++ [(k, d)]))
  | _, _ => Option.none

def isContainer (o : Py) : Prop :=
  (∃ es, o = Py.list es) ∨ (∃ es, o = Py.dict es)

mutual

/-- A well-formed Python document: every dictionary has distinct keys. -/
def wfDoc : Py → Bool
  | .dict es => nodupStr (es.map Prod.fst) && wfEntries es
  | .list es => wfItems es
  | _ => true

def wfEntries : List (String × Py) → Bool
  | [] => true
  | (_, d) :: rest => wfDoc d && wfEntries rest

def wfItems : List Py → Bool
  | [] => true
  | d :: rest => wfDoc d && wfItems rest

end

/-! ### Condition compiler (`buildSqlQuery`) and search -/

inductive CmpOp where
  | eq
  | regexp
  | lt
  | gt
  | lte
  | gte
deriving DecidableEq, Repr

inductive BoolOp where
  | and
  | or
deriving DecidableEq, Repr

/-- A search condition tree; a leaf whose first operand is `none` marks a
reference to a per-field table that does not exist (`updateCondition`). -/
inductive Cond where
  | leaf (op1 : Option Fld) (cop : CmpOp) (op2 : Fld) (invert : Bool)
  | node (c1 : Cond) (bop : BoolOp) (c2 : Cond) (invert : Bool)

def cmpStr : CmpOp → String
  | .eq => "="
  | .regexp => "REGEXP"
  | .lt => "<"
  | .gt => ">"
  | .lte => "<="
  | .gte => ">="

/-- A table reference emitted by the compiler: the specification table or a
per-field table. -/
inductive TableRef where
  | idTable
  | field (k : TKey)
deriving DecidableEq, Repr

/-- The per-field table consulted by a leaf comparison. Modelled from the
spec: the valueless first operand takes the comparison value's type tag. -/
def leafKey (op1 : Fld) (op2 : Fld) : TKey := ⟨noType op1.name, op2.val.tag⟩

/-- `columns_condition` rendered as SQL text for the leaf query. Modelled
from the spec (§4.2). -/
def columnsCondStr (n : List NElem) : String :=
  String.join ((numSegs n).mapIdx fun j e =>
    match e with
    | .i k => " AND c" ++ toString j ++ "=" ++ toString k
    | _ => "")

/-- The recursive body of `buildSqlQuery` on condition trees (the recursive
calls always receive the interior operands, which are conditions). -/
def buildSqlQueryCond : Cond → Option (String × List TableRef × List Py)
  | .node c1 bop c2 _ =>
    let r1 := buildSqlQueryCond c1
    let r2 := buildSqlQueryCond c2
    match r1, r2 with
    | Option.none, Option.none => Option.none
    | Option.none, some r2 =>
      (match bop with
       | .and => Option.none
       | .or => some r2)
    | some r1, Option.none =>
      (match bop with
       | .and => Option.none
       | .or => some r1)
    | some (s1, t1, v1), some (s2, t2, v2) =>
      let opstr :=
        match bop with
        | .and => "INTERSECT"
        | .or => "UNION"
      some ("SELECT * FROM (" ++ s1 ++ ") as temp " ++ opstr ++
        " SELECT * FROM (" ++ s2 ++ ") as temp", t1 ++ t2, v1 ++ v2)
  | .leaf op1? cop op2 invert =>
    match op1? with
    | Option.none =>
      if invert then
        some ("SELECT DISTINCT id FROM \x7b\x7d", [TableRef.idTable], [])
      else Option.none
    | some op1 =>
      let notStr := if invert then " NOT " else " "
      let compStr := "WHERE " ++ notStr ++ " value " ++ cmpStr cop ++ " ?"
      let result := "SELECT DISTINCT id FROM \x7b\x7d " ++ compStr ++ " " ++
        columnsCondStr op1.name
      if invert then
        some (result ++ " UNION " ++
          "SELECT id FROM (SELECT DISTINCT id FROM \x7b\x7d " ++
          "EXCEPT SELECT DISTINCT id FROM \x7b\x7d) as temp",
          [TableRef.field (leafKey op1 op2), TableRef.idTable,
            TableRef.field (leafKey op1 op2)],
          [op2.val])
      else some (result, [TableRef.field (leafKey op1 op2)], [op2.val])

/-- `buildSqlQuery`: compile a condition tree to SQL text, the referenced
tables in placeholder order, and the bound values; `Option.none` stands for
the Python `None, None, None` null sub-query, and the null condition
compiles to the all-ids query over the specification table. -/
def buildSqlQuery : Option Cond → Option (String × List TableRef × List Py)
  | Option.none => some ("SELECT DISTINCT id FROM \x7b\x7d", [TableRef.idTable], [])
  | some c => buildSqlQueryCond c

/-- `getMentionedFields`: the per-field tables referenced by the leaves. -/
def getMentionedFields : Cond → List TKey
  | .node c1 _ c2 _ => getMentionedFields c1 ++ getMentionedFields c2
  | .leaf op1? _ op2 _ =>
    match op1? with
    | some op1 => [leafKey op1 op2]
    | Option.none => []

/-- `updateCondition`: null out the first operand of every leaf whose table
does not exist. -/
def updateCondition (c : Cond) (existing : List TKey) : Cond :=
  match c with
  | .node c1 bop c2 inv =>
    .node (updateCondition c1 existing) bop (updateCondition c2 existing) inv
  | .leaf op1? cop op2 inv =>
    match op1? with
    | some op1 =>
      if !(existing.contains (leafKey op1 op2)) then .leaf Option.none cop op2 inv
      else .leaf (some op1) cop op2 inv
    | Option.none => .leaf Option.none cop op2 inv

/-- `processSearchRequest` up to engine execution: restrict the condition to
existing tables and compile it; the query itself is read-only. -/
def processSearchRequest (db : DB) (cond? : Option Cond) :
    Option (String × List TableRef × List Py) :=
  match cond? with
  | Option.none => buildSqlQuery Option.none
  | some c =>
    let names := getMentionedFields c
    let existing := names.filter fun k => db.tableExists k
    buildSqlQuery (some (updateCondition c existing))

/-! ### Requests and the dispatcher -/

inductive Request where
  | create (newId : Int) (fields : List Fld)
  | modify (id : Int) (path : List NElem) (fields : List Fld) (rc : Bool)
  | insert (id : Int) (path : List NElem) (groups : List (List Fld)) (rc : Bool)
  | delete (id : Int) (fields : Option (List (List NElem)))
  | read (id : Int) (path : Option (List NElem))
      (masks : Option (List (List NElem)))
  | search (cond : Option Cond)
  | objExists (id : Int)
  | dump
  | repair

/-- The distinct object ids of the null-condition search
(`SELECT DISTINCT id FROM id_table`), used by `processDumpRequest`. -/
def allIds (db : DB) : List Int := firstDistinct (db.spec.map (·.oid))

/-- `processDumpRequest`: read every object id found by the null search. -/
def processDumpRequest (db : DB) : Except Err (List (Int × List Fld)) :=
  (allIds db).mapM fun i => do
    let flds ← processReadRequest db i Option.none Option.none
    pure (i, flds)

/-- One request through the connection preparation (`_prepareRequest`
prefixes insert group names with the path) and the logic-layer handlers,
returning the resulting state; read-only requests leave it unchanged, and
an error rolls the transaction back. -/
def processRequest (db : DB) : Request → Except Err DB
  | .create newId fields => processCreateRequest db newId fields
  | .modify id path fields rc => processModifyRequest db id path fields rc
  | .insert id path groups rc =>
    processInsertRequest db id path
      (groups.map fun g => g.map fun f => Fld.mk (path ++ f.name) f.val) rc
  | .delete id fields? => processDeleteRequest db id fields?
  | .read id path? masks? => do
    let _ ← processReadRequest db id path? masks?
    pure db
  | .search cond? =>
    let _ := processSearchRequest db cond?
    pure db
  | .objExists id =>
    let _ := objectExists db id
    pure db
  | .dump => do
    let _ ← processDumpRequest db
    pure db
  | .repair => pure (repairSupportTables db)

/-! ### Invariants and observers -/

/-- The number of rows bearing `id` in the per-field table `(fname, tg)`. -/
def tableCount (db : DB) (id : Int) (fname : List NElem) (tg : TypeTag) : Nat :=
  match db.table? ⟨fname, tg⟩ with
  | Option.none => 0
  | some rows => rows.countP fun r => r.oid == id

def SRow.key (r : SRow) : Int × List NElem × TypeTag := (r.oid, r.fname, r.tag)

/-- Refcount consistency, exactly as claimed: for every row
`(id, field, type, refcount r)` of the specification table, the per-field
table named by `(field, type)` holds exactly `r` rows whose id column
equals that id. -/
def RefcountConsistent (db : DB) : Prop :=
  ∀ r ∈ db.spec, r.refcount = ((tableCount db r.oid r.fname r.tag : Nat) : Int)

/-- The inductive invariant of the database: refcount consistency with
positive counters, key uniqueness in both the specification table and the
table directory, a specification row behind every stored row, and
wildcarded (encoded) names throughout. -/
structure Inv (db : DB) : Prop where
  nodupSpec : (db.spec.map SRow.key).Nodup
  nodupTables : (db.tables.map Prod.fst).Nodup
  counts : ∀ r ∈ db.spec, r.refcount = ((tableCount db r.oid r.fname r.tag : Nat) : Int)
  pos : ∀ r ∈ db.spec, 1 ≤ r.refcount
  complete : ∀ i f t, 0 < tableCount db i f t →
    ∃ r ∈ db.spec, r.oid = i ∧ r.fname = f ∧ r.tag = t
  specWild : ∀ r ∈ db.spec, noType r.fname = r.fname
  tableWild : ∀ p ∈ db.tables, noType (Prod.fst p).fname = (Prod.fst p).fname

/-- The empty database. -/
def emptyDB : DB := ⟨[], []⟩

/-- Integer index `j` is in use for the list at (concrete) path `q` of
object `id`: some stored row attests a field name extending `q ++ [j]`. -/
def inUseB (db : DB) (id : Int) (q : List NElem) (j : Int) : Bool :=
  db.tables.any fun t =>
    rawMatch (noType q ++ [.w]) t.1.fname &&
    t.2.any fun r => r.oid == id && condMatches (q ++ [.i j]) r.idx

/-! ## Theorems -/

/-- C10: `objectHasField` answers true for the root path on every database
state and id — including an id with no specification rows at all — and a
modify whose path is the root therefore always takes the
delete-existing-subtree branch of `_modifyFields` (whose equation below
contains no conflict checking), even when the object does not exist yet. -/
theorem claim_C10 :
    (∀ (db : DB) (id : Int), objectHasField db id [] = Except.ok true) ∧
    (∀ (db : DB) (id : Int) (fields : List Fld) (rc : Bool),
      modifyFields db id [] fields rc =
        do
          let db ← (getFieldsList db id (some []) false).foldlM
            (fun db nm => deleteValues db id nm (some (condMatches []))) db
          fields.foldlM (fun db f => setFieldValue db id ⟨[] ++ f.name, f.val⟩) db) := by
  constructor
  · intro db id
    rfl
  · intro db id fields rc
    rfl

/-- C4: compilation of leaf search conditions. An inverted leaf over an
existing table compiles to the base value-comparison query over the leaf's
per-field table, UNIONed with all ids of the specification table EXCEPT the
ids present in that per-field table; a leaf whose table does not exist
(nulled first operand, as produced by `updateCondition` for any table not
in the existing set) compiles to the null sub-query when not inverted and
to the all-ids query over the specification table when inverted. -/
theorem claim_C4 :
    (∀ (f : Fld) (cop : CmpOp) (v : Fld),
      buildSqlQuery (some (.leaf (some f) cop v true)) =
        some ("SELECT DISTINCT id FROM \x7b\x7d " ++
          ("WHERE " ++ " NOT " ++ " value " ++ cmpStr cop ++ " ?") ++ " " ++
          columnsCondStr f.name ++ " UNION " ++
          "SELECT id FROM (SELECT DISTINCT id FROM \x7b\x7d " ++
          "EXCEPT SELECT DISTINCT id FROM \x7b\x7d) as temp",
          [TableRef.field (leafKey f v), TableRef.idTable,
            TableRef.field (leafKey f v)],
          [v.val])) ∧
    (∀ (f : Fld) (cop : CmpOp) (v : Fld),
      buildSqlQuery (some (.leaf (some f) cop v false)) =
        some ("SELECT DISTINCT id FROM \x7b\x7d " ++
          ("WHERE " ++ " " ++ " value " ++ cmpStr cop ++ " ?") ++ " " ++
          columnsCondStr f.name,
          [TableRef.field (leafKey f v)], [v.val])) ∧
    (∀ (cop : CmpOp) (v : Fld),
      buildSqlQuery (some (.leaf Option.none cop v false)) = Option.none) ∧
    (∀ (cop : CmpOp) (v : Fld),
      buildSqlQuery (some (.leaf Option.none cop v true)) =
        some ("SELECT DISTINCT id FROM \x7b\x7d", [TableRef.idTable], [])) ∧
    (∀ (f : Fld) (cop : CmpOp) (v : Fld) (inv : Bool) (existing : List TKey),
      updateCondition (.leaf (some f) cop v inv) existing =
        .leaf (if existing.contains (leafKey f v) then some f else Option.none)
          cop v inv) := by
  refine ⟨fun f cop v => rfl, fun f cop v => rfl, fun cop v => rfl,
    fun cop v => rfl, fun f cop v inv existing => ?_⟩
  simp only [updateCondition]
  split <;> rename_i h
  · have hn : ¬ (leafKey f v ∈ existing) := by simpa using h
    simp [hn]
  · have hy : leafKey f v ∈ existing := by simpa using h
    simp [hy]

/-! ### Slot lemmas for the `_saveTo` round trip (C2) -/

theorem dict_find_map {es : List (String × Py)} {k : String} (x : Py) :
    ((es.map fun kv => if kv.1 == k then (k, x) else kv).find?
        fun kv => kv.1 == k) =
      ((es.find? fun kv => kv.1 == k).map fun _ => (k, x)) := by
  induction es with
  | nil => rfl
  | cons e rest ih =>
    rw [List.map_cons]
    by_cases hk : (e.1 == k) = true
    · rw [if_pos hk]
      simp only [List.find?, hk]
      simp
    · rw [if_neg hk]
      simp only [List.find?, hk]
      simp only [Bool.false_eq_true] at hk
      simp only [hk, ih]

theorem dict_map_map {es : List (String × Py)} {k : String} (x y : Py) :
    (((es.map fun kv => if kv.1 == k then (k, y) else kv)).map
        fun kv => if kv.1 == k then (k, x) else kv) =
      es.map fun kv => if kv.1 == k then (k, x) else kv := by
  rw [List.map_map]
  refine List.map_congr_left fun kv _ => ?_
  by_cases hk : (kv.1 == k) = true
  · simp [Function.comp, hk]
  · simp [Function.comp, hk]

theorem dict_any_map {es : List (String × Py)} {k : String} (x : Py)
    (h : (es.any fun kv => kv.1 == k) = true) :
    ((es.map fun kv => if kv.1 == k then (k, x) else kv).any
      fun kv => kv.1 == k) = true := by
  induction es with
  | nil => simp at h
  | cons e rest ih =>
    rw [List.map_cons, List.any_cons]
    by_cases hk : (e.1 == k) = true
    · rw [if_pos hk]
      simp
    · rw [List.any_cons] at h
      rw [if_neg hk]
      simp only [hk, Bool.false_or] at h
      simp only [hk, Bool.false_or]
      exact ih h

/-- Characterization of a valid list slot: the resolved natural index,
stable under length-preserving updates. -/
theorem list_slot {es : List Py} {n : Int} {c : Py}
    (h : getAt (.list es) (.i n) = some c) :
    ∃ j : Nat, j < es.length ∧ es.get? j = some c ∧
      (∀ es' : List Py, es'.length = es.length →
        getAt (.list es') (.i n) = es'.get? j) ∧
      (∀ (es' : List Py) (x : Py), es'.length = es.length →
        setAt (.list es') (.i n) x = some (.list (es'.set j x))) := by
  simp only [getAt] at h
  by_cases hn : n ≥ 0
  · rw [if_pos hn] at h
    split at h
    · rename_i hc
      refine ⟨n.toNat, by omega, h, fun es' hlen => ?_, fun es' x hlen => ?_⟩
      · simp only [getAt, hlen]
        rw [if_pos hn, if_pos hc]
      · simp only [setAt, hlen]
        rw [if_pos hn, if_pos hc]
    · exact Option.noConfusion h
  · rw [if_neg hn] at h
    split at h
    · rename_i hc
      refine ⟨((es.length : Int) + n).toNat, by omega, h,
        fun es' hlen => ?_, fun es' x hlen => ?_⟩
      · simp only [getAt, hlen]
        rw [if_neg hn, if_pos hc]
      · simp only [setAt, hlen]
        rw [if_neg hn, if_pos hc]
    · exact Option.noConfusion h

/-- Characterization of a valid dictionary slot. -/
theorem dict_slot {es : List (String × Py)} {k : String} {c : Py}
    (h : getAt (.dict es) (.s k) = some c) :
    (es.any fun kv => kv.1 == k) = true ∧
      (∃ kv, es.find? (fun kv => kv.1 == k) = some kv ∧ kv.2 = c) ∧
      ∀ x, setAt (.dict es) (.s k) x =
        some (.dict (es.map fun kv => if kv.1 == k then (k, x) else kv)) := by
  simp only [getAt] at h
  cases hf : es.find? (fun kv => kv.1 == k) with
  | none => rw [hf] at h; exact Option.noConfusion h
  | some kv =>
    rw [hf] at h
    have hpa := (List.find?_eq_some.mp hf).1
    have hany : (es.any fun kv => kv.1 == k) = true :=
      List.any_eq_true.mpr ⟨kv, List.mem_of_find?_eq_some hf, hpa⟩
    refine ⟨hany, ⟨kv, by simp [hf], by simpa using h⟩, fun x => ?_⟩
    simp only [setAt, if_pos hany]

theorem ensureAt_of_getAt {o : Py} {ptr : NElem} {c : Py}
    (h : getAt o ptr = some c) : ensureAt o ptr = some o := by
  cases o <;> cases ptr
  case list.i es n =>
    simp only [getAt] at h
    have hlt : ¬ ((es.length : Int) < n + 1) := by
      by_cases hn : n ≥ 0
      · rw [if_pos hn] at h
        split at h
        · rename_i hc
          omega
        · exact Option.noConfusion h
      · omega
    simp only [ensureAt, if_neg hlt]
  case dict.s es k =>
    simp only [getAt] at h
    cases hf : es.find? (fun kv => kv.1 == k) with
    | none => rw [hf] at h; exact Option.noConfusion h
    | some kv =>
      have hpa := (List.find?_eq_some.mp hf).1
      have hany : (es.any fun kv => kv.1 == k) = true :=
        List.any_eq_true.mpr ⟨kv, List.mem_of_find?_eq_some hf, hpa⟩
      simp only [ensureAt, if_pos hany]
  all_goals simp only [getAt] at h
  all_goals exact Option.noConfusion h

/-- Updating an existing slot succeeds, rereads the written value, and
collapses with further writes to the same slot. -/
theorem slot_update {o : Py} {ptr : NElem} {c : Py}
    (h : getAt o ptr = some c) (x : Py) :
    ∃ o', setAt o ptr x = some o' ∧ getAt o' ptr = some x ∧
      ∀ y, setAt o' ptr y = setAt o ptr y := by
  cases o <;> cases ptr
  case list.i es n =>
    obtain ⟨j, hj, hget, hgetst, hsetst⟩ := list_slot h
    refine ⟨.list (es.set j x), hsetst es x rfl, ?_, fun y => ?_⟩
    · rw [hgetst (es.set j x) (by simp)]
      simp [List.getElem?_set_self hj]
    · rw [hsetst (es.set j x) y (by simp), hsetst es y rfl, List.set_set]
  case dict.s es k =>
    obtain ⟨hany, ⟨kv, hfind, hkv⟩, hset⟩ := dict_slot h
    refine ⟨_, hset x, ?_, fun y => ?_⟩
    · simp only [getAt, dict_find_map, hfind]
      rfl
    · have hany' := dict_any_map x hany
      simp only [setAt, if_pos hany', if_pos hany, dict_map_map]
  all_goals simp only [getAt] at h; exact Option.noConfusion h

theorem ensureAt_kind_list {es : List Py} {ptr : NElem} {o₂ : Py}
    (h : ensureAt (.list es) ptr = some o₂) : ∃ es₂, o₂ = .list es₂ := by
  cases ptr <;> simp only [ensureAt] at h
  case i n =>
    split at h <;> exact ⟨_, (Option.some.inj h).symm⟩
  all_goals exact Option.noConfusion h

theorem ensureAt_kind_dict {es : List (String × Py)} {ptr : NElem} {o₂ : Py}
    (h : ensureAt (.dict es) ptr = some o₂) : ∃ es₂, o₂ = .dict es₂ := by
  cases ptr <;> simp only [ensureAt] at h
  case s k =>
    split at h <;> exact ⟨_, (Option.some.inj h).symm⟩
  all_goals exact Option.noConfusion h

theorem setAt_kind_list {es : List Py} {ptr : NElem} {x o' : Py}
    (h : setAt (.list es) ptr x = some o') : ∃ es', o' = .list es' := by
  cases ptr <;> simp only [setAt] at h
  case i n =>
    split at h <;> split at h
    all_goals
      first
        | exact ⟨_, (Option.some.inj h).symm⟩
        | exact Option.noConfusion h
  all_goals exact Option.noConfusion h

theorem setAt_kind_dict {es : List (String × Py)} {ptr : NElem} {x o' : Py}
    (h : setAt (.dict es) ptr x = some o') : ∃ es', o' = .dict es' := by
  cases ptr <;> simp only [setAt] at h
  case s k =>
    split at h
    · exact ⟨_, (Option.some.inj h).symm⟩
    · exact Option.noConfusion h
  all_goals exact Option.noConfusion h

/-- `_saveTo` preserves the top-level container kind of the object it
writes into. -/
theorem saveTo_kind {o o' : Py} {ptr : NElem} {path : List NElem} {v : Py}
    (h : saveTo o ptr path v = some o') (hc : isContainer o) :
    isContainer o' := by
  rcases hc with ⟨es, rfl⟩ | ⟨es, rfl⟩
  · cases path with
    | nil =>
      rw [saveTo] at h
      cases hE : ensureAt (.list es) ptr with
      | none => simp only [hE] at h; exact Option.noConfusion h
      | some o₂ =>
        obtain ⟨es₂, rfl⟩ := ensureAt_kind_list hE
        simp only [hE] at h
        cases hG : getAt (.list es₂) ptr with
        | none => simp only [hG] at h; exact Option.noConfusion h
        | some c =>
          simp only [hG] at h
          split at h
          · exact Or.inl (setAt_kind_list h)
          · exact Or.inl ⟨es₂, (Option.some.inj h).symm⟩
    | cons p0 prest =>
      rw [saveTo] at h
      cases hE : ensureAt (.list es) ptr with
      | none => simp only [hE] at h; exact Option.noConfusion h
      | some o₂ =>
        obtain ⟨es₂, rfl⟩ := ensureAt_kind_list hE
        simp only [hE] at h
        cases hG : getAt (.list es₂) ptr with
        | none => simp only [hG] at h; exact Option.noConfusion h
        | some c =>
          simp only [hG] at h
          cases hS : saveTo (if isNonePy c then seedFor p0 else c) p0 prest v with
          | none => simp only [hS] at h; exact Option.noConfusion h
          | some c' =>
            simp only [hS] at h
            exact Or.inl (setAt_kind_list h)
  · cases path with
    | nil =>
      rw [saveTo] at h
      cases hE : ensureAt (.dict es) ptr with
      | none => simp only [hE] at h; exact Option.noConfusion h
      | some o₂ =>
        obtain ⟨es₂, rfl⟩ := ensureAt_kind_dict hE
        simp only [hE] at h
        cases hG : getAt (.dict es₂) ptr with
        | none => simp only [hG] at h; exact Option.noConfusion h
        | some c =>
          simp only [hG] at h
          split at h
          · exact Or.inr (setAt_kind_dict h)
          · exact Or.inr ⟨es₂, (Option.some.inj h).symm⟩
    | cons p0 prest =>
      rw [saveTo] at h
      cases hE : ensureAt (.dict es) ptr with
      | none => simp only [hE] at h; exact Option.noConfusion h
      | some o₂ =>
        obtain ⟨es₂, rfl⟩ := ensureAt_kind_dict hE
        simp only [hE] at h
        cases hG : getAt (.dict es₂) ptr with
        | none => simp only [hG] at h; exact Option.noConfusion h
        | some c =>
          simp only [hG] at h
          cases hS : saveTo (if isNonePy c then seedFor p0 else c) p0 prest v with
          | none => simp only [hS] at h; exact Option.noConfusion h
          | some c' =>
            simp only [hS] at h
            exact Or.inr (setAt_kind_dict h)

theorem isNonePy_false_of_isContainer {c : Py} (hc : isContainer c) :
    isNonePy c = false := by
  rcases hc with ⟨es, rfl⟩ | ⟨es, rfl⟩ <;> rfl

/-- Descending one level through an occupied, non-`None` slot. -/
theorem saveTo_descend {o c : Py} {ptr : NElem} (e : NElem) (q : List NElem)
    (v : Py) (h : getAt o ptr = some c) (hc : isContainer c) :
    saveTo o ptr (e :: q) v =
      match saveTo c e q v with
      | some c' => setAt o ptr c'
      | Option.none => Option.none := by
  rw [saveTo]
  simp only [ensureAt_of_getAt h, h, isNonePy_false_of_isContainer hc,
    Bool.false_eq_true, if_false]
  cases saveTo c e q v <;> rfl

theorem map_key_fresh {es : List (String × Py)} {k : String} (x : Py)
    (h : (es.any fun kv => kv.1 == k) = false) :
    (es.map fun kv => if kv.1 == k then (k, x) else kv) = es := by
  induction es with
  | nil => rfl
  | cons e rest ih =>
    simp only [List.any_cons, Bool.or_eq_false_iff] at h
    rw [List.map_cons, if_neg (by simp [h.1]), ih h.2]

theorem find?_key_none {es : List (String × Py)} {k : String}
    (h : (es.any fun kv => kv.1 == k) = false) :
    es.find? (fun kv => kv.1 == k) = Option.none := by
  rw [List.find?_eq_none]
  intro kv hm hp
  have hT : (es.any fun kv => kv.1 == k) = true :=
    List.any_eq_true.mpr ⟨kv, hm, hp⟩
  rw [h] at hT
  exact Bool.noConfusion hT

theorem getAt_concat_self (es : List Py) (d : Py) :
    getAt (Py.list (es ++ [d])) (.i (es.length : Int)) = some d := by
  have hl : (es ++ [d]).length = es.length + 1 := by simp
  simp only [getAt]
  rw [if_pos (show ((es.length : Int)) ≥ 0 from by omega)]
  rw [if_pos (show (0 : Int) ≤ (es.length : Int) ∧
    (es.length : Int) < (((es ++ [d]).length : Nat) : Int) from by omega)]
  rw [Int.toNat_natCast]
  simp [List.getElem?_concat_length]

theorem setAt_concat_self (es : List Py) (d y : Py) :
    setAt (Py.list (es ++ [d])) (.i (es.length : Int)) y =
      some (.list (es ++ [y])) := by
  have hl : (es ++ [d]).length = es.length + 1 := by simp
  simp only [setAt]
  rw [if_pos (show ((es.length : Int)) ≥ 0 from by omega)]
  rw [if_pos (show (0 : Int) ≤ (es.length : Int) ∧
    (es.length : Int) < (((es ++ [d]).length : Nat) : Int) from by omega)]
  rw [Int.toNat_natCast]
  rw [List.set_append_right _ _ (Nat.le_refl _)]
  simp

theorem ensureAt_concat (es : List Py) :
    ensureAt (Py.list es) (.i (es.length : Int)) =
      some (.list (es ++ [Py.none])) := by
  simp only [ensureAt]
  rw [if_pos (by omega)]
  norm_num

/-- A fresh slot (a list extended by exactly one position, or a new
dictionary key) rereads whatever was placed into it, overwriting it places
the new value, and a leaf `_saveTo` into it behaves exactly like placing. -/
theorem placeSlot_fresh {o : Py} {ptr : NElem} {x o₀ : Py}
    (h : placeSlot o ptr x = some o₀) :
    getAt o₀ ptr = some x ∧ (∀ y, setAt o₀ ptr y = placeSlot o ptr y) ∧
      ∀ v, saveTo o ptr [] v = placeSlot o ptr v := by
  cases o <;> cases ptr <;> simp only [placeSlot] at h <;>
    try exact Option.noConfusion h
  case list.i es n =>
    split at h
    · rename_i hn
      have ho' : o₀ = .list (es ++ [x]) := (Option.some.inj h).symm
      subst ho'
      subst hn
      refine ⟨getAt_concat_self es x, fun y => ?_, fun v => ?_⟩
      · rw [setAt_concat_self es x y]
        simp only [placeSlot, if_true]
      · rw [saveTo]
        simp only [ensureAt_concat es, getAt_concat_self es Py.none,
          isNonePy, Bool.or_true, if_true]
        rw [setAt_concat_self es Py.none v]
        simp only [placeSlot, if_true]
    · exact Option.noConfusion h
  case dict.s es k =>
    split at h
    · exact Option.noConfusion h
    · rename_i hany0
      have hany : (es.any fun kv => kv.1 == k) = false :=
        Bool.eq_false_iff.mpr hany0
      have ho' : o₀ = .dict (es ++ [(k, x)]) := (Option.some.inj h).symm
      subst ho'
      have hfind : ∀ z : Py, (es ++ [(k, z)]).find? (fun kv => kv.1 == k) =
          some (k, z) := fun z => by
        rw [List.find?_append, find?_key_none hany]
        simp [List.find?]
      have hanyT : ∀ z : Py, ((es ++ [(k, z)]).any fun kv => kv.1 == k) = true :=
        fun z => by simp
      have hmap : ∀ z y : Py,
          ((es ++ [(k, z)]).map fun kv => if kv.1 == k then (k, y) else kv) =
            es ++ [(k, y)] := fun z y => by
        rw [List.map_append, map_key_fresh y hany]
        simp
      have hget : getAt (Py.dict (es ++ [(k, x)])) (.s k) = some x := by
        simp only [getAt, hfind x]
        rfl
      have hset : ∀ z y : Py, setAt (Py.dict (es ++ [(k, z)])) (.s k) y =
          some (.dict (es ++ [(k, y)])) := fun z y => by
        simp only [setAt]
        rw [if_pos (hanyT z), hmap z y]
      have hplace : ∀ y : Py, placeSlot (Py.dict es) (.s k) y =
          some (.dict (es ++ [(k, y)])) := fun y => by
        simp only [placeSlot]
        rw [if_neg hany0]
      refine ⟨hget, fun y => by rw [hset x y, hplace y], fun v => ?_⟩
      rw [saveTo]
      have h1 : ensureAt (Py.dict es) (.s k) =
          some (.dict (es ++ [(k, .none)])) := by
        simp only [ensureAt]
        rw [if_neg (by simp [hany])]
      have h2 : getAt (Py.dict (es ++ [(k, Py.none)])) (.s k) =
          some Py.none := by
        simp only [getAt, hfind Py.none]
        rfl
      simp only [h1, h2, isNonePy, Bool.or_true, if_true]
      rw [hset Py.none v, hplace v]

/-- Whether `placeSlot` succeeds does not depend on the value placed. -/
theorem placeSlot_isSome {o : Py} {ptr : NElem} {x o₀ : Py}
    (h : placeSlot o ptr x = some o₀) (y : Py) :
    ∃ o₁, placeSlot o ptr y = some o₁ := by
  cases o <;> cases ptr <;> simp only [placeSlot] at h ⊢ <;>
    try exact Option.noConfusion h
  case list.i es n =>
    split at h
    · rename_i hn
      exact ⟨_, by rw [if_pos hn]⟩
    · exact Option.noConfusion h
  case dict.s es k =>
    split at h
    · exact Option.noConfusion h
    · rename_i hany0
      exact ⟨_, by rw [if_neg hany0]⟩

/-- A non-empty sequence of `_saveTo` calls that all descend through the same
container slot equals running the sequence inside the slot and writing the
result back once. -/
theorem liftSeq {o c : Py} {ptr : NElem} (e : NElem)
    (f₀ : List NElem × Py) (F : List (List NElem × Py))
    (h : getAt o ptr = some c) (hc : isContainer c) :
    applySeq o ptr ((f₀ :: F).map fun pv => (e :: pv.1, pv.2)) =
      (applySeq c e (f₀ :: F)).bind fun c' => setAt o ptr c' := by
  induction F generalizing o c f₀ with
  | nil =>
    simp only [applySeq, List.map_cons, List.map_nil, List.foldlM_cons,
      List.foldlM_nil]
    rw [saveTo_descend e f₀.1 f₀.2 h hc]
    cases saveTo c e f₀.1 f₀.2 with
    | none => simp
    | some c₁ =>
      cases setAt o ptr c₁ <;> simp
  | cons f₁ F ih =>
    simp only [applySeq, List.map_cons, List.foldlM_cons] at ih ⊢
    rw [saveTo_descend e f₀.1 f₀.2 h hc]
    cases h₁ : saveTo c e f₀.1 f₀.2 with
    | none => simp
    | some c₁ =>
      obtain ⟨o₁, hset, hget₁, hcoll⟩ := slot_update h c₁
      have hred : (match some c₁ with
          | some c' => setAt o ptr c'
          | Option.none => Option.none) = setAt o ptr c₁ := rfl
      rw [hred, hset]
      have hc₁ : isContainer c₁ := saveTo_kind h₁ hc
      have hmain := ih f₁ hget₁ hc₁
      simp only [Option.bind_eq_bind, Option.some_bind] at hmain ⊢
      rw [hmain]
      cases saveTo c₁ e f₁.1 f₁.2 with
      | none => simp
      | some c₂ =>
        simp only [Option.some_bind]
        cases List.foldlM (fun o pv => saveTo o e pv.1 pv.2) c₂ F with
        | none => rfl
        | some cf => simp only [Option.some_bind, hcoll]

mutual

/-- Flattening under an extended prefix prepends the extra element to every
emitted field name. -/
theorem flattenNode_shift (d : Py) (e : NElem) (pre : List NElem) :
    flattenNode d (e :: pre) = (flattenNode d pre).map fun pv =>
      (e :: pv.1, pv.2) := by
  cases d <;> simp only [flattenNode, List.map_cons, List.map_nil]
  case dict es => rw [flattenEntries_shift es e pre]
  case list es => rw [flattenItems_shift es e pre 0]

theorem flattenEntries_shift (es : List (String × Py)) (e : NElem)
    (pre : List NElem) :
    flattenEntries es (e :: pre) = (flattenEntries es pre).map fun pv =>
      (e :: pv.1, pv.2) := by
  cases es with
  | nil => rfl
  | cons kv rest =>
    obtain ⟨k, d⟩ := kv
    simp only [flattenEntries, List.map_append]
    rw [show (e :: pre) ++ [NElem.s k] = e :: (pre ++ [NElem.s k]) from rfl]
    rw [flattenNode_shift d e (pre ++ [NElem.s k]),
      flattenEntries_shift rest e pre]

theorem flattenItems_shift (ds : List Py) (e : NElem) (pre : List NElem)
    (i : Nat) :
    flattenItems ds (e :: pre) i = (flattenItems ds pre i).map fun pv =>
      (e :: pv.1, pv.2) := by
  cases ds with
  | nil => rfl
  | cons d rest =>
    simp only [flattenItems, List.map_append]
    rw [show (e :: pre) ++ [NElem.i (i : Int)] =
      e :: (pre ++ [NElem.i (i : Int)]) from rfl]
    rw [flattenNode_shift d e (pre ++ [NElem.i (i : Int)]),
      flattenItems_shift rest e pre (i + 1)]

end

/-- Flattening a document always emits at least one field. -/
theorem flattenNode_ne_nil (d : Py) (pre : List NElem) :
    flattenNode d pre ≠ [] := by
  cases d <;> simp [flattenNode]

mutual

/-- Replaying the flattened form of a well-formed document into a fresh slot
of a container is the same as placing the document there directly. -/
theorem mainPlace (d : Py) (hwf : wfDoc d = true) :
    ∀ (o : Py) (ptr : NElem) (x o₀ : Py), placeSlot o ptr x = some o₀ →
      applySeq o ptr (flattenNode d []) = placeSlot o ptr d := by
  intro o ptr x o₀ h
  cases d
  case dict es =>
    simp only [wfDoc, Bool.and_eq_true] at hwf
    simp only [flattenNode, applySeq, List.foldlM_cons]
    rw [(placeSlot_fresh h).2.2 (Py.dict [])]
    obtain ⟨o₁, h₁⟩ := placeSlot_isSome h (Py.dict [])
    rw [h₁]
    simp only [Option.bind_eq_bind, Option.some_bind]
    obtain ⟨hget₁, hsetp, _⟩ := placeSlot_fresh h₁
    have hid₁ : setAt o₁ ptr (Py.dict []) = some o₁ := by rw [hsetp]; exact h₁
    have hIH := entriesSeq es hwf.2 hwf.1 o₁ ptr [] hget₁ hid₁
      (fun k _ => rfl)
    simp only [applySeq, List.nil_append] at hIH
    rw [hIH, hsetp]
  case list es =>
    simp only [wfDoc] at hwf
    simp only [flattenNode, applySeq, List.foldlM_cons]
    rw [(placeSlot_fresh h).2.2 (Py.list [])]
    obtain ⟨o₁, h₁⟩ := placeSlot_isSome h (Py.list [])
    rw [h₁]
    simp only [Option.bind_eq_bind, Option.some_bind]
    obtain ⟨hget₁, hsetp, _⟩ := placeSlot_fresh h₁
    have hid₁ : setAt o₁ ptr (Py.list []) = some o₁ := by rw [hsetp]; exact h₁
    have hIH := itemsSeq es hwf o₁ ptr [] hget₁ hid₁
    simp only [applySeq, List.length_nil, List.nil_append] at hIH
    rw [hIH, hsetp]
  all_goals
    simp only [flattenNode, applySeq, List.foldlM_cons, List.foldlM_nil]
    rw [(placeSlot_fresh h).2.2 _]
    exact bind_pure _
termination_by structural d

/-- Replaying the flattened children of a well-formed map, all of whose keys
are new, appends the children to the map stored at the slot. -/
theorem entriesSeq (es : List (String × Py)) (hwf : wfEntries es = true)
    (hnd : nodupStr (es.map Prod.fst) = true) :
    ∀ (o : Py) (ptr : NElem) (escur : List (String × Py)),
      getAt o ptr = some (.dict escur) →
      setAt o ptr (.dict escur) = some o →
      (∀ k ∈ es.map Prod.fst, (escur.any fun kv => kv.1 == k) = false) →
      applySeq o ptr (flattenEntries es []) =
        setAt o ptr (.dict (escur ++ es)) := by
  intro o ptr escur hget hid hfresh
  cases es with
  | nil =>
    simp only [flattenEntries, applySeq, List.foldlM_nil, List.append_nil]
    exact hid.symm
  | cons kv rest =>
    obtain ⟨k, dc⟩ := kv
    simp only [wfEntries, Bool.and_eq_true] at hwf
    simp only [List.map_cons, nodupStr, Bool.and_eq_true] at hnd
    have hcontains : ((rest.map Prod.fst).contains k) = false := by
      rcases hb : (rest.map Prod.fst).contains k with _ | _
      · rfl
      · rw [hb] at hnd
        simp at hnd
    have hknotin : ∀ k2 ∈ rest.map Prod.fst, (k == k2) = false := by
      rw [List.contains_eq_any_beq] at hcontains
      intro k2 hk2
      have := List.any_eq_false.mp hcontains k2 hk2
      simpa using this
    simp only [flattenEntries, List.nil_append, applySeq]
    rw [List.foldlM_append]
    have hshift : flattenNode dc [NElem.s k] =
        (flattenNode dc []).map fun pv => (NElem.s k :: pv.1, pv.2) :=
      flattenNode_shift dc (NElem.s k) []
    cases hfn0 : flattenNode dc [] with
    | nil => exact absurd hfn0 (flattenNode_ne_nil dc _)
    | cons g₀ G =>
        rw [hfn0] at hshift
        rw [hshift]
        have hlift := liftSeq (NElem.s k) g₀ G hget
          (Or.inr ⟨escur, rfl⟩)
        simp only [applySeq] at hlift
        rw [hlift, ← hfn0]
        have hfreshk : (escur.any fun kv => kv.1 == k) = false :=
          hfresh k (by simp)
        have hpl : placeSlot (Py.dict escur) (NElem.s k) dc =
            some (.dict (escur ++ [(k, dc)])) := by
          simp only [placeSlot]
          rw [if_neg (by simp [hfreshk])]
        have hm := mainPlace dc hwf.1 (Py.dict escur) (NElem.s k) dc _ hpl
        simp only [applySeq] at hm
        rw [hm, hpl]
        obtain ⟨o₁, hset₁, hget₁, hcoll₁⟩ :=
          slot_update hget (Py.dict (escur ++ [(k, dc)]))
        simp only [Option.bind_eq_bind, Option.some_bind, Option.bind_some]
        rw [hset₁]
        simp only [Option.some_bind]
        have hid₁ : setAt o₁ ptr (Py.dict (escur ++ [(k, dc)])) = some o₁ := by
          rw [hcoll₁]
          exact hset₁
        have hfresh₁ : ∀ k2 ∈ rest.map Prod.fst,
            ((escur ++ [(k, dc)]).any fun kv => kv.1 == k2) = false := by
          intro k2 hk2
          simp only [List.any_append, Bool.or_eq_false_iff]
          refine ⟨hfresh k2 (by simp [hk2]), ?_⟩
          simp [hknotin k2 hk2]
        have hIH := entriesSeq rest hwf.2 hnd.2 o₁ ptr (escur ++ [(k, dc)])
          hget₁ hid₁ hfresh₁
        simp only [applySeq] at hIH
        rw [hIH, hcoll₁]
        simp
termination_by structural es

/-- Replaying the flattened items of a well-formed list, numbered from the
current length of the list at the slot, appends them to that list. -/
theorem itemsSeq (ds : List Py) (hwf : wfItems ds = true) :
    ∀ (o : Py) (ptr : NElem) (lcur : List Py),
      getAt o ptr = some (.list lcur) →
      setAt o ptr (.list lcur) = some o →
      applySeq o ptr (flattenItems ds [] lcur.length) =
        setAt o ptr (.list (lcur ++ ds)) := by
  intro o ptr lcur hget hid
  cases ds with
  | nil =>
    simp only [flattenItems, applySeq, List.foldlM_nil, List.append_nil]
    exact hid.symm
  | cons dc rest =>
    simp only [wfItems, Bool.and_eq_true] at hwf
    simp only [flattenItems, List.nil_append, applySeq]
    rw [List.foldlM_append]
    have hshift : flattenNode dc [NElem.i (lcur.length : Int)] =
        (flattenNode dc []).map fun pv =>
          (NElem.i (lcur.length : Int) :: pv.1, pv.2) :=
      flattenNode_shift dc (NElem.i (lcur.length : Int)) []
    cases hfn0 : flattenNode dc [] with
    | nil => exact absurd hfn0 (flattenNode_ne_nil dc _)
    | cons g₀ G =>
      rw [hfn0] at hshift
      rw [hshift]
      have hlift := liftSeq (NElem.i (lcur.length : Int)) g₀ G hget
        (Or.inl ⟨lcur, rfl⟩)
      simp only [applySeq] at hlift
      rw [hlift, ← hfn0]
      have hpl : placeSlot (Py.list lcur) (NElem.i (lcur.length : Int)) dc =
          some (.list (lcur ++ [dc])) := by
        simp [placeSlot]
      have hm := mainPlace dc hwf.1 (Py.list lcur)
        (NElem.i (lcur.length : Int)) dc _ hpl
      simp only [applySeq] at hm
      rw [hm, hpl]
      obtain ⟨o₁, hset₁, hget₁, hcoll₁⟩ :=
        slot_update hget (Py.list (lcur ++ [dc]))
      simp only [Option.bind_eq_bind, Option.some_bind, Option.bind_some]
      rw [hset₁]
      simp only [Option.some_bind]
      have hid₁ : setAt o₁ ptr (Py.list (lcur ++ [dc])) = some o₁ := by
        rw [hcoll₁]
        exact hset₁
      have hIH := itemsSeq rest hwf.2 o₁ ptr (lcur ++ [dc]) hget₁ hid₁
      simp only [applySeq] at hIH
      have hlen : lcur.length + 1 = (lcur ++ [dc]).length := by simp
      rw [hlen, hIH, hcoll₁]
      simp
termination_by structural ds

end

/-- C2: for every document `d` — an arbitrarily nested structure of maps
with (distinct) string keys, lists, and scalars, including empty maps and
empty lists as interior or leaf values — rebuilding from the flattened
field list returns `d`: `_fieldsToTree(_flattenHierarchy(d)) == d`. -/
theorem claim_C2 (d : Py) (hwf : wfDoc d = true) :
    fieldsToTree (flattenHierarchy d) = some d := by
  have hplace : placeSlot (Py.list []) (NElem.i 0) d = some (Py.list [d]) := by
    simp [placeSlot]
  have hm := mainPlace d hwf (Py.list []) (NElem.i 0) d _ hplace
  simp only [applySeq] at hm
  have hne : ¬ ((flattenNode d []).map fun pv => Fld.mk pv.1 pv.2).isEmpty
      = true := by
    cases hfn : flattenNode d [] with
    | nil => exact absurd hfn (flattenNode_ne_nil d [])
    | cons f F => simp
  unfold fieldsToTree flattenHierarchy
  rw [if_neg hne]
  rw [List.foldlM_map]
  rw [show (fun (o : Py) (pv : List NElem × Py) =>
      saveTo o (NElem.i 0) (Fld.mk pv.1 pv.2).name (Fld.mk pv.1 pv.2).val) =
      fun (o : Py) (pv : List NElem × Py) =>
        saveTo o (NElem.i 0) pv.1 pv.2 from rfl]
  rw [hm, hplace]

/-- Witness for C2 at a concrete document containing a map, a list, a null,
an empty map, and a scalar. -/
theorem claim_C2_witness :
    wfDoc (Py.dict [("a", Py.list [Py.none, Py.dict []]), ("b", Py.int 3)])
        = true ∧
      fieldsToTree (flattenHierarchy
          (Py.dict [("a", Py.list [Py.none, Py.dict []]), ("b", Py.int 3)])) =
        some (Py.dict [("a", Py.list [Py.none, Py.dict []]), ("b", Py.int 3)]) :=
  ⟨rfl, claim_C2 _ rfl⟩

theorem stripHead_zero_map (l : List Fld) : l.map (stripHead 0) = l := by
  have h : stripHead 0 = fun f => f := rfl
  rw [h]
  exact List.map_id' l

/-- C9: a read request fails with LogicError exactly when the list of
materialized fields is empty; otherwise it returns that non-empty list with
the request path prefix stripped from every name. -/
theorem claim_C9 (db : DB) (id : Int) (path? : Option (List NElem))
    (masks? : Option (List (List NElem))) :
    ((∃ s, processReadRequest db id path? masks? =
        Except.error (Err.logicErr s)) ↔
      readMaterialize db id (readEffectiveMasks path? masks?) = []) ∧
    (∀ out, processReadRequest db id path? masks? = Except.ok out →
      out ≠ [] ∧
        out = (readMaterialize db id (readEffectiveMasks path? masks?)).map
          (stripHead (match path? with
            | some p => p.length
            | Option.none => 0))) := by
  by_cases hre : (readMaterialize db id (readEffectiveMasks path? masks?)).isEmpty
  · constructor
    · exact ⟨fun _ => List.isEmpty_iff.mp hre, fun _ => ⟨_, by
        simp only [processReadRequest]
        rw [if_pos hre]⟩⟩
    · intro out hout
      simp only [processReadRequest] at hout
      rw [if_pos hre] at hout
      exact Except.noConfusion hout
  · have hne : readMaterialize db id (readEffectiveMasks path? masks?) ≠ [] :=
      fun hc => hre (by rw [hc]; rfl)
    constructor
    · refine ⟨fun ⟨s, hs⟩ => ?_, fun hc => absurd hc hne⟩
      simp only [processReadRequest] at hs
      rw [if_neg hre] at hs
      exact Except.noConfusion hs
    · intro out hout
      simp only [processReadRequest] at hout
      rw [if_neg hre] at hout
      have hout' := (Except.ok.inj hout).symm
      subst hout'
      cases path? with
      | none =>
        exact ⟨hne, (stripHead_zero_map _).symm⟩
      | some p =>
        refine ⟨?_, rfl⟩
        intro hc
        exact hne (List.map_eq_nil_iff.mp hc)

/-- Witness for C9: the empty database has no materialized fields and reads
fail with LogicError; a one-field database reads back its value with the
path stripped. -/
theorem claim_C9_witness :
    (∃ s, processReadRequest emptyDB 1 Option.none Option.none =
        Except.error (Err.logicErr s)) ∧
      (([⟨[], Py.str "v"⟩] : List Fld) ≠ [] ∧
        ([⟨[], Py.str "v"⟩] : List Fld) =
          (readMaterialize
              (DB.mk [⟨1, [.s "a"], .ttext, 1⟩]
                [(⟨[.s "a"], .ttext⟩, [⟨1, .str "v", []⟩])])
              1 (readEffectiveMasks (some [.s "a"]) Option.none)).map
            (stripHead 1)) :=
  ⟨(claim_C9 emptyDB 1 Option.none Option.none).1.mpr rfl,
    (claim_C9 (DB.mk [⟨1, [.s "a"], .ttext, 1⟩]
        [(⟨[.s "a"], .ttext⟩, [⟨1, .str "v", []⟩])])
      1 (some [.s "a"]) Option.none).2 [⟨[], Py.str "v"⟩] rfl⟩

theorem ok_bind {ε α β : Type} (a : α) (f : α → Except ε β) :
    (Except.ok a >>= f : Except ε β) = f a := rfl

/-- C7: after the autocreate and padding stages, insert numbers the groups
from 0 when the target list has no maximum index, from `max + 1` when the
last segment is the wildcard, and from the defined insertion index `k`
after shifting existing indices up by the number of groups via `_renumber`;
`enumerateGroups` gives group `gi` the index `start + gi` at the target
column. -/
theorem claim_C7 (db db1 db2 : DB) (id : Int) (path : List NElem)
    (groups : List (List Fld)) (rc : Bool)
    (h1 : insertAutocreate db id path.dropLast rc = Except.ok db1)
    (h2 : insertPad db1 id path = Except.ok db2) :
    (getMaxListIndex db2 id ⟨path, .none⟩ = Except.ok Option.none →
      processInsertRequest db id path groups rc =
        storeGroups db2 id (enumerateGroups groups (path.length - 1) 0)) ∧
    (∀ m : Int, getMaxListIndex db2 id ⟨path, .none⟩ = Except.ok (some m) →
      (path.get? (path.length - 1) = some .w →
        processInsertRequest db id path groups rc =
          storeGroups db2 id
            (enumerateGroups groups (path.length - 1) (m + 1))) ∧
      (∀ k : Int, path.get? (path.length - 1) = some (.i k) →
        processInsertRequest db id path groups rc =
          (renumber db2 id path (groups.length : Int)).bind fun db3 =>
            storeGroups db3 id (enumerateGroups groups (path.length - 1) k))) ∧
    (∀ (col : Nat) (start : Int) (gi : Nat) (g : List Fld),
      groups.get? gi = some g →
      (enumerateGroups groups col start).get? gi =
        some (g.map fun f =>
          Fld.mk (f.name.set col (.i (start + (gi : Int)))) f.val)) := by
  refine ⟨?_, ?_, ?_⟩
  · intro hmax
    simp only [processInsertRequest, h1, ok_bind, h2, hmax]
  · intro m hmax
    constructor
    · intro hget
      simp only [processInsertRequest, h1, ok_bind, h2, hmax, hget]
    · intro k hget
      simp only [processInsertRequest, h1, ok_bind, h2, hmax, hget]
      rfl
  · intro col start gi g hg
    rw [List.get?_eq_getElem?] at hg
    simp only [enumerateGroups, List.get?_eq_getElem?, List.getElem?_mapIdx,
      hg, Option.map_some]
    rfl

/-- Witness for C7: inserting one group into the fresh (maximum-free) list
`a` of object 7 numbers it from 0. -/
theorem claim_C7_witness :
    insertAutocreate emptyDB 7 ([NElem.s "a", NElem.w].dropLast) false =
        Except.ok (DB.mk [⟨7, [.s "a"], .telist, 1⟩]
          [(⟨[.s "a"], .telist⟩, [⟨7, .list [], []⟩])]) ∧
      getMaxListIndex (DB.mk [⟨7, [.s "a"], .telist, 1⟩]
          [(⟨[.s "a"], .telist⟩, [⟨7, .list [], []⟩])]) 7
          ⟨[NElem.s "a", NElem.w], .none⟩ = Except.ok Option.none ∧
      processInsertRequest emptyDB 7 [NElem.s "a", NElem.w]
          [[⟨[.s "a", .i 0], .str "x"⟩]] false =
        storeGroups (DB.mk [⟨7, [.s "a"], .telist, 1⟩]
            [(⟨[.s "a"], .telist⟩, [⟨7, .list [], []⟩])]) 7
          (enumerateGroups [[⟨[.s "a", .i 0], .str "x"⟩]]
            ([NElem.s "a", NElem.w].length - 1) 0) :=
  ⟨rfl, rfl,
    (claim_C7 emptyDB
      (DB.mk [⟨7, [.s "a"], .telist, 1⟩]
        [(⟨[.s "a"], .telist⟩, [⟨7, .list [], []⟩])])
      (DB.mk [⟨7, [.s "a"], .telist, 1⟩]
        [(⟨[.s "a"], .telist⟩, [⟨7, .list [], []⟩])])
      7 [NElem.s "a", NElem.w] [[⟨[.s "a", .i 0], .str "x"⟩]] false
      rfl rfl).1 rfl⟩

/-- C8 (amended): if the parent path holds a stored value that is not the
empty-list sentinel and `remove_conflicts` is false, insert fails with
StructureError "Cannot insert to non-list" and writes nothing; if the
parent is absent, or conflicts are removed, the empty list is autocreated
at the parent path via the modify machinery — whose own failure (for
example a StructureError from a conflicting prefix) aborts the whole
insert; if the parent already holds the empty-list sentinel, the
autocreate stage leaves the database unchanged. -/
theorem claim_C8 (db : DB) (id : Int) (path : List NElem)
    (groups : List (List Fld)) (rc : Bool) :
    ((getValuesAllTypes db id path.dropLast).isEmpty = false →
      (match (getValuesAllTypes db id path.dropLast).head? with
        | some v => isEmptyListPy v
        | Option.none => false) = false →
      rc = false →
      processInsertRequest db id path groups rc =
        Except.error (Err.structureErr "Cannot insert to non-list")) ∧
    ((match (getValuesAllTypes db id path.dropLast).head? with
        | some v => isEmptyListPy v
        | Option.none => false) = false →
      ((getValuesAllTypes db id path.dropLast).isEmpty = true ∨ rc = true) →
      insertAutocreate db id path.dropLast rc =
        modifyFields db id path.dropLast [⟨[], .list []⟩] rc) ∧
    ((match (getValuesAllTypes db id path.dropLast).head? with
        | some v => isEmptyListPy v
        | Option.none => false) = true →
      insertAutocreate db id path.dropLast rc = Except.ok db) ∧
    (∀ e, insertAutocreate db id path.dropLast rc = Except.error e →
      processInsertRequest db id path groups rc = Except.error e) := by
  refine ⟨?_, ?_, ?_, ?_⟩
  · intro hP hH hrc
    subst hrc
    have hE : insertAutocreate db id path.dropLast false =
        Except.error (Err.structureErr "Cannot insert to non-list") := by
      simp only [insertAutocreate, hP, hH]
      rfl
    simp only [processInsertRequest, hE]
    rfl
  · intro hH hor
    rcases hor with hP | hrc
    · simp only [insertAutocreate, hP]
      rfl
    · subst hrc
      simp only [insertAutocreate, hH]
      have hc1 : ((getValuesAllTypes db id path.dropLast).isEmpty || !false)
          = true := by simp
      rw [hc1]
      have hc2 : ((getValuesAllTypes db id path.dropLast).isEmpty || true)
          = true := by simp
      rw [if_pos rfl, hc2, if_pos rfl]
  · intro hH
    cases hPv : getValuesAllTypes db id path.dropLast with
    | nil =>
      rw [hPv] at hH
      exact absurd hH (by simp)
    | cons v vs =>
      rw [hPv] at hH
      simp only [List.head?_cons] at hH
      simp only [insertAutocreate, hPv, List.head?_cons, hH]
      rfl
  · intro e he
    simp only [processInsertRequest, he]
    rfl

/-- Counterexample to C8 as stated: on the object created from the document
`{x: v}`, inserting at path `[x, a, None]` finds no stored parent at
`[x, a]` and `remove_conflicts` is false, yet the autocreating modify hits
the conflicting prefix `[x]` and the insert fails with StructureError
instead of proceeding. -/
theorem claim_C8_cx :
    processCreateRequest emptyDB 1
        (flattenHierarchy (Py.dict [("x", Py.str "v")])) =
      Except.ok (DB.mk
        [⟨1, [], .temap, 1⟩, ⟨1, [.s "x"], .ttext, 1⟩]
        [(⟨[], .temap⟩, [⟨1, .dict [], []⟩]),
         (⟨[.s "x"], .ttext⟩, [⟨1, .str "v", []⟩])]) ∧
    getValuesAllTypes (DB.mk
        [⟨1, [], .temap, 1⟩, ⟨1, [.s "x"], .ttext, 1⟩]
        [(⟨[], .temap⟩, [⟨1, .dict [], []⟩]),
         (⟨[.s "x"], .ttext⟩, [⟨1, .str "v", []⟩])]) 1
      ([NElem.s "x", NElem.s "a", NElem.w].dropLast) = [] ∧
    processInsertRequest (DB.mk
        [⟨1, [], .temap, 1⟩, ⟨1, [.s "x"], .ttext, 1⟩]
        [(⟨[], .temap⟩, [⟨1, .dict [], []⟩]),
         (⟨[.s "x"], .ttext⟩, [⟨1, .str "v", []⟩])]) 1
      [.s "x", .s "a", .w] [[⟨[.s "x", .s "a", .i 0], .str "y"⟩]] false =
      Except.error (Err.structureErr
        "Path [\x27x\x27, \x27a\x27] conflicts with existing structure") :=
  ⟨rfl, rfl, rfl⟩

/-- Witness for C8: a parent holding the scalar value `v` rejects insertion
with "Cannot insert to non-list" when conflicts are kept. -/
theorem claim_C8_witness :
    (getValuesAllTypes (DB.mk [⟨1, [.s "p"], .ttext, 1⟩]
        [(⟨[.s "p"], .ttext⟩, [⟨1, .str "v", []⟩])]) 1
      ([NElem.s "p", NElem.w].dropLast)).isEmpty = false ∧
    processInsertRequest (DB.mk [⟨1, [.s "p"], .ttext, 1⟩]
        [(⟨[.s "p"], .ttext⟩, [⟨1, .str "v", []⟩])]) 1
      [NElem.s "p", NElem.w] [] false =
      Except.error (Err.structureErr "Cannot insert to non-list") :=
  ⟨rfl, (claim_C8 (DB.mk [⟨1, [.s "p"], .ttext, 1⟩]
      [(⟨[.s "p"], .ttext⟩, [⟨1, .str "v", []⟩])]) 1
    [NElem.s "p", NElem.w] [] false).1 rfl rfl rfl⟩

/-- C5 (amended): the conflict walk stops silently at the first prefix
holding no stored values (later prefixes are never examined); at a prefix
that does hold values, none of them the sentinel matching the next
segment, `remove_conflicts = false` fails with StructureError naming the
extended prefix — and a failing walk aborts the modify before any payload
field is stored — while `remove_conflicts = true` deletes the subtree
rooted at the prefix and rebuilds the hierarchy; a prefix holding the
matching sentinel lets the walk advance. -/
theorem claim_C5 (db : DB) (id : Int) (pre : List NElem) (rc : Bool) :
    (∀ rest, (getValuesAllTypes db id pre).isEmpty = true →
      checkForConflicts db id pre rest rc = Except.ok db) ∧
    (∀ nxt rest, (getValuesAllTypes db id pre).isEmpty = false →
      ((match nxt with | NElem.s _ => true | _ => false) &&
        (getValuesAllTypes db id pre).any isEmptyMapPy) = false →
      ((!(match nxt with | NElem.s _ => true | _ => false)) &&
        (getValuesAllTypes db id pre).any isEmptyListPy) = false →
      rc = false →
      checkForConflicts db id pre (nxt :: rest) rc =
        Except.error (Err.structureErr ("Path " ++ reprName (pre ++ [nxt]) ++
          " conflicts with existing structure"))) ∧
    (∀ nxt rest, (getValuesAllTypes db id pre).isEmpty = false →
      ((match nxt with | NElem.s _ => true | _ => false) &&
        (getValuesAllTypes db id pre).any isEmptyMapPy) = false →
      ((!(match nxt with | NElem.s _ => true | _ => false)) &&
        (getValuesAllTypes db id pre).any isEmptyListPy) = false →
      rc = true →
      checkForConflicts db id pre (nxt :: rest) rc =
        ((getFieldsList db id (some pre) false).foldlM
          (fun db nm => deleteValues db id nm Option.none) db) >>= fun db2 =>
          rebuildHierarchy db2 id pre (nxt :: rest)) ∧
    (∀ nxt rest, (getValuesAllTypes db id pre).isEmpty = false →
      (((match nxt with | NElem.s _ => true | _ => false) &&
          (getValuesAllTypes db id pre).any isEmptyMapPy) ||
        ((!(match nxt with | NElem.s _ => true | _ => false)) &&
          (getValuesAllTypes db id pre).any isEmptyListPy)) = true →
      checkForConflicts db id pre (nxt :: rest) rc =
        checkForConflicts db id (pre ++ [nxt]) rest rc) ∧
    (∀ (path : List NElem) (fields : List Fld) (e : Err),
      objectHasField db id path = Except.ok false →
      checkForConflicts db id [] path rc = Except.error e →
      processModifyRequest db id path fields rc = Except.error e) := by
  refine ⟨?_, ?_, ?_, ?_, ?_⟩
  · intro rest hP
    cases rest with
    | nil => rfl
    | cons nxt rest =>
      simp only [checkForConflicts, hP]
      rfl
  · intro nxt rest hP hM hL hrc
    subst hrc
    simp only [checkForConflicts, hP, hM, hL]
    rfl
  · intro nxt rest hP hM hL hrc
    subst hrc
    simp only [checkForConflicts, hP, hM, hL]
    rfl
  · intro nxt rest hP hOk
    simp only [checkForConflicts, hP]
    rcases Bool.or_eq_true_iff.mp hOk with hM | hL
    · rw [hM]
      simp
    · rw [hL]
      simp
  · intro path fields e hobj hcf
    simp only [processModifyRequest, modifyFields, hobj, ok_bind, hcf]
    rfl

/-- Counterexample to C5 as stated: after `modify(7, [a, 3, b], v)` on a
fresh object, the path `[a, 3, b, c]` does not exist, its proper prefix
`[a, 3, b]` holds the scalar `v` (no empty-map sentinel for the next
string segment `c`), yet `modify` with `remove_conflicts = false` succeeds
instead of raising StructureError, because the walk already returned at the
valueless root prefix. -/
theorem claim_C5_cx :
    processModifyRequest emptyDB 7 [.s "a", .i 3, .s "b"] [⟨[], .str "v"⟩]
        false =
      Except.ok (DB.mk
        [⟨7, [.s "a", .w], .tnull, 3⟩, ⟨7, [.s "a", .w, .s "b"], .ttext, 1⟩]
        [(⟨[.s "a", .w], .tnull⟩,
          [⟨7, .none, [0]⟩, ⟨7, .none, [1]⟩, ⟨7, .none, [2]⟩]),
         (⟨[.s "a", .w, .s "b"], .ttext⟩, [⟨7, .str "v", [3]⟩])]) ∧
    getValuesAllTypes (DB.mk
        [⟨7, [.s "a", .w], .tnull, 3⟩, ⟨7, [.s "a", .w, .s "b"], .ttext, 1⟩]
        [(⟨[.s "a", .w], .tnull⟩,
          [⟨7, .none, [0]⟩, ⟨7, .none, [1]⟩, ⟨7, .none, [2]⟩]),
         (⟨[.s "a", .w, .s "b"], .ttext⟩, [⟨7, .str "v", [3]⟩])]) 7
      [.s "a", .i 3, .s "b"] = [.str "v"] ∧
    objectHasField (DB.mk
        [⟨7, [.s "a", .w], .tnull, 3⟩, ⟨7, [.s "a", .w, .s "b"], .ttext, 1⟩]
        [(⟨[.s "a", .w], .tnull⟩,
          [⟨7, .none, [0]⟩, ⟨7, .none, [1]⟩, ⟨7, .none, [2]⟩]),
         (⟨[.s "a", .w, .s "b"], .ttext⟩, [⟨7, .str "v", [3]⟩])]) 7
      [.s "a", .i 3, .s "b", .s "c"] = Except.ok false ∧
    (processModifyRequest (DB.mk
        [⟨7, [.s "a", .w], .tnull, 3⟩, ⟨7, [.s "a", .w, .s "b"], .ttext, 1⟩]
        [(⟨[.s "a", .w], .tnull⟩,
          [⟨7, .none, [0]⟩, ⟨7, .none, [1]⟩, ⟨7, .none, [2]⟩]),
         (⟨[.s "a", .w, .s "b"], .ttext⟩, [⟨7, .str "v", [3]⟩])]) 7
      [.s "a", .i 3, .s "b", .s "c"] [⟨[], .str "w"⟩] false).isOk = true :=
  ⟨rfl, rfl, rfl, rfl⟩

/-- Witness for C5: on the object `{x: v}`, the walk at the value-holding
prefix `[x]` with next string segment `a` and conflicts kept raises the
StructureError naming `[x, a]`. -/
theorem claim_C5_witness :
    (getValuesAllTypes (DB.mk
        [⟨1, [], .temap, 1⟩, ⟨1, [.s "x"], .ttext, 1⟩]
        [(⟨[], .temap⟩, [⟨1, .dict [], []⟩]),
         (⟨[.s "x"], .ttext⟩, [⟨1, .str "v", []⟩])]) 1
      [NElem.s "x"]).isEmpty = false ∧
    checkForConflicts (DB.mk
        [⟨1, [], .temap, 1⟩, ⟨1, [.s "x"], .ttext, 1⟩]
        [(⟨[], .temap⟩, [⟨1, .dict [], []⟩]),
         (⟨[.s "x"], .ttext⟩, [⟨1, .str "v", []⟩])]) 1
      [NElem.s "x"] [NElem.s "a"] false =
      Except.error (Err.structureErr
        ("Path " ++ reprName ([NElem.s "x"] ++ [NElem.s "a"]) ++
          " conflicts with existing structure")) :=
  ⟨rfl, ((claim_C5 (DB.mk
      [⟨1, [], .temap, 1⟩, ⟨1, [.s "x"], .ttext, 1⟩]
      [(⟨[], .temap⟩, [⟨1, .dict [], []⟩]),
       (⟨[.s "x"], .ttext⟩, [⟨1, .str "v", []⟩])]) 1
    [NElem.s "x"] false).2.1 (NElem.s "a") [] rfl rfl rfl rfl)⟩

/-- C6 (amended): repeated payload fields at the same fully determined
non-list path are all stored; a read materializes every duplicate, grouped
by value type, and the user-visible tree built from them keeps the last
materialized value — `_saveTo` overwrites the slot on every non-sentinel
leaf write, so the last write wins at tree-building time. For a payload of
a single scalar type (spec scenario 1) the winner is the last field in
payload order: creating `Track 1, Track 2, Track 3` at `[tracks]` and
reading `[tracks]` yields the tree `Track 3`. -/
theorem claim_C6 :
    (∀ (o : Py) (ptr : NElem) (c : Py), getAt o ptr = some c →
      ∀ (vs : List Py) (h : vs ≠ []), (∀ w ∈ vs, notEmptySentinel w = true) →
        applySeq o ptr (vs.map fun w => ([], w)) =
          setAt o ptr (vs.getLast h)) ∧
    processCreateRequest emptyDB 1
        [⟨[.s "tracks"], .str "Track 1"⟩, ⟨[.s "tracks"], .str "Track 2"⟩,
         ⟨[.s "tracks"], .str "Track 3"⟩] =
      Except.ok (DB.mk [⟨1, [.s "tracks"], .ttext, 3⟩]
        [(⟨[.s "tracks"], .ttext⟩,
          [⟨1, .str "Track 1", []⟩, ⟨1, .str "Track 2", []⟩,
           ⟨1, .str "Track 3", []⟩])]) ∧
    processReadRequest (DB.mk [⟨1, [.s "tracks"], .ttext, 3⟩]
        [(⟨[.s "tracks"], .ttext⟩,
          [⟨1, .str "Track 1", []⟩, ⟨1, .str "Track 2", []⟩,
           ⟨1, .str "Track 3", []⟩])]) 1 (some [.s "tracks"]) Option.none =
      Except.ok [⟨[], .str "Track 1"⟩, ⟨[], .str "Track 2"⟩,
        ⟨[], .str "Track 3"⟩] ∧
    fieldsToTree [⟨[], .str "Track 1"⟩, ⟨[], .str "Track 2"⟩,
        ⟨[], .str "Track 3"⟩] = some (.str "Track 3") := by
  refine ⟨?_, rfl, rfl, rfl⟩
  intro o ptr c hget vs hne hv
  induction vs generalizing o c with
  | nil => exact absurd rfl hne
  | cons v vs ih =>
    have hvv : notEmptySentinel v = true := hv v (by simp)
    cases vs with
    | nil =>
      simp only [applySeq, List.map_cons, List.map_nil, List.foldlM_cons,
        List.foldlM_nil, List.getLast_singleton]
      rw [saveTo]
      simp only [ensureAt_of_getAt hget, hget, hvv, Bool.true_or, if_true]
      exact bind_pure _
    | cons v2 vs2 =>
      obtain ⟨o₁, hset₁, hget₁, hcoll₁⟩ := slot_update hget v
      simp only [applySeq, List.map_cons, List.foldlM_cons] at ih ⊢
      rw [saveTo]
      simp only [ensureAt_of_getAt hget, hget, hvv, Bool.true_or, if_true,
        hset₁, Option.bind_eq_bind, Option.some_bind]
      have hIH := ih o₁ v hget₁ (by simp)
        (fun w hw => hv w (List.mem_cons_of_mem v hw))
      simp only [Option.bind_eq_bind] at hIH
      rw [hIH, hcoll₁]
      exact congrArg (setAt o ptr) (List.getLast_cons (by simp)).symm

/-- Counterexample to C6 as stated: the payload
`[(tracks, 1), (tracks, a), (tracks, 2)]` at the same non-list path ends
with the integer 2, yet the read materializes all three stored duplicates
grouped by type — `1, 2, a` — not only the last payload value, and the
user-visible tree built from them is the string `a`, not `2`. -/
theorem claim_C6_cx :
    processCreateRequest emptyDB 1
        [⟨[.s "tracks"], .int 1⟩, ⟨[.s "tracks"], .str "a"⟩,
         ⟨[.s "tracks"], .int 2⟩] =
      Except.ok (DB.mk
        [⟨1, [.s "tracks"], .tint, 2⟩, ⟨1, [.s "tracks"], .ttext, 1⟩]
        [(⟨[.s "tracks"], .tint⟩, [⟨1, .int 1, []⟩, ⟨1, .int 2, []⟩]),
         (⟨[.s "tracks"], .ttext⟩, [⟨1, .str "a", []⟩])]) ∧
    processReadRequest (DB.mk
        [⟨1, [.s "tracks"], .tint, 2⟩, ⟨1, [.s "tracks"], .ttext, 1⟩]
        [(⟨[.s "tracks"], .tint⟩, [⟨1, .int 1, []⟩, ⟨1, .int 2, []⟩]),
         (⟨[.s "tracks"], .ttext⟩, [⟨1, .str "a", []⟩])]) 1
        (some [.s "tracks"]) Option.none =
      Except.ok [⟨[], .int 1⟩, ⟨[], .int 2⟩, ⟨[], .str "a"⟩] ∧
    fieldsToTree [⟨[], .int 1⟩, ⟨[], .int 2⟩, ⟨[], .str "a"⟩] =
      some (.str "a") :=
  ⟨rfl, rfl, rfl⟩

/-- Witness for C6: two successive leaf writes into an occupied list slot
keep the second value. -/
theorem claim_C6_witness :
    getAt (Py.list [Py.int 0]) (NElem.i 0) = some (Py.int 0) ∧
      applySeq (Py.list [Py.int 0]) (NElem.i 0)
          ([Py.str "x", Py.str "y"].map fun w => ([], w)) =
        setAt (Py.list [Py.int 0]) (NElem.i 0)
          ([Py.str "x", Py.str "y"].getLast (by simp)) :=
  ⟨rfl, claim_C6.1 (Py.list [Py.int 0]) (NElem.i 0) (Py.int 0) rfl
    [Py.str "x", Py.str "y"] (by simp) (by simp [notEmptySentinel])⟩

/-- C3 (amended): when modify or insert targets the integer index `endv` of
a list, the padding step writes explicit null scalar fields exactly at the
missing indices — `_fillWithNones` stores a null at every index of
`[max + 1, endv)` (of `[0, endv)` when the list is empty), and the insert
pipeline invokes it for a positive defined index. Density itself is NOT an
invariant of every operation: deleting a subtree rooted strictly below a
list element removes the element without renumbering (see the
counterexample). -/
theorem claim_C3 (db : DB) (id : Int) (path : List NElem) :
    (∀ endv : Int, path.getLast? = some (.i endv) →
      (∀ m : Int, getMaxListIndex db id ⟨path, .none⟩ = Except.ok (some m) →
        fillWithNones db id path =
          (intRange (m + 1) endv).foldlM (fun db j =>
            setFieldValue db id ⟨path.dropLast ++ [.i j], .none⟩) db) ∧
      (getMaxListIndex db id ⟨path, .none⟩ = Except.ok Option.none →
        fillWithNones db id path =
          (intRange 0 endv).foldlM (fun db j =>
            setFieldValue db id ⟨path.dropLast ++ [.i j], .none⟩) db) ∧
      (endv > 0 → insertPad db id path = fillWithNones db id path)) ∧
    (∀ a b j : Int, j ∈ intRange a b ↔ a ≤ j ∧ j < b) := by
  constructor
  · intro endv hend
    refine ⟨?_, ?_, ?_⟩
    · intro m hm
      simp only [fillWithNones, hm, ok_bind, hend]
    · intro hm
      simp only [fillWithNones, hm, ok_bind, hend]
    · intro hpos
      simp only [insertPad, hend]
      rw [if_pos hpos]
  · intro a b j
    simp only [intRange, List.mem_map, List.mem_range]
    constructor
    · rintro ⟨i, hi, rfl⟩
      omega
    · rintro ⟨h1, h2⟩
      exact ⟨(j - a).toNat, by omega, by omega⟩

/-- Counterexample to C3 as stated: create `\x7b\x7d`, store values at list
indices 0 and 1 below `a`, then delete the subtree `[a, 0, b]`; the delete
renumbers nothing, so afterwards index 1 of the list at `[a]` is in use
while index 0 is not — the used indices are `\x7b1\x7d`, not a contiguous
range starting at 0 (they were `\x7b0, 1\x7d` before the delete). -/
theorem claim_C3_cx :
    (do
      let db ← processCreateRequest emptyDB 1 (flattenHierarchy (Py.dict []))
      let db ← processModifyRequest db 1 [.s "a", .i 0, .s "b"]
        [⟨[], .str "v"⟩] false
      processModifyRequest db 1 [.s "a", .i 1, .s "c"]
        [⟨[], .str "w"⟩] false : Except Err DB).map
        (fun d => (inUseB d 1 [.s "a"] 0, inUseB d 1 [.s "a"] 1)) =
      Except.ok (true, true) ∧
    (do
      let db ← processCreateRequest emptyDB 1 (flattenHierarchy (Py.dict []))
      let db ← processModifyRequest db 1 [.s "a", .i 0, .s "b"]
        [⟨[], .str "v"⟩] false
      let db ← processModifyRequest db 1 [.s "a", .i 1, .s "c"]
        [⟨[], .str "w"⟩] false
      processDeleteRequest db 1 (some [[.s "a", .i 0, .s "b"]])
        : Except Err DB).map
        (fun d => (inUseB d 1 [.s "a"] 0, inUseB d 1 [.s "a"] 1)) =
      Except.ok (false, true) :=
  ⟨rfl, rfl⟩

/-- Witness for C3: with the list at `a` holding only index 0, padding the
path `[a, 3]` stores nulls exactly at the gap indices 1 and 2. -/
theorem claim_C3_witness :
    ([NElem.s "a", NElem.i 3].getLast? = some (NElem.i 3)) ∧
    getMaxListIndex (DB.mk [⟨1, [.s "a", .w], .tnull, 1⟩]
        [(⟨[.s "a", .w], .tnull⟩, [⟨1, .none, [0]⟩])]) 1
      ⟨[.s "a", .i 3], .none⟩ = Except.ok (some 0) ∧
    fillWithNones (DB.mk [⟨1, [.s "a", .w], .tnull, 1⟩]
        [(⟨[.s "a", .w], .tnull⟩, [⟨1, .none, [0]⟩])]) 1
      [.s "a", .i 3] =
      (intRange (0 + 1) 3).foldlM (fun db j =>
        setFieldValue db 1 ⟨[NElem.s "a", NElem.i 3].dropLast ++ [.i j],
          .none⟩)
        (DB.mk [⟨1, [.s "a", .w], .tnull, 1⟩]
          [(⟨[.s "a", .w], .tnull⟩, [⟨1, .none, [0]⟩])]) :=
  ⟨rfl, rfl,
    ((claim_C3 (DB.mk [⟨1, [.s "a", .w], .tnull, 1⟩]
        [(⟨[.s "a", .w], .tnull⟩, [⟨1, .none, [0]⟩])]) 1
      [.s "a", .i 3]).1 3 rfl).1 0 rfl⟩

/-! ### Toolbox for the refcount invariant (C1) -/

theorem bind_ok_inv {α β : Type} {e : Except Err α} {f : α → Except Err β}
    {b : β} (h : (e >>= f) = Except.ok b) :
    ∃ a, e = Except.ok a ∧ f a = Except.ok b := by
  cases e with
  | error er => exact Except.noConfusion h
  | ok a => exact ⟨a, rfl, h⟩

theorem foldlM_inv_ok {α : Type} (P : DB → Prop) (f : DB → α → Except Err DB)
    (hf : ∀ db a db', P db → f db a = Except.ok db' → P db') :
    ∀ (l : List α) (db db' : DB), P db →
      l.foldlM f db = Except.ok db' → P db' := by
  intro l
  induction l with
  | nil =>
    intro db db' hP h
    simp only [List.foldlM_nil] at h
    exact (Except.ok.inj h) ▸ hP
  | cons x xs ih =>
    intro db db' hP h
    simp only [List.foldlM_cons] at h
    obtain ⟨dbm, h1, h2⟩ := bind_ok_inv h
    exact ih dbm db' (hf db x dbm hP h1) h2

theorem noType_idem (n : List NElem) : noType (noType n) = noType n := by
  simp only [noType, List.map_map]
  apply List.map_congr_left
  intro e _
  cases e <;> rfl

theorem noType_no_int {n : List NElem} (hw : noType n = n) :
    ∀ e ∈ n, ∀ k : Int, e ≠ .i k := by
  induction n with
  | nil => simp
  | cons a rest ih =>
    simp only [noType, List.map_cons, List.cons.injEq] at hw
    intro e he k hek
    subst hek
    rcases List.mem_cons.mp he with rfl | hm
    · exact absurd hw.1 (by simp)
    · exact ih hw.2 (.i k) hm k rfl

theorem condMatchesAux_no_int {segs : List NElem}
    (h : ∀ e ∈ segs, ∀ k : Int, e ≠ .i k) :
    ∀ idx, condMatchesAux segs idx = true := by
  induction segs with
  | nil => intro idx; rfl
  | cons e rest ih =>
    intro idx
    cases e with
    | i k => exact absurd rfl (h (.i k) (by simp) k)
    | s k =>
      simp only [condMatchesAux]
      exact ih (fun e he k => h e (by simp [he]) k) idx.tail
    | w =>
      simp only [condMatchesAux]
      exact ih (fun e he k => h e (by simp [he]) k) idx.tail

theorem condMatches_wild {n : List NElem} (hw : noType n = n) (idx : List Int) :
    condMatches n idx = true := by
  unfold condMatches
  apply condMatchesAux_no_int
  intro e he k
  exact noType_no_int hw e (List.mem_of_mem_filter he) k

theorem defaultPy_tag (t : TypeTag) : (defaultPy t).tag = t := by
  cases t <;> rfl

theorem setTable_spec (db : DB) (k : TKey) (rows : List Row) :
    (setTable db k rows).spec = db.spec := rfl

theorem dropTable_spec (db : DB) (k : TKey) :
    (dropTable db k).spec = db.spec := rfl

theorem setTable_keys (db : DB) (k : TKey) (rows : List Row) :
    (setTable db k rows).tables.map Prod.fst = db.tables.map Prod.fst := by
  simp only [setTable, List.map_map]
  apply List.map_congr_left
  intro t _
  by_cases h : (t.1 == k) = true
  · simp only [Function.comp, h, if_true]
    exact (beq_iff_eq.mp h).symm
  · simp only [Function.comp, h]
    rw [if_neg (by simp [h])]

theorem mem_keys_iff_isSome (db : DB) (k : TKey) :
    (db.table? k).isSome = true ↔ k ∈ db.tables.map Prod.fst := by
  simp only [DB.table?]
  constructor
  · intro h
    cases hf : db.tables.find? fun t => t.1 == k with
    | none =>
      rw [hf] at h
      simp at h
    | some t =>
      have hp := (List.find?_eq_some.mp hf).1
      exact List.mem_map.mpr
        ⟨t, List.mem_of_find?_eq_some hf, beq_iff_eq.mp hp⟩
  · intro h
    obtain ⟨t, hm, ht⟩ := List.mem_map.mp h
    cases hf : db.tables.find? fun t => t.1 == k with
    | some t2 => rfl
    | none =>
      rw [List.find?_eq_none] at hf
      exact absurd (beq_iff_eq.mpr ht) (hf t hm)

theorem table?_setTable_self (db : DB) (k : TKey) (rows : List Row)
    (h : (db.table? k).isSome = true) :
    (setTable db k rows).table? k = some rows := by
  obtain ⟨sp, tbs⟩ := db
  simp only [DB.table?, setTable] at h ⊢
  induction tbs with
  | nil => simp at h
  | cons t ts ih =>
    by_cases hp : (t.1 == k) = true
    · have hkk : (k == k) = true := beq_iff_eq.mpr rfl
      simp only [List.map_cons, hp, if_true, List.find?_cons, hkk]
      rfl
    · have hpf : (t.1 == k) = false := Bool.eq_false_iff.mpr hp
      simp only [List.map_cons, hpf, Bool.false_eq_true, if_false,
        List.find?_cons]
      simp only [List.find?_cons, hpf] at h
      exact ih h

theorem table?_setTable_other (db : DB) (k : TKey) (rows : List Row)
    (k' : TKey) (hne : k' ≠ k) :
    (setTable db k rows).table? k' = db.table? k' := by
  obtain ⟨sp, tbs⟩ := db
  simp only [DB.table?, setTable]
  induction tbs with
  | nil => rfl
  | cons t ts ih =>
    by_cases hp : (t.1 == k) = true
    · have ht1 : t.1 = k := beq_iff_eq.mp hp
      have h1 : (k == k') = false := by
        simp only [beq_eq_false_iff_ne]
        exact fun hc => hne hc.symm
      have h2 : (t.1 == k') = false := by
        rw [ht1]
        exact h1
      simp only [List.map_cons, hp, if_true, List.find?_cons, h1, h2]
      exact ih
    · have hpf : (t.1 == k) = false := Bool.eq_false_iff.mpr hp
      simp only [List.map_cons, hpf, Bool.false_eq_true, if_false,
        List.find?_cons]
      by_cases hp' : (t.1 == k') = true
      · simp only [hp']
      · simp only [Bool.eq_false_iff.mpr hp']
        exact ih

theorem table?_dropTable_self (db : DB) (k : TKey) :
    (dropTable db k).table? k = Option.none := by
  simp only [DB.table?, dropTable]
  have h : (db.tables.filter fun t => !(t.1 == k)).find?
      (fun t => t.1 == k) = Option.none := by
    rw [List.find?_eq_none]
    intro t ht hp
    have h2 := (List.mem_filter.mp ht).2
    rw [hp] at h2
    simp at h2
  rw [h]
  rfl

theorem table?_dropTable_other (db : DB) (k : TKey) (k' : TKey)
    (hne : k' ≠ k) :
    (dropTable db k).table? k' = db.table? k' := by
  obtain ⟨sp, tbs⟩ := db
  simp only [DB.table?, dropTable]
  induction tbs with
  | nil => rfl
  | cons t ts ih =>
    by_cases hp : (t.1 == k) = true
    · have ht1 : t.1 = k := beq_iff_eq.mp hp
      have h2 : (t.1 == k') = false := by
        rw [ht1]
        simp only [beq_eq_false_iff_ne]
        exact fun hc => hne hc.symm
      have hb : (!(t.1 == k)) = false := by simp [hp]
      simp only [List.filter_cons, hb, Bool.false_eq_true, if_false,
        List.find?_cons, h2]
      exact ih
    · have hpf : (t.1 == k) = false := Bool.eq_false_iff.mpr hp
      have hb : (!(t.1 == k)) = true := by simp [hpf]
      simp only [List.filter_cons, hb, if_true, List.find?_cons]
      by_cases hp' : (t.1 == k') = true
      · simp only [hp']
      · simp only [Bool.eq_false_iff.mpr hp']
        exact ih

theorem dropTable_keys_sublist (db : DB) (k : TKey) :
    List.Sublist ((dropTable db k).tables.map Prod.fst)
      (db.tables.map Prod.fst) :=
  (List.filter_sublist _).map Prod.fst

theorem table?_append (db : DB) (k : TKey) (rows : List Row) (k' : TKey) :
    (DB.mk db.spec (db.tables ++ [(k, rows)])).table? k' =
      ((db.table? k').or (if k == k' then some rows else Option.none)) := by
  simp only [DB.table?, List.find?_append]
  by_cases hp : (k == k') = true
  · rw [if_pos hp]
    cases db.tables.find? fun t => t.1 == k' with
    | none => simp [List.find?, hp]
    | some t => simp
  · rw [if_neg hp]
    cases db.tables.find? fun t => t.1 == k' with
    | none => simp [List.find?, hp]
    | some t => simp

theorem tableCount_congr (db db' : DB) (i : Int) (f : List NElem)
    (t : TypeTag) (h : db'.table? ⟨f, t⟩ = db.table? ⟨f, t⟩) :
    tableCount db' i f t = tableCount db i f t := by
  simp only [tableCount, h]

theorem getValueTypes_mem (db : DB) (id : Int) (name : List NElem)
    (t : TypeTag) :
    t ∈ getValueTypes db id name ↔
      ∃ r ∈ db.spec, r.oid = id ∧ r.fname = noType name ∧ r.tag = t := by
  simp only [getValueTypes, List.mem_map, List.mem_filter,
    Bool.and_eq_true, beq_iff_eq]
  constructor
  · rintro ⟨r, ⟨hm, h1, h2⟩, rfl⟩
    exact ⟨r, hm, h1, h2, rfl⟩
  · rintro ⟨r, hm, h1, h2, rfl⟩
    exact ⟨r, ⟨hm, h1, h2⟩, rfl⟩

theorem tableCount_setTable_self (db : DB) (f : List NElem) (t : TypeTag)
    (rows : List Row) (h : (db.table? ⟨f, t⟩).isSome = true) (i : Int) :
    tableCount (setTable db ⟨f, t⟩ rows) i f t =
      rows.countP fun r => r.oid == i := by
  simp only [tableCount, table?_setTable_self db ⟨f, t⟩ rows h]

theorem tableCount_setTable_other (db : DB) (k : TKey) (rows : List Row)
    (i : Int) (f : List NElem) (t : TypeTag) (hne : TKey.mk f t ≠ k) :
    tableCount (setTable db k rows) i f t = tableCount db i f t := by
  simp only [tableCount, table?_setTable_other db k rows ⟨f, t⟩ hne]

theorem tableCount_dropTable_self (db : DB) (f : List NElem) (t : TypeTag)
    (i : Int) : tableCount (dropTable db ⟨f, t⟩) i f t = 0 := by
  simp only [tableCount, table?_dropTable_self]

theorem tableCount_dropTable_other (db : DB) (k : TKey) (i : Int)
    (f : List NElem) (t : TypeTag) (hne : TKey.mk f t ≠ k) :
    tableCount (dropTable db k) i f t = tableCount db i f t := by
  simp only [tableCount, table?_dropTable_other db k ⟨f, t⟩ hne]

theorem assure_spec (db : DB) (f : Fld) :
    (assureFieldTableExists db f).spec = db.spec := by
  simp only [assureFieldTableExists]
  split <;> rfl

theorem spec_filter_unique {sp : List SRow} (hnd : (sp.map SRow.key).Nodup)
    {r : SRow} (hr : r ∈ sp) :
    sp.filter (fun s => s.oid == r.oid && s.fname == r.fname &&
      s.tag == r.tag) = [r] := by
  induction sp with
  | nil => exact absurd hr (by simp)
  | cons a rest ih =>
    simp only [List.map_cons, List.nodup_cons] at hnd
    rcases List.mem_cons.mp hr with rfl | hm
    · rw [List.filter_cons_of_pos (by simp)]
      have hrest : rest.filter (fun s => s.oid == r.oid &&
          s.fname == r.fname && s.tag == r.tag) = [] := by
        rw [List.filter_eq_nil_iff]
        intro s hs hc
        simp only [Bool.and_eq_true, beq_iff_eq] at hc
        exact hnd.1 (by
          rw [show r.key = s.key from by
            simp [SRow.key, hc.1.1, hc.1.2, hc.2]]
          exact List.mem_map_of_mem SRow.key hs)
      rw [hrest]
    · have hane : ¬(a.oid == r.oid && a.fname == r.fname &&
          a.tag == r.tag) = true := by
        intro hc
        simp only [Bool.and_eq_true, beq_iff_eq] at hc
        exact hnd.1 (by
          rw [show a.key = r.key from by
            simp [SRow.key, hc.1.1, hc.1.2, hc.2]]
          exact List.mem_map_of_mem SRow.key hm)
      rw [List.filter_cons_of_neg (by simpa using hane)]
      exact ih hnd.2 hm

theorem spec_filter_nil {sp : List SRow} (i : Int) (f : List NElem)
    (t : TypeTag) (h : ∀ r ∈ sp, ¬(r.oid = i ∧ r.fname = f ∧ r.tag = t)) :
    sp.filter (fun s => s.oid == i && s.fname == f && s.tag == t) = [] := by
  rw [List.filter_eq_nil_iff]
  intro s hs hc
  simp only [Bool.and_eq_true, beq_iff_eq] at hc
  exact h s hs ⟨hc.1.1, hc.1.2, hc.2⟩

theorem table?_assure (db : DB) (f : Fld) (k' : TKey) :
    (assureFieldTableExists db f).table? k' = db.table? k' ∨
      ((assureFieldTableExists db f).table? k' = some [] ∧
        k' = ⟨noType f.name, f.val.tag⟩ ∧ db.table? k' = Option.none ∧
        (assureFieldTableExists db f).tables =
          db.tables ++ [(⟨noType f.name, f.val.tag⟩, [])]) := by
  simp only [assureFieldTableExists]
  split
  · exact Or.inl rfl
  · rename_i h
    have habs : db.table? ⟨noType f.name, f.val.tag⟩ = Option.none := by
      simp only [DB.tableExists] at h
      cases hx : db.table? ⟨noType f.name, f.val.tag⟩ with
      | none => rfl
      | some rows =>
        rw [hx] at h
        simp at h
    have happ := table?_append db ⟨noType f.name, f.val.tag⟩ [] k'
    rw [show DB.mk db.spec (db.tables ++ [(⟨noType f.name, f.val.tag⟩, [])])
        = { db with tables :=
            db.tables ++ [(⟨noType f.name, f.val.tag⟩, [])] } from rfl] at happ
    by_cases hk : k' = (⟨noType f.name, f.val.tag⟩ : TKey)
    · refine Or.inr ⟨?_, hk, hk ▸ habs, rfl⟩
      rw [happ, hk, habs, if_pos (beq_iff_eq.mpr rfl)]
      rfl
    · refine Or.inl ?_
      rw [happ, if_neg (by simp [beq_iff_eq]; exact fun hc => hk hc.symm)]
      cases db.table? k' <;> rfl

theorem assure_tableCount (db : DB) (f : Fld) (i : Int) (f0 : List NElem)
    (t0 : TypeTag) :
    tableCount (assureFieldTableExists db f) i f0 t0 = tableCount db i f0 t0 := by
  rcases table?_assure db f ⟨f0, t0⟩ with h | ⟨h, _, habs, _⟩
  · simp only [tableCount, h]
  · simp only [tableCount, h, habs, List.countP_nil]

theorem assure_inv {db : DB} (hI : Inv db) (f : Fld) :
    Inv (assureFieldTableExists db f) := by
  have hspec := assure_spec db f
  refine ⟨hspec ▸ hI.nodupSpec, ?_, ?_, hspec ▸ hI.pos, ?_,
    hspec ▸ hI.specWild, ?_⟩
  · simp only [assureFieldTableExists]
    split
    · exact hI.nodupTables
    · rename_i h
      simp only [List.map_append, List.map_cons, List.map_nil]
      rw [List.nodup_append]
      refine ⟨hI.nodupTables, List.nodup_singleton _, ?_⟩
      intro a ha hb
      simp only [List.mem_singleton] at hb
      subst hb
      have hm := (mem_keys_iff_isSome db ⟨noType f.name, f.val.tag⟩).mpr ha
      simp only [DB.tableExists] at h
      rw [hm] at h
      simp at h
  · intro r hr
    rw [hspec] at hr
    rw [assure_tableCount]
    exact hI.counts r hr
  · intro i f0 t0 hc
    rw [assure_tableCount] at hc
    obtain ⟨r, hr, h⟩ := hI.complete i f0 t0 hc
    exact ⟨r, hspec ▸ hr, h⟩
  · intro p hp
    simp only [assureFieldTableExists] at hp
    split at hp
    · exact hI.tableWild p hp
    · simp only [List.mem_append, List.mem_singleton] at hp
      rcases hp with hp | hp
      · exact hI.tableWild p hp
      · subst hp
        exact noType_idem f.name

theorem increase_tables (db : DB) (id : Int) (f : Fld) :
    (increaseRefcount db id f).tables = db.tables := by
  simp only [increaseRefcount]
  split <;> rfl

theorem increase_table? (db : DB) (id : Int) (f : Fld) (k : TKey) :
    (increaseRefcount db id f).table? k = db.table? k := by
  simp only [DB.table?, increase_tables]

theorem increase_tableCount (db : DB) (id : Int) (f : Fld) (i : Int)
    (f0 : List NElem) (t0 : TypeTag) :
    tableCount (increaseRefcount db id f) i f0 t0 = tableCount db i f0 t0 := by
  simp only [tableCount, increase_table?]

theorem assure_isSome_self (db : DB) (f : Fld) :
    ((assureFieldTableExists db f).table?
      ⟨noType f.name, f.val.tag⟩).isSome = true := by
  simp only [assureFieldTableExists]
  split
  · rename_i h
    exact h
  · have happ := table?_append db ⟨noType f.name, f.val.tag⟩ []
      ⟨noType f.name, f.val.tag⟩
    rw [show DB.mk db.spec (db.tables ++ [(⟨noType f.name, f.val.tag⟩, [])])
        = { db with tables :=
            db.tables ++ [(⟨noType f.name, f.val.tag⟩, [])] } from rfl] at happ
    rw [happ, if_pos (beq_iff_eq.mpr rfl)]
    cases db.table? ⟨noType f.name, f.val.tag⟩ <;> rfl

theorem increase_facts {db1 : DB} (hI1 : Inv db1) (id : Int) (f : Fld) :
    (((increaseRefcount db1 id f).spec.map SRow.key).Nodup) ∧
    (∀ r' ∈ (increaseRefcount db1 id f).spec, noType r'.fname = r'.fname) ∧
    (∀ r' ∈ (increaseRefcount db1 id f).spec, 1 ≤ r'.refcount) ∧
    (∀ r' ∈ (increaseRefcount db1 id f).spec, r'.refcount =
      ((tableCount db1 r'.oid r'.fname r'.tag : Nat) : Int) +
      (if r'.oid = id ∧ r'.fname = noType f.name ∧ r'.tag = f.val.tag
        then 1 else 0)) ∧
    (∀ i f0 t0, (0 < tableCount db1 i f0 t0 ∨
        (i = id ∧ f0 = noType f.name ∧ t0 = f.val.tag)) →
      ∃ r' ∈ (increaseRefcount db1 id f).spec,
        r'.oid = i ∧ r'.fname = f0 ∧ r'.tag = t0) := by
  simp only [increaseRefcount]
  split
  · rename_i hcond
    have hno : ∀ r ∈ db1.spec,
        ¬(r.oid = id ∧ r.fname = noType f.name ∧ r.tag = f.val.tag) := by
      intro r hr hc
      have hmem : f.val.tag ∈ getValueTypes db1 id f.name :=
        (getValueTypes_mem db1 id f.name f.val.tag).mpr
          ⟨r, hr, hc.1, hc.2.1, hc.2.2⟩
      have := List.elem_eq_true_of_mem hmem
      rw [show (getValueTypes db1 id f.name).contains f.val.tag
          = (getValueTypes db1 id f.name).elem f.val.tag from rfl, this] at hcond
      simp at hcond
    have hcount0 : tableCount db1 id (noType f.name) f.val.tag = 0 := by
      by_contra hc
      obtain ⟨r, hr, h1, h2, h3⟩ := hI1.complete id (noType f.name) f.val.tag
        (Nat.pos_of_ne_zero hc)
      exact hno r hr ⟨h1, h2, h3⟩
    refine ⟨?_, ?_, ?_, ?_, ?_⟩
    · simp only [List.map_append, List.map_cons, List.map_nil]
      rw [List.nodup_append]
      refine ⟨hI1.nodupSpec, List.nodup_singleton _, ?_⟩
      intro a ha hb
      simp only [List.mem_singleton] at hb
      subst hb
      obtain ⟨r, hr, hkey⟩ := List.mem_map.mp ha
      apply hno r hr
      have h1 := congrArg Prod.fst hkey
      have h2 := congrArg (Prod.fst ∘ Prod.snd) hkey
      have h3 := congrArg (Prod.snd ∘ Prod.snd) hkey
      simp only [SRow.key, Function.comp] at h1 h2 h3
      exact ⟨h1, h2, h3⟩
    · intro r' hr'
      rcases List.mem_append.mp hr' with hm | hm
      · exact hI1.specWild r' hm
      · simp only [List.mem_singleton] at hm
        subst hm
        exact noType_idem f.name
    · intro r' hr'
      rcases List.mem_append.mp hr' with hm | hm
      · exact hI1.pos r' hm
      · simp only [List.mem_singleton] at hm
        subst hm
        exact le_refl 1
    · intro r' hr'
      rcases List.mem_append.mp hr' with hm | hm
      · rw [if_neg (hno r' hm), hI1.counts r' hm]
        omega
      · simp only [List.mem_singleton] at hm
        subst hm
        rw [if_pos ⟨rfl, rfl, rfl⟩]
        simp only [hcount0]
        omega
    · intro i f0 t0 hc
      rcases hc with hc | hkey
      · obtain ⟨r, hr, hk⟩ := hI1.complete i f0 t0 hc
        exact ⟨r, List.mem_append.mpr (Or.inl hr), hk⟩
      · obtain ⟨h1, h2, h3⟩ := hkey
        exact ⟨⟨i, f0, t0, 1⟩,
          List.mem_append.mpr (Or.inr (by simp [h1, h2, h3])), rfl, rfl, rfl⟩
  · rename_i hcond
    have hkey_pres : ∀ r : SRow,
        (if r.oid == id && r.fname == noType f.name && r.tag == f.val.tag
          then { r with refcount := r.refcount + 1 } else r).key = r.key := by
      intro r
      split <;> rfl
    have hfields : ∀ r : SRow,
        (if r.oid == id && r.fname == noType f.name && r.tag == f.val.tag
          then { r with refcount := r.refcount + 1 } else r).oid = r.oid ∧
        (if r.oid == id && r.fname == noType f.name && r.tag == f.val.tag
          then { r with refcount := r.refcount + 1 } else r).fname = r.fname ∧
        (if r.oid == id && r.fname == noType f.name && r.tag == f.val.tag
          then { r with refcount := r.refcount + 1 } else r).tag = r.tag := by
      intro r
      split <;> exact ⟨rfl, rfl, rfl⟩
    refine ⟨?_, ?_, ?_, ?_, ?_⟩
    · rw [List.map_map]
      simp only [Function.comp_def]
      rw [List.map_congr_left (l := db1.spec) (fun r _ => hkey_pres r)]
      exact hI1.nodupSpec
    · intro r' hr'
      obtain ⟨r, hr, rfl⟩ := List.mem_map.mp hr'
      rw [(hfields r).2.1]
      exact hI1.specWild r hr
    · intro r' hr'
      obtain ⟨r, hr, rfl⟩ := List.mem_map.mp hr'
      have hp := hI1.pos r hr
      split
      · show 1 ≤ r.refcount + 1
        omega
      · exact hp
    · intro r' hr'
      obtain ⟨r, hr, rfl⟩ := List.mem_map.mp hr'
      have hcnt := hI1.counts r hr
      by_cases hm : (r.oid == id && r.fname == noType f.name &&
          r.tag == f.val.tag) = true
      · have hm2 := hm
        simp only [Bool.and_eq_true, beq_iff_eq] at hm2
        rw [if_pos hm]
        rw [if_pos (show ({ r with refcount := r.refcount + 1 } : SRow).oid = id ∧
            ({ r with refcount := r.refcount + 1 } : SRow).fname = noType f.name ∧
            ({ r with refcount := r.refcount + 1 } : SRow).tag = f.val.tag from
          ⟨hm2.1.1, hm2.1.2, hm2.2⟩)]
        show r.refcount + 1 = _ + (1 : Int)
        rw [hcnt]
      · rw [if_neg hm]
        rw [if_neg (by
          intro hc
          exact hm (by
            simp only [Bool.and_eq_true, beq_iff_eq]
            exact ⟨⟨hc.1, hc.2.1⟩, hc.2.2⟩))]
        rw [hcnt]
        omega
    · intro i f0 t0 hc
      have hrow : ∃ r ∈ db1.spec, r.oid = i ∧ r.fname = f0 ∧ r.tag = t0 := by
        rcases hc with hc | ⟨h1, h2, h3⟩
        · exact hI1.complete i f0 t0 hc
        · have hcontains :
              ((getValueTypes db1 id f.name).contains f.val.tag) = true := by
            cases hx : (getValueTypes db1 id f.name).contains f.val.tag with
            | true => rfl
            | false => exact absurd (by rw [hx]; rfl) hcond
          have hmem : f.val.tag ∈ getValueTypes db1 id f.name := by
            simpa using List.mem_of_elem_eq_true hcontains
          obtain ⟨r, hr, k1, k2, k3⟩ :=
            (getValueTypes_mem db1 id f.name f.val.tag).mp hmem
          exact ⟨r, hr, by rw [k1, h1], by rw [k2, h2], by rw [k3, h3]⟩
      obtain ⟨r, hr, h1, h2, h3⟩ := hrow
      refine ⟨_, List.mem_map_of_mem _ hr, ?_⟩
      rw [(hfields r).1, (hfields r).2.1, (hfields r).2.2]
      exact ⟨h1, h2, h3⟩

/-- `_setFieldValue` preserves the database invariant. -/
theorem setFieldValue_inv {db : DB} (hI : Inv db) {id : Int} {f : Fld}
    {db' : DB} (h : setFieldValue db id f = Except.ok db') : Inv db' := by
  have hI1 : Inv (assureFieldTableExists db f) := assure_inv hI f
  simp only [setFieldValue, addValueRecord] at h
  set db1 := assureFieldTableExists db f with hdb1
  set db2 := increaseRefcount db1 id f with hdb2
  have htbl : db2.tables = db1.tables := increase_tables db1 id f
  have hsome : (db2.table? ⟨noType f.name, f.val.tag⟩).isSome = true := by
    rw [hdb2, increase_table?]
    exact assure_isSome_self db f
  obtain ⟨rows, hrows⟩ := Option.isSome_iff_exists.mp hsome
  simp only [hrows] at h
  have hdb' : db' = setTable db2 ⟨noType f.name, f.val.tag⟩
      (rows ++ [⟨id, f.val, intIndices f.name⟩]) := (Except.ok.inj h).symm
  subst hdb'
  obtain ⟨S1, S2, S3, S4, S5⟩ := increase_facts hI1 id f
  have hrowsc : ∀ i : Int, rows.countP (fun r => r.oid == i) =
      tableCount db1 i (noType f.name) f.val.tag := by
    intro i
    have hx : tableCount db2 i (noType f.name) f.val.tag =
        rows.countP fun r => r.oid == i := by
      simp only [tableCount, hrows]
    rw [← hx, hdb2, increase_tableCount]
  have hccself : ∀ i : Int,
      tableCount (setTable db2 ⟨noType f.name, f.val.tag⟩
        (rows ++ [⟨id, f.val, intIndices f.name⟩])) i (noType f.name)
        f.val.tag =
      tableCount db1 i (noType f.name) f.val.tag +
        (if id = i then 1 else 0) := by
    intro i
    rw [tableCount_setTable_self db2 (noType f.name) f.val.tag _ hsome i]
    rw [List.countP_append, hrowsc]
    congr 1
    simp only [List.countP_cons, List.countP_nil]
    by_cases hid : id = i
    · rw [if_pos hid]
      simp [beq_iff_eq, hid]
    · rw [if_neg hid]
      simp [beq_iff_eq, hid]
  have hccother : ∀ (i : Int) (f0 : List NElem) (t0 : TypeTag),
      ¬(f0 = noType f.name ∧ t0 = f.val.tag) →
      tableCount (setTable db2 ⟨noType f.name, f.val.tag⟩
        (rows ++ [⟨id, f.val, intIndices f.name⟩])) i f0 t0 =
      tableCount db1 i f0 t0 := by
    intro i f0 t0 hk
    rw [tableCount_setTable_other db2 _ _ i f0 t0 (by
      intro hc
      simp only [TKey.mk.injEq] at hc
      exact hk hc)]
    rw [hdb2, increase_tableCount]
  refine ⟨?_, ?_, ?_, ?_, ?_, ?_, ?_⟩
  · rw [setTable_spec]
    exact S1
  · rw [setTable_keys, htbl]
    exact hI1.nodupTables
  · intro r' hr'
    rw [setTable_spec] at hr'
    have hS4 := S4 r' hr'
    by_cases hk : r'.fname = noType f.name ∧ r'.tag = f.val.tag
    · rw [hk.1, hk.2, hccself r'.oid]
      rw [hk.1, hk.2] at hS4
      by_cases hid : r'.oid = id
      · rw [if_pos ⟨hid, rfl, rfl⟩] at hS4
        rw [if_pos hid.symm, hS4]
        push_cast
        ring
      · rw [if_neg (by intro hc; exact hid hc.1)] at hS4
        rw [if_neg (by intro hc; exact hid hc.symm), hS4]
        push_cast
        ring
    · rw [hccother r'.oid r'.fname r'.tag hk]
      rw [if_neg (by intro hc; exact hk ⟨hc.2.1, hc.2.2⟩)] at hS4
      rw [hS4]
      ring
  · intro r' hr'
    rw [setTable_spec] at hr'
    exact S3 r' hr'
  · intro i f0 t0 hc
    by_cases hk : f0 = noType f.name ∧ t0 = f.val.tag
    · obtain ⟨rfl, rfl⟩ := hk
      rw [hccself i] at hc
      by_cases hid : i = id
      · obtain ⟨r', hr', hkk⟩ := S5 i (noType f.name) f.val.tag
          (Or.inr ⟨hid, rfl, rfl⟩)
        exact ⟨r', by rw [setTable_spec]; exact hr', hkk⟩
      · rw [if_neg (fun hc2 => hid hc2.symm)] at hc
        obtain ⟨r', hr', hkk⟩ := S5 i (noType f.name) f.val.tag
          (Or.inl (by omega))
        exact ⟨r', by rw [setTable_spec]; exact hr', hkk⟩
    · rw [hccother i f0 t0 hk] at hc
      obtain ⟨r', hr', hkk⟩ := S5 i f0 t0 (Or.inl hc)
      exact ⟨r', by rw [setTable_spec]; exact hr', hkk⟩
  · intro r' hr'
    rw [setTable_spec] at hr'
    exact S2 r' hr'
  · intro p hp
    simp only [setTable] at hp
    obtain ⟨t, ht, rfl⟩ := List.mem_map.mp hp
    split
    · exact noType_idem f.name
    · exact hI1.tableWild t (htbl ▸ ht)

theorem countP_split {α : Type} (p q : α → Bool) (l : List α) :
    l.countP p = l.countP (fun a => p a && q a) +
      l.countP (fun a => p a && !q a) := by
  induction l with
  | nil => rfl
  | cons a as ih =>
    simp only [List.countP_cons]
    cases hp : p a <;> cases hq : q a <;>
      simp only [hp, hq, Bool.and_true, Bool.and_false, Bool.true_and,
        Bool.false_and, Bool.not_true, Bool.not_false, Bool.false_eq_true,
        if_false, if_true] <;>
      omega

/-- Dropping an empty per-field table preserves the invariant. -/
theorem drop_empty_inv {db : DB} (hI : Inv db) {k : TKey}
    (h : db.table? k = some []) : Inv (dropTable db k) := by
  have hnok : ∀ r ∈ db.spec, TKey.mk r.fname r.tag ≠ k := by
    intro r hr hc
    have hcnt := hI.counts r hr
    have hz : tableCount db r.oid r.fname r.tag = 0 := by
      simp only [tableCount, hc, h, List.countP_nil]
    rw [hz] at hcnt
    have := hI.pos r hr
    omega
  refine ⟨hI.nodupSpec, hI.nodupTables.sublist (dropTable_keys_sublist db k),
    ?_, hI.pos, ?_, hI.specWild, ?_⟩
  · intro r hr
    rw [dropTable_spec] at hr
    rw [tableCount_dropTable_other db k r.oid r.fname r.tag (hnok r hr)]
    exact hI.counts r hr
  · intro i f0 t0 hc
    by_cases hk : TKey.mk f0 t0 = k
    · rw [show f0 = (TKey.mk f0 t0).fname from rfl,
        show t0 = (TKey.mk f0 t0).tag from rfl, hk] at hc
      rw [show k = TKey.mk k.fname k.tag from rfl] at hc
      rw [tableCount_dropTable_self] at hc
      omega
    · rw [tableCount_dropTable_other db k i f0 t0 hk] at hc
      obtain ⟨r, hr, hkk⟩ := hI.complete i f0 t0 hc
      exact ⟨r, by rw [dropTable_spec]; exact hr, hkk⟩
  · intro p hp
    simp only [dropTable] at hp
    exact hI.tableWild p (List.mem_of_mem_filter hp)

/-- A successful `decreaseRefcount` on a default-typed field finds the
unique matching specification row and either removes it (count reached) or
subtracts from it. -/
theorem decrease_char {db : DB} (hI : Inv db) {id : Int} {name : List NElem}
    {t : TypeTag} {num : Int} {dbA : DB}
    (h : decreaseRefcount db id ⟨name, defaultPy t⟩ num = Except.ok dbA) :
    ∃ r0 ∈ db.spec, r0.oid = id ∧ r0.fname = noType name ∧ r0.tag = t ∧
      ((r0.refcount = num ∧
        dbA = { db with spec := db.spec.filter fun s =>
          !(s.oid == id && s.fname == noType name && s.tag == t) }) ∨
       (r0.refcount ≠ num ∧
        dbA = { db with spec := db.spec.map fun s =>
          if s.oid == id && s.fname == noType name && s.tag == t then
            { s with refcount := s.refcount - num } else s })) := by
  simp only [decreaseRefcount, defaultPy_tag] at h
  cases hex : db.spec.filter
      (fun s => s.oid == id && s.fname == noType name && s.tag == t) with
  | nil =>
    simp only [hex, List.map_nil, List.head?_nil] at h
    exact Except.noConfusion h
  | cons r0 rest =>
    have hr0m : r0 ∈ db.spec.filter
        (fun s => s.oid == id && s.fname == noType name && s.tag == t) := by
      rw [hex]
      simp
    have hr0 := List.mem_filter.mp hr0m
    have hprops := hr0.2
    simp only [Bool.and_eq_true, beq_iff_eq] at hprops
    refine ⟨r0, hr0.1, hprops.1.1, hprops.1.2, hprops.2, ?_⟩
    simp only [hex, List.map_cons, List.head?_cons] at h
    by_cases hb : (r0.refcount == num) = true
    · rw [if_pos hb] at h
      exact Or.inl ⟨beq_iff_eq.mp hb, (Except.ok.inj h).symm⟩
    · rw [if_neg hb] at h
      exact Or.inr ⟨by simpa using hb, (Except.ok.inj h).symm⟩

/-- One per-type deletion step of `deleteValues` preserves the invariant. -/
theorem dvt_inv {db : DB} (hI : Inv db) {id : Int} {name : List NElem}
    {cond : List Int → Bool} {t : TypeTag} {db' : DB}
    (h : deleteValuesType db id name cond t = Except.ok db') : Inv db' := by
  simp only [deleteValuesType] at h
  cases hrows : db.table? ⟨noType name, t⟩ with
  | none =>
    simp only [hrows] at h
    exact Except.noConfusion h
  | some rows =>
    simp only [hrows] at h
    by_cases hdel : ((rows.countP fun r => r.oid == id && cond r.idx) == 0)
      = true
    · rw [if_pos hdel] at h
      exact (Except.ok.inj h) ▸ hI
    · rw [if_neg hdel] at h
      obtain ⟨dbA, hdec, hrest⟩ := bind_ok_inv h
      obtain ⟨r0, hr0, hoid, hfn, htg, hbranch⟩ := decrease_char hI hdec
      set num : Int :=
        ((rows.countP fun r => r.oid == id && cond r.idx : Nat) : Int)
        with hnumdef
      have hAtables : dbA.tables = db.tables := by
        rcases hbranch with ⟨_, rfl⟩ | ⟨_, rfl⟩ <;> rfl
      have hAtable? : ∀ k', dbA.table? k' = db.table? k' := by
        intro k'
        simp only [DB.table?, hAtables]
      have hAsome : (dbA.table? ⟨noType name, t⟩).isSome = true := by
        rw [hAtable?, hrows]
        rfl
      have hAcount : ∀ i f0 t0, tableCount dbA i f0 t0 = tableCount db i f0 t0 :=
        fun i f0 t0 => by simp only [tableCount, hAtable?]
      have hcnt0 : ((tableCount db id (noType name) t : Nat) : Int)
          = r0.refcount := by
        rw [← hoid, ← hfn, ← htg]
        exact (hI.counts r0 hr0).symm
      have hcntrows : ∀ i : Int, tableCount db i (noType name) t =
          rows.countP fun r => r.oid == i := by
        intro i
        simp only [tableCount, hrows]
      have hmono : (rows.countP fun r => r.oid == id && cond r.idx) ≤
          rows.countP fun r => r.oid == id := by
        apply List.countP_mono_left
        intro r _ hp
        exact (Bool.and_eq_true .. |>.mp hp).1
      -- counts of the filtered row list
      have hfiltcount : ∀ i : Int,
          ((rows.filter fun r => !(r.oid == id && cond r.idx)).countP
            fun r => r.oid == i) =
          (rows.countP fun r => r.oid == i) -
            (if i = id then rows.countP (fun r => r.oid == id && cond r.idx)
              else 0) := by
        intro i
        rw [List.countP_filter]
        by_cases hid : i = id
        · subst hid
          rw [if_pos rfl]
          have hsplit := countP_split (fun r : Row => r.oid == i)
            (fun r => cond r.idx) rows
          have he1 : (rows.countP fun r => r.oid == i && cond r.idx) =
              rows.countP fun r => (r.oid == i) && cond r.idx := rfl
          have he2 : (rows.countP fun r => (r.oid == i) &&
              !(r.oid == i && cond r.idx)) =
              rows.countP fun r => (r.oid == i) && !(cond r.idx) := by
            apply List.countP_congr
            intro r _
            cases hro : (r.oid == i) <;> cases hc : cond r.idx <;>
              simp [hro, hc]
          rw [he2]
          omega
        · rw [if_neg hid]
          apply List.countP_congr
          intro r _
          cases hro : (r.oid == i)
          · simp
          · have : (r.oid == id) = false := by
              rw [beq_iff_eq.mp hro]
              simpa using hid
            simp [hro, this]
      -- the invariant after writing back the filtered rows
      have hIB : Inv (setTable dbA ⟨noType name, t⟩
          (rows.filter fun r => !(r.oid == id && cond r.idx))) := by
        have hBspec : (setTable dbA ⟨noType name, t⟩
            (rows.filter fun r => !(r.oid == id && cond r.idx))).spec
            = dbA.spec := setTable_spec ..
        have hBcount_self : ∀ i : Int,
            tableCount (setTable dbA ⟨noType name, t⟩
              (rows.filter fun r => !(r.oid == id && cond r.idx)))
              i (noType name) t =
            (rows.countP fun r => r.oid == i) -
              (if i = id then rows.countP
                (fun r => r.oid == id && cond r.idx) else 0) := by
          intro i
          rw [tableCount_setTable_self dbA (noType name) t _ hAsome i]
          exact hfiltcount i
        have hBcount_other : ∀ (i : Int) (f0 : List NElem) (t0 : TypeTag),
            ¬(f0 = noType name ∧ t0 = t) →
            tableCount (setTable dbA ⟨noType name, t⟩
              (rows.filter fun r => !(r.oid == id && cond r.idx))) i f0 t0 =
            tableCount db i f0 t0 := by
          intro i f0 t0 hk
          rw [tableCount_setTable_other dbA _ _ i f0 t0 (by
            intro hc
            simp only [TKey.mk.injEq] at hc
            exact hk hc)]
          exact hAcount i f0 t0
        rcases hbranch with ⟨heq, hA⟩ | ⟨hne, hA⟩
        · -- the specification row is removed
          have hAspec : dbA.spec = db.spec.filter fun s =>
              !(s.oid == id && s.fname == noType name && s.tag == t) := by
            rw [hA]
          have hnomatch : ∀ s ∈ dbA.spec,
              ¬(s.oid = id ∧ s.fname = noType name ∧ s.tag = t) := by
            intro s hs hc
            rw [hAspec] at hs
            have := (List.mem_filter.mp hs).2
            simp only [Bool.not_eq_true', Bool.and_eq_false_iff,
              beq_eq_false_iff_ne] at this
            rcases this with (hx | hx) | hx
            · exact hx hc.1
            · exact hx hc.2.1
            · exact hx hc.2.2
          have hAsub : ∀ s ∈ dbA.spec, s ∈ db.spec := by
            intro s hs
            rw [hAspec] at hs
            exact List.mem_of_mem_filter hs
          refine ⟨?_, ?_, ?_, ?_, ?_, ?_, ?_⟩
          · rw [hBspec, hAspec]
            exact hI.nodupSpec.sublist
              ((List.filter_sublist _).map SRow.key)
          · rw [setTable_keys, hAtables]
            exact hI.nodupTables
          · intro r hr
            rw [hBspec] at hr
            by_cases hk : r.fname = noType name ∧ r.tag = t
            · rw [hk.1, hk.2, hBcount_self r.oid]
              have hiden : ¬(r.oid = id) := by
                intro hc
                exact hnomatch r hr ⟨hc, hk.1, hk.2⟩
              rw [if_neg hiden]
              have := hI.counts r (hAsub r hr)
              rw [hk.1, hk.2] at this
              rw [this]
              simp only [tableCount, hrows]
              omega
            · rw [hBcount_other r.oid r.fname r.tag hk]
              exact hI.counts r (hAsub r hr)
          · intro r hr
            rw [hBspec] at hr
            exact hI.pos r (hAsub r hr)
          · intro i f0 t0 hc
            by_cases hk : f0 = noType name ∧ t0 = t
            · rw [hk.1, hk.2] at hc ⊢
              rw [hBcount_self i] at hc
              by_cases hid : i = id
              · subst hid
                rw [if_pos rfl] at hc
                have : r0.refcount =
                    ((rows.countP fun r => r.oid == i : Nat) : Int) := by
                  rw [← hcntrows i, hcnt0]
                omega
              · rw [if_neg hid] at hc
                obtain ⟨r, hr, h1, h2, h3⟩ := hI.complete i (noType name) t
                  (by rw [hcntrows i]; omega)
                refine ⟨r, ?_, h1, h2, h3⟩
                rw [hBspec, hAspec]
                apply List.mem_filter.mpr
                refine ⟨hr, ?_⟩
                simp only [Bool.not_eq_true', Bool.and_eq_false_iff]
                left
                left
                rw [beq_eq_false_iff_ne, h1]
                exact fun hc2 => hid hc2
            · rw [hBcount_other i f0 t0 hk] at hc
              obtain ⟨r, hr, h1, h2, h3⟩ := hI.complete i f0 t0 hc
              refine ⟨r, ?_, h1, h2, h3⟩
              rw [hBspec, hAspec]
              apply List.mem_filter.mpr
              refine ⟨hr, ?_⟩
              simp only [Bool.not_eq_true', Bool.and_eq_false_iff]
              by_cases hfn2 : f0 = noType name
              · by_cases htg2 : t0 = t
                · exact absurd ⟨hfn2, htg2⟩ hk
                · right
                  rw [beq_eq_false_iff_ne, h3]
                  exact htg2
              · left
                right
                rw [beq_eq_false_iff_ne, h2]
                exact hfn2
          · intro r hr
            rw [hBspec] at hr
            exact hI.specWild r (hAsub r hr)
          · intro p hp
            simp only [setTable] at hp
            obtain ⟨tp, htp, rfl⟩ := List.mem_map.mp hp
            split
            · exact noType_idem name
            · exact hI.tableWild tp (hAtables ▸ htp)
        · -- the specification row is decremented
          have hAspec : dbA.spec = db.spec.map fun s =>
              if s.oid == id && s.fname == noType name && s.tag == t then
                { s with refcount := s.refcount - num } else s := by
            rw [hA]
          have hkey_pres : ∀ s : SRow,
              (if s.oid == id && s.fname == noType name && s.tag == t then
                { s with refcount := s.refcount - num } else s).key = s.key := by
            intro s
            split <;> rfl
          have hfields : ∀ s : SRow,
              (if s.oid == id && s.fname == noType name && s.tag == t then
                { s with refcount := s.refcount - num } else s).oid = s.oid ∧
              (if s.oid == id && s.fname == noType name && s.tag == t then
                { s with refcount := s.refcount - num } else s).fname = s.fname ∧
              (if s.oid == id && s.fname == noType name && s.tag == t then
                { s with refcount := s.refcount - num } else s).tag = s.tag := by
            intro s
            split <;> exact ⟨rfl, rfl, rfl⟩
          have hnum : num = ((rows.countP
              fun r => r.oid == id && cond r.idx : Nat) : Int) := hnumdef
          refine ⟨?_, ?_, ?_, ?_, ?_, ?_, ?_⟩
          · rw [hBspec, hAspec, List.map_map]
            simp only [Function.comp_def]
            rw [List.map_congr_left (l := db.spec) (fun s _ => hkey_pres s)]
            exact hI.nodupSpec
          · rw [setTable_keys, hAtables]
            exact hI.nodupTables
          · intro r hr
            rw [hBspec, hAspec] at hr
            obtain ⟨s, hs, rfl⟩ := List.mem_map.mp hr
            have hcnt := hI.counts s hs
            by_cases hm : (s.oid == id && s.fname == noType name &&
                s.tag == t) = true
            · have hm2 := hm
              simp only [Bool.and_eq_true, beq_iff_eq] at hm2
              rw [if_pos hm]
              show s.refcount - num = _
              have hfe : ({ s with refcount := s.refcount - num } : SRow).fname
                  = s.fname := rfl
              rw [hfe, show ({ s with refcount := s.refcount - num } :
                SRow).oid = s.oid from rfl,
                show ({ s with refcount := s.refcount - num } : SRow).tag
                  = s.tag from rfl]
              rw [hm2.1.2, hm2.2, hBcount_self s.oid, if_pos hm2.1.1]
              rw [hcnt]
              rw [hm2.1.1, hm2.1.2, hm2.2, hcntrows id]
              rw [hnum]
              have := hmono
              omega
            · rw [if_neg hm]
              by_cases hk : s.fname = noType name ∧ s.tag = t
              · have hsid : ¬(s.oid = id) := by
                  intro hc
                  exact hm (by
                    simp only [Bool.and_eq_true, beq_iff_eq]
                    exact ⟨⟨hc, hk.1⟩, hk.2⟩)
                rw [hk.1, hk.2, hBcount_self s.oid, if_neg hsid]
                rw [hcnt, hk.1, hk.2]
                simp only [tableCount, hrows]
                omega
              · rw [hBcount_other s.oid s.fname s.tag hk]
                exact hcnt
          · intro r hr
            rw [hBspec, hAspec] at hr
            obtain ⟨s, hs, rfl⟩ := List.mem_map.mp hr
            by_cases hm : (s.oid == id && s.fname == noType name &&
                s.tag == t) = true
            · have hm2 := hm
              simp only [Bool.and_eq_true, beq_iff_eq] at hm2
              rw [if_pos hm]
              show 1 ≤ s.refcount - num
              have hu : s = r0 := by
                have h1 := spec_filter_unique hI.nodupSpec hs
                have h2 := spec_filter_unique hI.nodupSpec hr0
                have hpred : ∀ x : SRow,
                    (x.oid == s.oid && x.fname == s.fname && x.tag == s.tag)
                    = (x.oid == r0.oid && x.fname == r0.fname &&
                      x.tag == r0.tag) := by
                  intro x
                  rw [hm2.1.1, hm2.1.2, hm2.2, hoid, hfn, htg]
                rw [List.filter_congr (fun x _ => hpred x)] at h1
                rw [h1] at h2
                exact (List.cons.injEq .. |>.mp h2).1
              subst hu
              have hsc := hI.counts s hs
              rw [hm2.1.1, hm2.1.2, hm2.2, hcntrows id] at hsc
              rw [hnum]
              have h3 : s.refcount ≠ num := hne
              rw [hnum] at h3
              have := hmono
              omega
            · rw [if_neg hm]
              exact hI.pos s hs
          · intro i f0 t0 hc
            have hget : ∃ r ∈ db.spec, r.oid = i ∧ r.fname = f0 ∧ r.tag = t0 := by
              by_cases hk : f0 = noType name ∧ t0 = t
              · rw [hk.1, hk.2] at hc ⊢
                rw [hBcount_self i] at hc
                refine hI.complete i (noType name) t ?_
                rw [hcntrows i]
                by_cases hid : i = id
                · rw [if_pos hid] at hc
                  omega
                · rw [if_neg hid] at hc
                  omega
              · rw [hBcount_other i f0 t0 hk] at hc
                exact hI.complete i f0 t0 hc
            obtain ⟨r, hr, h1, h2, h3⟩ := hget
            refine ⟨_, by
              rw [hBspec, hAspec]
              exact List.mem_map_of_mem _ hr, ?_⟩
            rw [(hfields r).1, (hfields r).2.1, (hfields r).2.2]
            exact ⟨h1, h2, h3⟩
          · intro r hr
            rw [hBspec, hAspec] at hr
            obtain ⟨s, hs, rfl⟩ := List.mem_map.mp hr
            rw [(hfields s).2.1]
            exact hI.specWild s hs
          · intro p hp
            simp only [setTable] at hp
            obtain ⟨tp, htp, rfl⟩ := List.mem_map.mp hp
            split
            · exact noType_idem name
            · exact hI.tableWild tp (hAtables ▸ htp)
      -- finish: either keep the written-back table or drop it when empty
      by_cases hemp : ((rows.filter fun r =>
          !(r.oid == id && cond r.idx)).isEmpty) = true
      · rw [if_pos hemp] at hrest
        have hdb' : db' = dropTable (setTable dbA ⟨noType name, t⟩
            (rows.filter fun r => !(r.oid == id && cond r.idx)))
            ⟨noType name, t⟩ := (Except.ok.inj hrest).symm
        subst hdb'
        apply drop_empty_inv hIB
        rw [table?_setTable_self dbA ⟨noType name, t⟩ _ hAsome]
        rw [List.isEmpty_iff] at hemp
        rw [hemp]
      · rw [if_neg hemp] at hrest
        have hdb' : db' = setTable dbA ⟨noType name, t⟩
            (rows.filter fun r => !(r.oid == id && cond r.idx)) :=
          (Except.ok.inj hrest).symm
        subst hdb'
        exact hIB

/-- `deleteValues` preserves the invariant. -/
theorem deleteValues_inv {db : DB} (hI : Inv db) {id : Int}
    {name : List NElem} {cond? : Option (List Int → Bool)} {db' : DB}
    (h : deleteValues db id name cond? = Except.ok db') : Inv db' := by
  simp only [deleteValues] at h
  exact foldlM_inv_ok Inv _ (fun dbx t dbx' hIx hs => dvt_inv hIx hs)
    _ db db' hI h

/-- Writing back a row-map that preserves the id column keeps the
invariant. -/
theorem setTable_mapped_inv {db : DB} (hI : Inv db) {f : List NElem}
    {t : TypeTag} {rows : List Row}
    (hrows : db.table? ⟨f, t⟩ = some rows) (g : Row → Row)
    (hg : ∀ r, (g r).oid = r.oid) : Inv (setTable db ⟨f, t⟩ (rows.map g)) := by
  have hsome : (db.table? ⟨f, t⟩).isSome = true := by
    rw [hrows]
    rfl
  have hcnt : ∀ i : Int, ((rows.map g).countP fun r => r.oid == i) =
      tableCount db i f t := by
    intro i
    rw [List.countP_map]
    rw [List.countP_congr (fun r _ => by
      simp only [Function.comp]
      rw [hg r])]
    simp only [tableCount, hrows]
  have hsame : ∀ (i : Int) (f0 : List NElem) (t0 : TypeTag),
      tableCount (setTable db ⟨f, t⟩ (rows.map g)) i f0 t0 =
        tableCount db i f0 t0 := by
    intro i f0 t0
    by_cases hk : TKey.mk f0 t0 = TKey.mk f t
    · simp only [TKey.mk.injEq] at hk
      obtain ⟨rfl, rfl⟩ := hk
      rw [tableCount_setTable_self db f0 t0 _ hsome i]
      exact hcnt i
    · exact tableCount_setTable_other db _ _ i f0 t0 hk
  refine ⟨hI.nodupSpec, ?_, ?_, hI.pos, ?_, hI.specWild, ?_⟩
  · rw [setTable_keys]
    exact hI.nodupTables
  · intro r hr
    rw [setTable_spec] at hr
    rw [hsame]
    exact hI.counts r hr
  · intro i f0 t0 hc
    rw [hsame] at hc
    obtain ⟨r, hr, hkk⟩ := hI.complete i f0 t0 hc
    exact ⟨r, by rw [setTable_spec]; exact hr, hkk⟩
  · intro p hp
    simp only [setTable] at hp
    obtain ⟨tp, htp, rfl⟩ := List.mem_map.mp hp
    split
    · rename_i hx
      have := hI.tableWild tp htp
      rw [show (TKey.mk f t).fname = tp.1.fname from by
        rw [beq_iff_eq.mp hx]]
      exact this
    · exact hI.tableWild tp htp

/-- `renumberList` preserves the invariant. -/
theorem renumberList_inv {db : DB} (hI : Inv db) {id : Int}
    {target fname : List NElem} {shift : Int} {db' : DB}
    (h : renumberList db id target fname shift = Except.ok db') : Inv db' := by
  simp only [renumberList] at h
  refine foldlM_inv_ok Inv _ ?_ _ db db' hI h
  intro dbx t dbx' hIx hstep
  cases hrx : dbx.table? ⟨noType fname, t⟩ with
  | none =>
    simp only [hrx] at hstep
    exact Except.noConfusion hstep
  | some rows =>
    simp only [hrx] at hstep
    have hd := (Except.ok.inj hstep).symm
    subst hd
    refine setTable_mapped_inv hIx hrx _ ?_
    intro r
    rcases hv : lastNumVal target with _ | v <;>
      rcases hc : r.idx.get? (lastNumPos target) with _ | c <;>
        simp only [hv, hc]
    all_goals first
      | rfl
      | (split <;> rfl)

/-- `_renumber` preserves the invariant. -/
theorem renumber_inv {db : DB} (hI : Inv db) {id : Int}
    {target : List NElem} {shift : Int} {db' : DB}
    (h : renumber db id target shift = Except.ok db') : Inv db' := by
  simp only [renumber] at h
  refine foldlM_inv_ok Inv _ ?_ _ db db' hI h
  intro dbx nm dbx' hIx hstep
  by_cases hs : shift < 0
  · rw [if_pos hs] at hstep
    obtain ⟨dbm, h1, h2⟩ := bind_ok_inv hstep
    exact renumberList_inv (deleteValues_inv hIx h1) h2
  · rw [if_neg hs] at hstep
    obtain ⟨dbm, h1, h2⟩ := bind_ok_inv hstep
    exact renumberList_inv ((Except.ok.inj h1) ▸ hIx) h2

/-- `_fillWithNones` preserves the invariant. -/
theorem fillWithNones_inv {db : DB} (hI : Inv db) {id : Int}
    {path : List NElem} {db' : DB}
    (h : fillWithNones db id path = Except.ok db') : Inv db' := by
  simp only [fillWithNones] at h
  obtain ⟨m?, h1, h2⟩ := bind_ok_inv h
  cases hlast : path.getLast? with
  | none =>
    simp only [hlast] at h2
    exact Except.noConfusion h2
  | some e =>
    cases e with
    | i endv =>
      simp only [hlast] at h2
      exact foldlM_inv_ok Inv _
        (fun dbx j dbx' hIx hs => setFieldValue_inv hIx hs) _ db db' hI h2
    | s k =>
      simp only [hlast] at h2
      exact Except.noConfusion h2
    | w =>
      simp only [hlast] at h2
      exact Except.noConfusion h2

/-- The rebuild loop of the conflict walk preserves the invariant. -/
theorem rebuildHierarchy_inv {rest : List NElem} :
    ∀ {db : DB} {id : Int} {pre : List NElem} {db' : DB}, Inv db →
      rebuildHierarchy db id pre rest = Except.ok db' → Inv db' := by
  induction rest with
  | nil =>
    intro db id pre db' hI h
    exact (Except.ok.inj h) ▸ hI
  | cons nxt rest' ih =>
    intro db id pre db' hI h
    simp only [rebuildHierarchy] at h
    by_cases hp : pointsToListElement pre = true
    · rw [if_pos hp] at h
      obtain ⟨db1, h1, h2⟩ := bind_ok_inv h
      obtain ⟨db2, h3, h4⟩ := bind_ok_inv h2
      exact ih (setFieldValue_inv (fillWithNones_inv hI h1) h3) h4
    · rw [if_neg hp] at h
      obtain ⟨db1, h1, h2⟩ := bind_ok_inv h
      obtain ⟨db2, h3, h4⟩ := bind_ok_inv h2
      exact ih (setFieldValue_inv ((Except.ok.inj h1) ▸ hI) h3) h4

/-- The conflict walk preserves the invariant. -/
theorem checkForConflicts_inv {rest : List NElem} :
    ∀ {db : DB} {id : Int} {pre : List NElem} {rc : Bool} {db' : DB}, Inv db →
      checkForConflicts db id pre rest rc = Except.ok db' → Inv db' := by
  induction rest with
  | nil =>
    intro db id pre rc db' hI h
    exact (Except.ok.inj h) ▸ hI
  | cons nxt rest' ih =>
    intro db id pre rc db' hI h
    simp only [checkForConflicts] at h
    by_cases hemp : (getValuesAllTypes db id pre).isEmpty = true
    · rw [if_pos hemp] at h
      exact (Except.ok.inj h) ▸ hI
    · rw [if_neg hemp] at h
      split at h
      · split at h
        · obtain ⟨db1, h1, h2⟩ := bind_ok_inv h
          have hI1 : Inv db1 := foldlM_inv_ok Inv _
            (fun dbx nm dbx' hIx hs => deleteValues_inv hIx hs)
            _ db db1 hI h1
          exact rebuildHierarchy_inv hI1 h2
        · exact Except.noConfusion h
      · exact ih hI h

/-- The list-padding loop of `_modifyFields` preserves the invariant. -/
theorem fillAlongAux_inv {n : Nat} :
    ∀ {db : DB} {id : Int} {path : List NElem} {db' : DB}, Inv db →
      fillAlongAux db id path n = Except.ok db' → Inv db' := by
  induction n with
  | zero =>
    intro db id path db' hI h
    exact (Except.ok.inj h) ▸ hI
  | succ n ih =>
    intro db id path db' hI h
    simp only [fillAlongAux] at h
    by_cases hp : pointsToListElement (path.take (n + 1)) = true
    · rw [if_pos hp] at h
      obtain ⟨db1, h1, h2⟩ := bind_ok_inv h
      exact ih (fillWithNones_inv hI h1) h2
    · rw [if_neg hp] at h
      obtain ⟨db1, h1, h2⟩ := bind_ok_inv h
      exact ih ((Except.ok.inj h1) ▸ hI) h2

/-- `_modifyFields` preserves the invariant. -/
theorem modifyFields_inv {db : DB} (hI : Inv db) {id : Int}
    {path : List NElem} {fields : List Fld} {rc : Bool} {db' : DB}
    (h : modifyFields db id path fields rc = Except.ok db') : Inv db' := by
  simp only [modifyFields] at h
  obtain ⟨hasF, h1, h2⟩ := bind_ok_inv h
  by_cases hf : hasF = true
  · rw [if_pos hf] at h2
    obtain ⟨db1, h3, h4⟩ := bind_ok_inv h2
    have hI1 : Inv db1 := foldlM_inv_ok Inv _
      (fun dbx nm dbx' hIx hs => deleteValues_inv hIx hs)
      _ db db1 hI h3
    exact foldlM_inv_ok Inv _
      (fun dbx fl dbx' hIx hs => setFieldValue_inv hIx hs)
      _ db1 db' hI1 h4
  · rw [if_neg hf] at h2
    obtain ⟨db0, h5, h6⟩ := bind_ok_inv h2
    obtain ⟨db1, h7, h8⟩ := bind_ok_inv h6
    have hI1 : Inv db1 := fillAlongAux_inv (checkForConflicts_inv hI h5) h7
    exact foldlM_inv_ok Inv _
      (fun dbx fl dbx' hIx hs => setFieldValue_inv hIx hs)
      _ db1 db' hI1 h8

/-- `_deleteField` preserves the invariant. -/
theorem deleteField_inv {db : DB} (hI : Inv db) {id : Int}
    {name : List NElem} {db' : DB}
    (h : deleteField db id name = Except.ok db') : Inv db' := by
  simp only [deleteField] at h
  split at h
  · exact renumber_inv hI h
  · exact foldlM_inv_ok Inv _
      (fun dbx nm dbx' hIx hs => deleteValues_inv hIx hs) _ db db' hI h

/-- `storeGroups` preserves the invariant. -/
theorem storeGroups_inv {db : DB} (hI : Inv db) {id : Int}
    {groups : List (List Fld)} {db' : DB}
    (h : storeGroups db id groups = Except.ok db') : Inv db' := by
  simp only [storeGroups] at h
  exact foldlM_inv_ok Inv _
    (fun dbx fl dbx' hIx hs => setFieldValue_inv hIx hs) _ db db' hI h

/-- The autocreate stage of insert preserves the invariant. -/
theorem insertAutocreate_inv {db : DB} (hI : Inv db) {id : Int}
    {parentName : List NElem} {rc : Bool} {db' : DB}
    (h : insertAutocreate db id parentName rc = Except.ok db') : Inv db' := by
  simp only [insertAutocreate] at h
  split at h
  · split at h
    · exact modifyFields_inv hI h
    · exact Except.noConfusion h
  · exact (Except.ok.inj h) ▸ hI

/-- The padding stage of insert preserves the invariant. -/
theorem insertPad_inv {db : DB} (hI : Inv db) {id : Int}
    {path : List NElem} {db' : DB}
    (h : insertPad db id path = Except.ok db') : Inv db' := by
  simp only [insertPad] at h
  split at h
  · split at h
    · exact fillWithNones_inv hI h
    · exact (Except.ok.inj h) ▸ hI
  · exact (Except.ok.inj h) ▸ hI
  · exact Except.noConfusion h

/-- `processInsertRequest` preserves the invariant. -/
theorem processInsertRequest_inv {db : DB} (hI : Inv db) {id : Int}
    {path : List NElem} {groups : List (List Fld)} {rc : Bool} {db' : DB}
    (h : processInsertRequest db id path groups rc = Except.ok db') :
    Inv db' := by
  simp only [processInsertRequest] at h
  obtain ⟨db1, h1, h2⟩ := bind_ok_inv h
  obtain ⟨db2, h3, h4⟩ := bind_ok_inv h2
  have hI1 : Inv db1 := insertAutocreate_inv hI h1
  have hI2 : Inv db2 := insertPad_inv hI1 h3
  obtain ⟨m?, h5, h6⟩ := bind_ok_inv h4
  cases m? with
  | none => exact storeGroups_inv hI2 h6
  | some m =>
    simp only [] at h6
    split at h6
    · exact storeGroups_inv hI2 h6
    · obtain ⟨db3, h7, h8⟩ := bind_ok_inv h6
      exact storeGroups_inv (renumber_inv hI2 h7) h8
    · exact Except.noConfusion h6

/-! ### Clearing lemmas: deleting an object leaves no trace of its id -/

theorem getLast?_mem_self {α : Type} {l : List α} {a : α}
    (h : l.getLast? = some a) : a ∈ l := by
  obtain ⟨hne, heq⟩ := List.mem_getLast?_eq_getLast (Option.mem_def.mpr h)
  rw [heq]
  exact List.getLast_mem hne

/-- A wildcarded name never points to a list element. -/
theorem pointsToListElement_wild {n : List NElem} (hw : noType n = n) :
    pointsToListElement n = false := by
  unfold pointsToListElement
  cases hl : n.getLast? with
  | none => rfl
  | some e =>
    cases e with
    | i k => exact absurd rfl (noType_no_int hw _ (getLast?_mem_self hl) k)
    | s k => rfl
    | w => rfl

theorem noType_append (a b : List NElem) :
    noType (a ++ b) = noType a ++ noType b := List.map_append _ a b

theorem noType_drop (a : List NElem) (k : Nat) :
    noType (a.drop k) = (noType a).drop k := List.map_drop ..

/-- Substituting a wildcarded prefix into a wildcarded name keeps it
wildcarded. -/
theorem substHead_wild {m f : List NElem} (hm : noType m = m)
    (hf : noType f = f) : noType (substHead m f) = substHead m f := by
  unfold substHead
  rw [noType_append, noType_drop, hm, hf]

theorem mem_of_firstDistinctAux {α : Type} [BEq α] :
    ∀ (seen l : List α) (x : α), x ∈ firstDistinctAux seen l → x ∈ l := by
  intro seen l
  induction l generalizing seen with
  | nil => intro x hx; exact absurd hx (by simp [firstDistinctAux])
  | cons a as ih =>
    intro x hx
    simp only [firstDistinctAux] at hx
    split at hx
    · exact List.mem_cons_of_mem a (ih seen x hx)
    · rcases List.mem_cons.mp hx with rfl | hx'
      · exact List.mem_cons_self _ _
      · exact List.mem_cons_of_mem a (ih (a :: seen) x hx')

theorem mem_of_firstDistinct {α : Type} [BEq α] {l : List α} {x : α}
    (hx : x ∈ firstDistinct l) : x ∈ l :=
  mem_of_firstDistinctAux [] l x hx

theorem firstDistinctAux_mem {α : Type} [BEq α] [LawfulBEq α] :
    ∀ (seen l : List α) (x : α), x ∈ l →
      x ∈ seen ∨ x ∈ firstDistinctAux seen l := by
  intro seen l
  induction l generalizing seen with
  | nil => intro x hx; exact absurd hx (by simp)
  | cons a as ih =>
    intro x hx
    simp only [firstDistinctAux]
    rcases List.mem_cons.mp hx with rfl | hx'
    · split
      · rename_i hc
        exact Or.inl (List.mem_of_elem_eq_true hc)
      · exact Or.inr (List.mem_cons_self _ _)
    · split
      · exact ih seen x hx'
      · rcases ih (a :: seen) x hx' with hs | hr
        · rcases List.mem_cons.mp hs with rfl | hs'
          · exact Or.inr (List.mem_cons_self _ _)
          · exact Or.inl hs'
        · exact Or.inr (List.mem_cons_of_mem a hr)

/-- Membership survives first-occurrence deduplication. -/
theorem firstDistinct_mem {α : Type} [BEq α] [LawfulBEq α] {l : List α}
    {x : α} (hx : x ∈ l) : x ∈ firstDistinct l := by
  rcases firstDistinctAux_mem [] l x hx with hs | hr
  · exact absurd hs (by simp)
  · exact hr

/-- One full-delete step on a wildcarded name: the invariant is kept, no
specification row is created, and the `(id, name, type)` row is gone. -/
theorem dvt_clear_step {db : DB} (hI : Inv db) {id : Int} {nm : List NElem}
    (hw : noType nm = nm) {t : TypeTag} {db' : DB}
    (h : deleteValuesType db id nm (condMatches nm) t = Except.ok db') :
    Inv db' ∧ (∀ r ∈ db'.spec, r ∈ db.spec) ∧
      (∀ r ∈ db'.spec, ¬(r.oid = id ∧ r.fname = nm ∧ r.tag = t)) := by
  refine ⟨dvt_inv hI h, ?_⟩
  simp only [deleteValuesType] at h
  cases hrows : db.table? ⟨noType nm, t⟩ with
  | none =>
    simp only [hrows] at h
    exact Except.noConfusion h
  | some rows =>
    simp only [hrows] at h
    have hcond : (rows.countP fun r => r.oid == id && condMatches nm r.idx)
        = rows.countP fun r => r.oid == id := by
      apply List.countP_congr
      intro r _
      rw [condMatches_wild hw r.idx, Bool.and_true]
    have htc : tableCount db id nm t = rows.countP fun r => r.oid == id := by
      simp only [tableCount]
      rw [hw] at hrows
      rw [hrows]
    by_cases hdel :
        ((rows.countP fun r => r.oid == id && condMatches nm r.idx) == 0)
          = true
    · rw [if_pos hdel] at h
      have hdb : db' = db := (Except.ok.inj h).symm
      subst hdb
      refine ⟨fun r hr => hr, ?_⟩
      rintro r hr ⟨h1, h2, h3⟩
      have hc := hI.counts r hr
      have hp := hI.pos r hr
      rw [h1, h2, h3, htc] at hc
      rw [hcond] at hdel
      have hz : (rows.countP fun r => r.oid == id) = 0 := beq_iff_eq.mp hdel
      rw [hz] at hc
      simp only [Nat.cast_zero] at hc
      omega
    · rw [if_neg hdel] at h
      obtain ⟨dbm, h1, h2⟩ := bind_ok_inv h
      obtain ⟨r0, hr0, hoid, hfn, htag, hbr⟩ := decrease_char hI h1
      have hrc : r0.refcount =
          ((rows.countP fun r => r.oid == id && condMatches nm r.idx : Nat) :
            Int) := by
        have hc := hI.counts r0 hr0
        rw [hoid, hfn, htag, hw, htc] at hc
        rw [hcond]
        exact hc
      rcases hbr with ⟨_, hdbm⟩ | ⟨hne, _⟩
      · have hspec : ∀ r ∈ dbm.spec, r ∈ db.spec ∧
            ¬(r.oid = id ∧ r.fname = nm ∧ r.tag = t) := by
          intro r hr
          rw [hdbm] at hr
          simp only [List.mem_filter, Bool.not_eq_true', Bool.and_eq_true,
            beq_iff_eq, hw] at hr
          refine ⟨hr.1, ?_⟩
          rintro ⟨e1, e2, e3⟩
          have := hr.2
          simp only [Bool.and_eq_false_iff, beq_eq_false_iff_ne] at this
          rcases this with (hx | hx) | hx
          · exact hx e1
          · exact hx e2
          · exact hx e3
        have hsp' : db'.spec = dbm.spec := by
          split at h2
          · have := (Except.ok.inj h2).symm
            subst this
            rfl
          · have := (Except.ok.inj h2).symm
            subst this
            rfl
        rw [hsp']
        exact ⟨fun r hr => (hspec r hr).1, fun r hr => (hspec r hr).2⟩
      · exact absurd hrc hne

/-- Folding the per-type full delete over a covering type list removes every
specification row of the `(id, name)` pair. -/
theorem dv_clear_aux {db0 : DB} {id : Int} {nm : List NElem}
    (hw : noType nm = nm) :
    ∀ (types : List TypeTag) {db db' : DB}, Inv db →
      (∀ r ∈ db.spec, r ∈ db0.spec) →
      (∀ r ∈ db.spec, r.oid = id → r.fname = nm → r.tag ∈ types) →
      types.foldlM (fun d t => deleteValuesType d id nm (condMatches nm) t) db
        = Except.ok db' →
      Inv db' ∧ (∀ r ∈ db'.spec, r ∈ db0.spec) ∧
        (∀ r ∈ db'.spec, ¬(r.oid = id ∧ r.fname = nm)) := by
  intro types
  induction types with
  | nil =>
    intro db db' hI hsub hcov h
    have hdb : db' = db := (Except.ok.inj h).symm
    subst hdb
    refine ⟨hI, hsub, ?_⟩
    rintro r hr ⟨h1, h2⟩
    exact absurd (hcov r hr h1 h2) (by simp)
  | cons t ts ih =>
    intro db db' hI hsub hcov h
    rw [List.foldlM_cons] at h
    obtain ⟨dbm, h1, h2⟩ := bind_ok_inv h
    obtain ⟨hIm, hsubm, hnom⟩ := dvt_clear_step hI hw h1
    refine ih hIm (fun r hr => hsub r (hsubm r hr)) ?_ h2
    intro r hr e1 e2
    have hin := hcov r (hsubm r hr) e1 e2
    rcases List.mem_cons.mp hin with he | he
    · exact absurd ⟨e1, e2, he⟩ (hnom r hr)
    · exact he

/-- `deleteValues` with no condition on a wildcarded name keeps the
invariant, never adds specification rows, and clears the `(id, name)`
specification rows entirely. -/
theorem dv_clear {db : DB} (hI : Inv db) {id : Int} {nm : List NElem}
    (hw : noType nm = nm) {db' : DB}
    (h : deleteValues db id nm Option.none = Except.ok db') :
    Inv db' ∧ (∀ r ∈ db'.spec, r ∈ db.spec) ∧
      (∀ r ∈ db'.spec, ¬(r.oid = id ∧ r.fname = nm)) := by
  simp only [deleteValues, Option.getD_none] at h
  refine dv_clear_aux hw (getValueTypes db id nm) hI (fun r hr => hr) ?_ h
  intro r hr h1 h2
  rw [getValueTypes_mem]
  exact ⟨r, hr, h1, by rw [h2, hw], rfl⟩

/-- Folding `deleteValues` over a list of wildcarded names clears every one
of their `(id, name)` specification rows. -/
theorem dv_fold_clear {id : Int} :
    ∀ (names : List (List NElem)) {db db' : DB}, Inv db →
      (∀ n ∈ names, noType n = n) →
      names.foldlM (fun d n => deleteValues d id n Option.none) db
        = Except.ok db' →
      Inv db' ∧ (∀ r ∈ db'.spec, r ∈ db.spec) ∧
        (∀ n ∈ names, ∀ r ∈ db'.spec, ¬(r.oid = id ∧ r.fname = n)) := by
  intro names
  induction names with
  | nil =>
    intro db db' hI hwn h
    have hdb : db' = db := (Except.ok.inj h).symm
    subst hdb
    exact ⟨hI, fun r hr => hr, fun n hn => absurd hn (by simp)⟩
  | cons n0 ns ih =>
    intro db db' hI hwn h
    rw [List.foldlM_cons] at h
    obtain ⟨dbm, h1, h2⟩ := bind_ok_inv h
    obtain ⟨hIm, hsubm, hnom⟩ := dv_clear hI (hwn n0 (by simp)) h1
    obtain ⟨hI', hsub', hno'⟩ := ih hIm (fun n hn => hwn n (by simp [hn])) h2
    refine ⟨hI', fun r hr => hsubm r (hsub' r hr), ?_⟩
    intro n hn r hr
    rcases List.mem_cons.mp hn with rfl | hn'
    · exact hnom r (hsub' r hr)
    · exact hno' n hn' r hr

/-- `_deleteField` on a wildcarded name (as read back from the
specification table) keeps the invariant, never adds specification rows,
and clears the `(id, name)` specification rows. -/
theorem deleteField_clear {db : DB} (hI : Inv db) {id : Int}
    {nm : List NElem} (hw : noType nm = nm) {db' : DB}
    (h : deleteField db id nm = Except.ok db') :
    Inv db' ∧ (∀ r ∈ db'.spec, r ∈ db.spec) ∧
      (∀ r ∈ db'.spec, ¬(r.oid = id ∧ r.fname = nm)) := by
  simp only [deleteField, pointsToListElement_wild hw, Bool.and_false,
    Bool.false_eq_true, if_false] at h
  have hnames : ∀ n ∈ getFieldsList db id (some nm) false, noType n = n := by
    intro n hn
    simp only [getFieldsList] at hn
    rcases List.mem_append.mp hn with hn' | hn'
    · obtain ⟨c, hc, rfl⟩ := List.mem_map.mp hn'
      have hcm := mem_of_firstDistinct hc
      obtain ⟨r, hr, rfl⟩ := List.mem_map.mp hcm
      exact substHead_wild hw (hI.specWild r (List.mem_of_mem_filter hr))
    · rw [List.mem_singleton.mp hn']
      exact hw
  obtain ⟨hI', hsub, hno⟩ := dv_fold_clear _ hI hnames h
  refine ⟨hI', hsub, ?_⟩
  refine hno nm ?_
  simp only [getFieldsList]
  exact List.mem_append_right _ (List.mem_singleton.mpr rfl)

/-- Folding `_deleteField` over a list of wildcarded names clears every one
of their `(id, name)` specification rows. -/
theorem df_fold_clear {id : Int} :
    ∀ (names : List (List NElem)) {db db' : DB}, Inv db →
      (∀ n ∈ names, noType n = n) →
      names.foldlM (fun d n => deleteField d id n) db = Except.ok db' →
      Inv db' ∧ (∀ r ∈ db'.spec, r ∈ db.spec) ∧
        (∀ n ∈ names, ∀ r ∈ db'.spec, ¬(r.oid = id ∧ r.fname = n)) := by
  intro names
  induction names with
  | nil =>
    intro db db' hI hwn h
    have hdb : db' = db := (Except.ok.inj h).symm
    subst hdb
    exact ⟨hI, fun r hr => hr, fun n hn => absurd hn (by simp)⟩
  | cons n0 ns ih =>
    intro db db' hI hwn h
    rw [List.foldlM_cons] at h
    obtain ⟨dbm, h1, h2⟩ := bind_ok_inv h
    obtain ⟨hIm, hsubm, hnom⟩ := deleteField_clear hI (hwn n0 (by simp)) h1
    obtain ⟨hI', hsub', hno'⟩ := ih hIm (fun n hn => hwn n (by simp [hn])) h2
    refine ⟨hI', fun r hr => hsubm r (hsub' r hr), ?_⟩
    intro n hn r hr
    rcases List.mem_cons.mp hn with rfl | hn'
    · exact hnom r (hsub' r hr)
    · exact hno' n hn' r hr

/-- `_deleteObject` preserves the invariant: the field deletions clear
every specification row of the id, so the final specification sweep
removes nothing. -/
theorem deleteObject_inv {db : DB} (hI : Inv db) {id : Int} {db' : DB}
    (h : deleteObject db id = Except.ok db') : Inv db' := by
  simp only [deleteObject] at h
  obtain ⟨dbA, h1, h2⟩ := bind_ok_inv h
  have hwnames : ∀ n ∈ getFieldsList db id Option.none false,
      noType n = n := by
    intro n hn
    simp only [getFieldsList] at hn
    obtain ⟨r, hr, rfl⟩ := List.mem_map.mp (mem_of_firstDistinct hn)
    exact hI.specWild r (List.mem_of_mem_filter hr)
  obtain ⟨hIA, hsubA, hnoA⟩ := df_fold_clear _ hI hwnames h1
  have hclear : ∀ r ∈ dbA.spec, ¬(r.oid = id) := by
    intro r hr hc
    have hrdb : r ∈ db.spec := hsubA r hr
    have hfn : r.fname ∈ getFieldsList db id Option.none false := by
      simp only [getFieldsList]
      refine firstDistinct_mem (List.mem_map_of_mem _ ?_)
      exact List.mem_filter.mpr ⟨hrdb, by simp [hc]⟩
    exact hnoA r.fname hfn r hr ⟨hc, rfl⟩
  have hdb' : db' = deleteSpecification dbA id := (Except.ok.inj h2).symm
  subst hdb'
  have hfe : (dbA.spec.filter fun r => !(r.oid == id)) = dbA.spec :=
    List.filter_eq_self.mpr fun r hr => by
      simp only [Bool.not_eq_eq_eq_not, Bool.not_true, beq_eq_false_iff_ne]
      exact hclear r hr
  show Inv { dbA with spec := dbA.spec.filter fun r => !(r.oid == id) }
  rw [hfe]
  exact hIA

/-! ### Repair rebuilds a consistent specification table -/

theorem nodup_firstDistinctAux {α : Type} [BEq α] [LawfulBEq α] :
    ∀ (seen l : List α), (firstDistinctAux seen l).Nodup ∧
      ∀ x ∈ firstDistinctAux seen l, x ∉ seen := by
  intro seen l
  induction l generalizing seen with
  | nil => simp [firstDistinctAux]
  | cons a as ih =>
    simp only [firstDistinctAux]
    split
    · exact ih seen
    · rename_i hc
      obtain ⟨hnd, hnotin⟩ := ih (a :: seen)
      refine ⟨List.nodup_cons.mpr ⟨?_, hnd⟩, ?_⟩
      · intro hmem
        exact hnotin a hmem (List.mem_cons_self _ _)
      · intro x hx
        rcases List.mem_cons.mp hx with rfl | hx'
        · intro hxs
          exact hc (List.elem_eq_true_of_mem hxs)
        · intro hxs
          exact hnotin x hx' (List.mem_cons_of_mem a hxs)

/-- First-occurrence deduplication produces a duplicate-free list. -/
theorem nodup_firstDistinct {α : Type} [BEq α] [LawfulBEq α] (l : List α) :
    (firstDistinct l).Nodup :=
  (nodup_firstDistinctAux [] l).1

/-- No table carries the key: the scanned triples contain no entry for it. -/
theorem triples_countP_none (tabs : List (TKey × List Row)) (i : Int)
    (f : List NElem) (tg : TypeTag)
    (hno : ∀ t' ∈ tabs, t'.1 ≠ TKey.mk f tg) :
    ((tabs.flatMap fun t => t.2.map fun r =>
        (r.oid, t.1.fname, t.1.tag)).countP
      fun tr => tr.1 == i && tr.2.1 == f && tr.2.2 == tg) = 0 := by
  rw [List.countP_eq_zero]
  intro tr htr hp
  obtain ⟨t, ht, htr2⟩ := List.mem_flatMap.mp htr
  obtain ⟨⟨fn, tg0⟩, rws⟩ := t
  obtain ⟨r, hr, rfl⟩ := List.mem_map.mp htr2
  simp only [Bool.and_eq_true, beq_iff_eq] at hp
  exact hno _ ht (by rw [hp.1.2, hp.2])

/-- Counting scanned triples by full key equals the per-field table count,
provided the table keys are duplicate-free. -/
theorem triples_countP :
    ∀ (tabs : List (TKey × List Row)), (tabs.map Prod.fst).Nodup →
      ∀ (i : Int) (f : List NElem) (tg : TypeTag),
      ((tabs.flatMap fun t => t.2.map fun r =>
          (r.oid, t.1.fname, t.1.tag)).countP
        fun tr => tr.1 == i && tr.2.1 == f && tr.2.2 == tg) =
        (match (tabs.find? fun t => t.1 == TKey.mk f tg).map Prod.snd with
         | Option.none => 0
         | some rows => rows.countP fun r => r.oid == i) := by
  intro tabs
  induction tabs with
  | nil =>
    intro _ i f tg
    rfl
  | cons t ts ih =>
    intro hnd i f tg
    simp only [List.map_cons, List.nodup_cons] at hnd
    rw [List.flatMap_cons, List.countP_append, List.countP_map,
      List.find?_cons]
    cases hk : (t.1 == TKey.mk f tg) with
    | true =>
      have hkey : t.1 = TKey.mk f tg := beq_iff_eq.mp hk
      have hhead : (t.2.countP ((fun tr =>
          tr.1 == i && tr.2.1 == f && tr.2.2 == tg) ∘ fun r =>
            (r.oid, t.1.fname, t.1.tag))) =
          t.2.countP fun r => r.oid == i := by
        apply List.countP_congr
        intro r _
        simp only [Function.comp, hkey, Bool.and_eq_true, beq_iff_eq]
        cases hro : (r.oid == i) <;> simp [hro]
      have htail : ((ts.flatMap fun t => t.2.map fun r =>
          (r.oid, t.1.fname, t.1.tag)).countP
            fun tr => tr.1 == i && tr.2.1 == f && tr.2.2 == tg) = 0 := by
        apply triples_countP_none
        intro t' ht' hc
        apply hnd.1
        rw [hkey, ← hc]
        exact List.mem_map_of_mem Prod.fst ht'
      rw [hhead, htail]
      simp
    | false =>
      have hkey : ¬(t.1 = TKey.mk f tg) := by
        intro hc
        rw [hc] at hk
        simp at hk
      have hhead : (t.2.countP ((fun tr =>
          tr.1 == i && tr.2.1 == f && tr.2.2 == tg) ∘ fun r =>
            (r.oid, t.1.fname, t.1.tag))) = 0 := by
        rw [List.countP_eq_zero]
        intro r _ hp
        simp only [Function.comp, Bool.and_eq_true, beq_iff_eq] at hp
        have heq : TKey.mk t.1.fname t.1.tag = TKey.mk f tg := by
          rw [hp.1.2, hp.2]
        exact hkey ((rfl : t.1 = TKey.mk t.1.fname t.1.tag).trans heq)
      rw [hhead, ih hnd.2 i f tg]
      simp

/-- `repairSupportTables` rebuilds a specification table satisfying the
full invariant; it needs only duplicate-free, wildcarded table keys. -/
theorem repair_inv {db : DB} (hnd : (db.tables.map Prod.fst).Nodup)
    (hwT : ∀ p ∈ db.tables, noType (Prod.fst p).fname = (Prod.fst p).fname) :
    Inv (repairSupportTables db) := by
  show Inv { db with spec := repairSpec (db.tables.flatMap fun t =>
    t.2.map fun r => (r.oid, t.1.fname, t.1.tag)) }
  set L : List (Int × List NElem × TypeTag) := db.tables.flatMap fun t =>
    t.2.map fun r => (r.oid, t.1.fname, t.1.tag) with hL
  have hcnt : ∀ (i : Int) (f : List NElem) (tg : TypeTag),
      (L.countP fun tr => tr.1 == i && tr.2.1 == f && tr.2.2 == tg) =
        tableCount db i f tg := by
    intro i f tg
    rw [hL, triples_countP db.tables hnd i f tg]
    simp only [tableCount, DB.table?]
  have hchain : ∀ (i : Int) (nm : List NElem) (tg : TypeTag),
      (((L.filter fun tr => tr.1 == i).filter
          fun tr => tr.2.1 == nm).countP fun tr => tr.2.2 == tg) =
        tableCount db i nm tg := by
    intro i nm tg
    rw [List.countP_filter, List.countP_filter, ← hcnt i nm tg]
    apply List.countP_congr
    intro tr _
    cases h1 : (tr.1 == i) <;> cases h2 : (tr.2.1 == nm) <;>
      cases h3 : (tr.2.2 == tg) <;> rfl
  have htceq : ∀ (i : Int) (f : List NElem) (t : TypeTag),
      tableCount { db with spec := repairSpec L } i f t =
        tableCount db i f t := fun _ _ _ => rfl
  refine ⟨?_, hnd, ?_, ?_, ?_, ?_, hwT⟩
  · show ((repairSpec L).map SRow.key).Nodup
    simp only [repairSpec, List.map_flatMap, List.map_map]
    rw [List.nodup_flatMap]
    constructor
    · intro i hi
      rw [List.nodup_flatMap]
      constructor
      · intro nm hnm
        refine List.Nodup.map ?_ (nodup_firstDistinct _)
        intro a b hab
        simpa [SRow.key, Function.comp] using hab
      · refine List.Pairwise.imp ?_ (nodup_firstDistinct _)
        intro nm nm' hne x hx hx'
        obtain ⟨tg, htg, hxe⟩ := List.mem_map.mp hx
        obtain ⟨tg', htg', hxe'⟩ := List.mem_map.mp hx'
        apply hne
        simp only [Function.comp, SRow.key] at hxe hxe'
        have := hxe.trans hxe'.symm
        simp only [Prod.mk.injEq] at this
        exact this.2.1
    · refine List.Pairwise.imp ?_ (nodup_firstDistinct _)
      intro i i' hne x hx hx'
      obtain ⟨nm, hnm, hx2⟩ := List.mem_flatMap.mp hx
      obtain ⟨nm', hnm', hx2'⟩ := List.mem_flatMap.mp hx'
      obtain ⟨tg, htg, hxe⟩ := List.mem_map.mp hx2
      obtain ⟨tg', htg', hxe'⟩ := List.mem_map.mp hx2'
      apply hne
      simp only [Function.comp, SRow.key] at hxe hxe'
      have := hxe.trans hxe'.symm
      simp only [Prod.mk.injEq] at this
      exact this.1
  · intro s hs
    simp only [repairSpec, List.mem_flatMap, List.mem_map] at hs
    obtain ⟨i, hi, nm, hnm, tg, htg, rfl⟩ := hs
    rw [htceq]
    exact congrArg (fun n : Nat => (n : Int)) (hchain i nm tg)
  · intro s hs
    simp only [repairSpec, List.mem_flatMap, List.mem_map] at hs
    obtain ⟨i, hi, nm, hnm, tg, htg, rfl⟩ := hs
    obtain ⟨tr, htr, htreq⟩ := List.mem_map.mp (mem_of_firstDistinct htg)
    have hp : 0 < ((L.filter fun tr => tr.1 == i).filter
        fun tr => tr.2.1 == nm).countP fun tr => tr.2.2 == tg := by
      refine List.countP_pos_iff.mpr ⟨tr, htr, ?_⟩
      simp [htreq]
    show (1 : Int) ≤ _
    simp only [SRow.mk.injEq]
    omega
  · intro i f t hpos
    rw [htceq, ← hcnt i f t] at hpos
    obtain ⟨tr, htr, hp⟩ := List.countP_pos_iff.mp hpos
    simp only [Bool.and_eq_true, beq_iff_eq] at hp
    obtain ⟨⟨hp1, hp2⟩, hp3⟩ := hp
    have hsm : SRow.mk i f t ((((L.filter fun tr => tr.1 == i).filter
        fun tr => tr.2.1 == f).countP fun tr => tr.2.2 == t : Nat) : Int)
        ∈ repairSpec L := by
      simp only [repairSpec, List.mem_flatMap, List.mem_map]
      refine ⟨i, ?_, f, ?_, t, ?_, rfl⟩
      · exact firstDistinct_mem (List.mem_map.mpr ⟨tr, htr, hp1⟩)
      · refine firstDistinct_mem (List.mem_map.mpr
          ⟨tr, List.mem_filter.mpr ⟨htr, by simp [hp1]⟩, hp2⟩)
      · refine firstDistinct_mem (List.mem_map.mpr
          ⟨tr, List.mem_filter.mpr
            ⟨List.mem_filter.mpr ⟨htr, by simp [hp1]⟩, by simp [hp2]⟩, hp3⟩)
    exact ⟨_, hsm, rfl, rfl, rfl⟩
  · intro s hs
    simp only [repairSpec, List.mem_flatMap, List.mem_map] at hs
    obtain ⟨i, hi, nm, hnm, tg, htg, rfl⟩ := hs
    obtain ⟨tr, htrm, htreq⟩ := List.mem_map.mp (mem_of_firstDistinct hnm)
    have htrL : tr ∈ L := List.mem_of_mem_filter htrm
    rw [hL] at htrL
    obtain ⟨tb, htb, htr2⟩ := List.mem_flatMap.mp htrL
    obtain ⟨r, hr, rfl⟩ := List.mem_map.mp htr2
    show noType nm = nm
    rw [← htreq]
    exact hwT tb htb

/-- `processDeleteRequest` preserves the invariant. -/
theorem processDeleteRequest_inv {db : DB} (hI : Inv db) {id : Int}
    {fields? : Option (List (List NElem))} {db' : DB}
    (h : processDeleteRequest db id fields? = Except.ok db') : Inv db' := by
  cases fields? with
  | none => exact deleteObject_inv hI h
  | some fs =>
    exact foldlM_inv_ok Inv _
      (fun dbx nm dbx' hIx hs => deleteField_inv hIx hs) _ db db' hI h

/-- The empty database satisfies the invariant. -/
theorem inv_emptyDB : Inv emptyDB := by
  refine ⟨List.nodup_nil, List.nodup_nil, ?_, ?_, ?_, ?_, ?_⟩
  · intro r hr
    exact absurd hr (by simp [emptyDB])
  · intro r hr
    exact absurd hr (by simp [emptyDB])
  · intro i f t h
    have hz : tableCount emptyDB i f t = 0 := rfl
    omega
  · intro r hr
    exact absurd hr (by simp [emptyDB])
  · intro p hp
    exact absurd hp (by simp [emptyDB])

/-- Every request that completes preserves the invariant. -/
theorem processRequest_inv {db : DB} (hI : Inv db) {req : Request} {db' : DB}
    (h : processRequest db req = Except.ok db') : Inv db' := by
  cases req with
  | create newId fields =>
    simp only [processRequest, processCreateRequest] at h
    exact modifyFields_inv hI h
  | modify id path fields rc =>
    simp only [processRequest, processModifyRequest] at h
    exact modifyFields_inv hI h
  | insert id path groups rc =>
    simp only [processRequest] at h
    exact processInsertRequest_inv hI h
  | delete id fields? =>
    simp only [processRequest] at h
    exact processDeleteRequest_inv hI h
  | read id path? masks? =>
    simp only [processRequest] at h
    obtain ⟨x, h1, h2⟩ := bind_ok_inv h
    exact (Except.ok.inj h2) ▸ hI
  | search cond? =>
    simp only [processRequest] at h
    exact (Except.ok.inj h) ▸ hI
  | objExists id =>
    simp only [processRequest] at h
    exact (Except.ok.inj h) ▸ hI
  | dump =>
    simp only [processRequest] at h
    obtain ⟨x, h1, h2⟩ := bind_ok_inv h
    exact (Except.ok.inj h2) ▸ hI
  | repair =>
    simp only [processRequest] at h
    have hdb : db' = repairSupportTables db := (Except.ok.inj h).symm
    subst hdb
    exact repair_inv hI.nodupTables hI.tableWild

/-- C1: refcount consistency is an invariant preserved by every
request-processing operation. The empty database satisfies the inductive
invariant `Inv` (refcount consistency together with the structural
side-conditions that make it inductive), and every request that completes
— create, modify, insert, delete, read, search, objExists, dump, repair —
carries `Inv` to the resulting state; in particular the resulting state is
refcount-consistent: every specification row `(id, field, type, r)` has
exactly `r` rows with that id in the per-field table named by
`(field, type)`. -/
theorem claim_C1 :
    Inv emptyDB ∧
    ∀ (db : DB) (req : Request) (db' : DB), Inv db →
      processRequest db req = Except.ok db' →
      Inv db' ∧ RefcountConsistent db' := by
  refine ⟨inv_emptyDB, ?_⟩
  intro db req db' hI h
  have hI' : Inv db' := processRequest_inv hI h
  exact ⟨hI', hI'.counts⟩

/-- Witness for C1: a concrete create request on the empty database, whose
hypotheses are discharged by evaluation. -/
theorem claim_C1_witness :
    Inv emptyDB ∧
      RefcountConsistent (DB.mk [⟨1, [.s "a"], .ttext, 1⟩]
        [(⟨[.s "a"], .ttext⟩, [⟨1, .str "v", []⟩])]) :=
  ⟨claim_C1.1,
    (claim_C1.2 emptyDB (.create 1 [⟨[.s "a"], .str "v"⟩])
      (DB.mk [⟨1, [.s "a"], .ttext, 1⟩]
        [(⟨[.s "a"], .ttext⟩, [⟨1, .str "v", []⟩])])
      claim_C1.1 rfl).2⟩

end Brain
